import Mathlib

/-! Avatar animation and gesture engine (`src/web/app.js`).

A shallow embedding of the `avatar3d` engine of `src/web/app.js` and of the
helpers it calls, followed by theorems about it.

Conventions of the embedding.

* A JavaScript string is a `List Char` (`JsString`).
* `String.prototype.toLowerCase` is the ASCII map `A-Z ↦ a-z`; the Unicode
  case mappings outside ASCII are not modelled.  Every literal the program
  compares lowercased text against is ASCII.  Where a theorem speaks of
  arbitrary text (the normal form of `normalizeKey`, the heuristic chain of
  `gestureForText`), the function is embedded a second time with the
  lowercasing method as a parameter (`normalizeKeyWith`,
  `gestureForTextWith`), and the theorem holds for every such method, the
  Unicode one included.
* The regular-expression literals of the source are values of `Regex`, run by
  a backtracking matcher (`Regex.run`); only the constructs that occur in the
  source are present.
* `new RegExp(k, 'i')` on a user-supplied pattern is a parameter `regExp`:
  `none` when the constructor throws, `some test` otherwise.
* Numbers are rationals (`JsNumber` adds `NaN` and the infinities where the
  code inspects a JSON value).
-/

namespace Avatar3d

/-! ## Strings -/

/-- A JavaScript string. -/
abbrev JsString := List Char

/-- Lowercase one character (ASCII letters only). -/
def lowerChar (c : Char) : Char :=
  if 65 ≤ c.toNat ∧ c.toNat ≤ 90 then Char.ofNat (c.toNat + 32) else c

/-- Uppercase one character (ASCII letters only). -/
def upperChar (c : Char) : Char :=
  if 97 ≤ c.toNat ∧ c.toNat ≤ 122 then Char.ofNat (c.toNat - 32) else c

/-- The method `String.prototype.toLowerCase`. -/
def toLowerCase (s : JsString) : JsString := s.map lowerChar

/-- The method `String.prototype.includes`: `w` occurs in `s` as a substring. -/
def includes : JsString → JsString → Bool
  | [], w => w.isEmpty
  | c :: cs, w => w.isPrefixOf (c :: cs) || includes cs w

/-! ## Regular expressions -/

/-- The regular-expression constructs used by the literals of `app.js`. -/
inductive Regex where
  /-- A sequence of literal characters. -/
  | chars (cs : List Char)
  /-- Alternation `a|b`. -/
  | alt (a b : Regex)
  /-- Concatenation. -/
  | seq (a b : Regex)
  /-- The assertion `$` (no `m` flag: end of input). -/
  | eol
  /-- The assertion `\b`. -/
  | wordBoundary

/-- A position in the input: the text already consumed, reversed, and the
text still ahead. -/
abbrev Pos := List Char × List Char

/-- Word characters of `\b`: `[A-Za-z0-9_]`. -/
def isWordChar (c : Char) : Bool :=
  (48 ≤ c.toNat && c.toNat ≤ 57) || (65 ≤ c.toNat && c.toNat ≤ 90) ||
    (97 ≤ c.toNat && c.toNat ≤ 122) || c.toNat == 95

/-- Whether the character next to a position (if any) is a word character. -/
def sideIsWord (side : List Char) : Bool :=
  match side with
  | [] => false
  | c :: _ => isWordChar c

/-- The assertion `\b` holds where exactly one side is a word character. -/
def atWordBoundary (p : Pos) : Bool := sideIsWord p.1 != sideIsWord p.2

/-- Canonicalisation of a character for comparison: with the `i` flag a
character is compared by its uppercase form. -/
def canonicalize (ignoreCase : Bool) (c : Char) : Char :=
  if ignoreCase then upperChar c else c

/-- Match a literal character sequence at a position. -/
def matchChars (ignoreCase : Bool) : List Char → Pos → Option Pos
  | [], p => some p
  | _ :: _, (_, []) => none
  | x :: xs, (before, c :: after) =>
    if canonicalize ignoreCase x = canonicalize ignoreCase c then
      matchChars ignoreCase xs (c :: before, after)
    else none

/-- All the positions at which a match of the expression started at `p` can
end, in the order a backtracking matcher tries them. -/
def Regex.run (ignoreCase : Bool) : Regex → Pos → List Pos
  | .chars cs, p => (matchChars ignoreCase cs p).toList
  | .alt a b, p => a.run ignoreCase p ++ b.run ignoreCase p
  | .seq a b, p => ((a.run ignoreCase p).map (b.run ignoreCase)).flatten
  | .eol, p => if p.2.isEmpty then [p] else []
  | .wordBoundary, p => if atWordBoundary p then [p] else []

/-- The first match of the expression in the text ahead of `p`, trying every
start position from left to right: the start and the end position. -/
def Regex.exec (ignoreCase : Bool) (r : Regex) (before : List Char) :
    List Char → Option (Pos × Pos)
  | [] =>
    match r.run ignoreCase (before, []) with
    | [] => none
    | e :: _ => some ((before, []), e)
  | c :: after =>
    match r.run ignoreCase (before, c :: after) with
    | [] => Regex.exec ignoreCase r (c :: before) after
    | e :: _ => some ((before, c :: after), e)

/-- The method `RegExp.prototype.test` (expression without the `g` flag). -/
def Regex.test (ignoreCase : Bool) (r : Regex) (s : JsString) : Bool :=
  (r.exec ignoreCase [] s).isSome

/-- The call `s.replace(r, '')` for an expression without the `g` flag: the
first match is removed. -/
def Regex.removeFirst (ignoreCase : Bool) (r : Regex) (s : JsString) : JsString :=
  match r.exec ignoreCase [] s with
  | none => s
  | some (start, stop) => start.1.reverse ++ stop.2

/-- A literal word of a regular expression. -/
def Regex.word (w : String) : Regex := .chars w.toList

/-- An alternation of literal words `(w1|w2|...)`. -/
def Regex.words : List String → Regex
  | [] => .chars []
  | [w] => .word w
  | w :: ws => .alt (.word w) (Regex.words ws)

/-! ## normalizeKey -/

/-- The class `[a-z0-9]`. -/
def isLowerAlnum (c : Char) : Bool :=
  (97 ≤ c.toNat && c.toNat ≤ 122) || (48 ≤ c.toNat && c.toNat ≤ 57)

/-- The call `s.replace(/[^a-z0-9]+/g, ' ')`: every maximal run of characters
outside `[a-z0-9]` becomes one space.  The flag tells whether the previous
character belonged to a run that has already been replaced. -/
def replaceRuns : Bool → JsString → JsString
  | _, [] => []
  | inRun, c :: cs =>
    if isLowerAlnum c then c :: replaceRuns false cs
    else if inRun then replaceRuns true cs
    else ' ' :: replaceRuns true cs

/-- White space and line terminators, the characters `trim` strips. -/
def isWhiteSpace (c : Char) : Bool :=
  [9, 10, 11, 12, 13, 32, 160, 5760, 8232, 8233, 8239, 8287, 12288, 65279].contains c.toNat ||
    (8192 ≤ c.toNat && c.toNat ≤ 8202)

/-- The method `String.prototype.trim`. -/
def trim (s : JsString) : JsString :=
  ((s.dropWhile isWhiteSpace).reverse.dropWhile isWhiteSpace).reverse

/-- The function `normalizeKey`:
`String(s).toLowerCase().replace(/[^a-z0-9]+/g, ' ').trim()`. -/
def normalizeKey (s : JsString) : JsString :=
  trim (replaceRuns false (toLowerCase s))

/-- The function `normalizeKey` with the method `String.prototype.toLowerCase`
taken as the parameter `lower`:
`lower(String(s)).replace(/[^a-z0-9]+/g, ' ').trim()`.  The parameter stands
for the full Unicode lowercasing of the language, which also maps letters
outside ASCII (the Kelvin sign to `k`, for one) and may change the length of
the text; `normalizeKey` is the instance at the ASCII map. -/
def normalizeKeyWith (lower : JsString → JsString) (s : JsString) : JsString :=
  trim (replaceRuns false (lower s))

/-- The expression `/\.fbx$/i`. -/
def fbxSuffix : Regex := .seq (.word ".fbx") .eol

/-- The registry key derived from a file name:
`normalizeKey(filename.replace(/\.fbx$/i, ''))`. -/
def fileKey (filename : JsString) : JsString :=
  normalizeKey (fbxSuffix.removeFirst true filename)

/-! ### normalizeKey as the specification words it -/

/-- The text `out` is `s` with every maximal run of characters outside
`[a-z0-9]` replaced by one space. -/
inductive CollapsesTo : JsString → JsString → Prop
  | nil : CollapsesTo [] []
  | keep (c : Char) (s out : JsString) : isLowerAlnum c = true → CollapsesTo s out →
      CollapsesTo (c :: s) (c :: out)
  | run (r rest out : JsString) : r ≠ [] → (∀ c ∈ r, isLowerAlnum c = false) →
      (∀ c, rest.head? = some c → isLowerAlnum c = true) → CollapsesTo rest out →
      CollapsesTo (r ++ rest) (' ' :: out)

/-- The text `t` is `s` trimmed: `s` without its leading and trailing white
space. -/
def IsTrimOf (s t : JsString) : Prop :=
  ∃ pre post, s = pre ++ t ++ post ∧ (∀ c ∈ pre, isWhiteSpace c = true) ∧
    (∀ c ∈ post, isWhiteSpace c = true) ∧
    (∀ c, t.head? = some c → isWhiteSpace c = false) ∧
    (∀ c, t.getLast? = some c → isWhiteSpace c = false)

/-- No two neighbours are both spaces. -/
def NoDoubleSpace (l : JsString) : Prop :=
  l.Chain' (fun a b => ¬ (a = ' ' ∧ b = ' '))

/-! ## Clips and the root-motion filter of `loadAnimationFile` -/

/-- A keyframe track of a clip: its name (`''` when absent, as in
`t.name || ''`) and its keyframe data, which the engine never inspects. -/
structure KeyframeTrack where
  name : JsString
  data : Nat
deriving DecidableEq

/-- An animation clip as delivered by the loader.  The name is `''` when the
clip has none; `tracks` is `none` when the clip has no track array. -/
structure AnimationClip where
  name : JsString
  duration : ℚ
  tracks : Option (List KeyframeTrack)
deriving DecidableEq

/-- The list `rootKeys` of `isRootMotionTrack`. -/
def rootKeys : List JsString :=
  ["root", "hips", "pelvis", "mixamo", "mixamorig", "bip", "reference"].map String.toList

/-- The class `[.\/\/:#]` the track name is split on. -/
def isPathSeparator (c : Char) : Bool :=
  c == '.' || c == '/' || c == ':' || c == '#'

/-- The expression `s.split(/[.\/\/:#]/)[0]`: the text before the first
separator (the whole text when there is none). -/
def firstSegment (s : JsString) : JsString :=
  s.takeWhile (fun c => !isPathSeparator c)

/-- The helper `isRootMotionTrack` of `loadAnimationFile`. -/
def isRootMotionTrack (trackName : JsString) : Bool :=
  let base := toLowerCase (firstSegment trackName)
  rootKeys.any (fun rk => includes base rk)

/-- The expression `/\.position$|\.quaternion$|\.rotation$/i`. -/
def transformChannel : Regex :=
  .alt (.seq (.word ".position") .eol)
    (.alt (.seq (.word ".quaternion") .eol) (.seq (.word ".rotation") .eol))

/-- The callback of `clip.tracks.filter` in `loadAnimationFile`: whether a
track is kept. -/
def keepTrack (t : KeyframeTrack) : Bool :=
  let tn := t.name
  let isTransform := transformChannel.test true tn
  if !isTransform then true
  else if !isRootMotionTrack tn then true
  else false

/-- The track list given to the sanitized clip:
`clip.tracks ? clip.tracks.filter(...) : []`. -/
def sanitizedTracks (clip : AnimationClip) : List KeyframeTrack :=
  match clip.tracks with
  | some ts => ts.filter keepTrack
  | none => []

/-- The name a clip is registered under: `normalizeKey(rawName)` for
`rawName = clip.name || key`, unless `rawName` is empty or `'take_001'`,
in which case it is the file key. -/
def registrationName (key : JsString) (clip : AnimationClip) : JsString :=
  let rawName := if clip.name.isEmpty then key else clip.name
  if !rawName.isEmpty && rawName != "take_001".toList then normalizeKey rawName else key

/-- The sanitized clip `new AnimationClip(name, clip.duration, tracks)` that
`loadAnimationFile` registers for a loaded clip. -/
def safeClip (key : JsString) (clip : AnimationClip) : AnimationClip :=
  { name := registrationName key clip
    duration := clip.duration
    tracks := some (sanitizedTracks clip) }

/-! ### The filter as the specification words it -/

/-- The channel suffixes of a transform track. -/
def transformSuffixes : List JsString :=
  [".position", ".quaternion", ".rotation"].map String.toList

/-- A track name ends in `.position`, `.quaternion` or `.rotation`, letter
case ignored. -/
def EndsInTransformChannel (name : JsString) : Prop :=
  ∃ ch ∈ transformSuffixes, ch <:+ toLowerCase name

/-- The text `bone` is the part of `name` before its first `.`, `/`, `:` or
`#`. -/
def IsBonePart (name bone : JsString) : Prop :=
  (∀ c ∈ bone, isPathSeparator c = false) ∧
    (name = bone ∨ ∃ sep rest, isPathSeparator sep = true ∧ name = bone ++ sep :: rest)

/-- The lowercased bone part of a track name contains a root-motion keyword. -/
def TargetsRootKeyword (name : JsString) : Prop :=
  ∃ bone, IsBonePart name bone ∧ ∃ kw ∈ rootKeys, kw <:+: toLowerCase bone

/-- A root-motion track: a transform channel on a bone whose name contains a
root-motion keyword. -/
def IsRootMotionTransform (name : JsString) : Prop :=
  EndsInTransformChannel name ∧ TargetsRootKeyword name

/-! ## Numbers and the override document -/

/-- A JavaScript number: a finite value (a rational here), `NaN`, or an
infinity. -/
inductive JsNumber where
  | fin (x : ℚ)
  | nan
  | posInf
  | negInf
deriving DecidableEq

/-- The comparison `n > 0`. -/
def JsNumber.isPositive : JsNumber → Bool
  | .fin x => decide (0 < x)
  | .nan => false
  | .posInf => true
  | .negInf => false

/-- The quotient `d / n` for a finite `d` (the sign of a zero divisor is
not tracked). -/
def JsNumber.divInto (d : ℚ) : JsNumber → JsNumber
  | .fin x =>
    if x = 0 then (if d = 0 then .nan else if 0 < d then .posInf else .negInf)
    else .fin (d / x)
  | .nan => .nan
  | .posInf => .fin 0
  | .negInf => .fin 0

/-- The sum `a + n` for a finite `a`. -/
def JsNumber.addTo (a : ℚ) : JsNumber → JsNumber
  | .fin x => .fin (a + x)
  | n => n

/-- A value read from an options object or a JSON document, as far as
`typeof v === 'number'` distinguishes it. -/
inductive JsValue where
  | undefined
  | number (n : JsNumber)
  | other
deriving DecidableEq

/-- An entry of the override document `MODEL_OVERRIDES`. -/
structure Overrides where
  rotX : JsValue := .undefined
  scale : JsValue := .undefined
  translate : Option (ℚ × ℚ × ℚ) := none
  zoom : JsValue := .undefined
  vOffset : JsValue := .undefined
  log : Bool := false
deriving DecidableEq

/-- The override document: its entries `model.fbx` and `default`, each `none`
when absent or falsy. -/
structure ModelOverrides where
  modelFbx : Option Overrides := none
  default : Option Overrides := none
deriving DecidableEq

/-- The expression
`MODEL_OVERRIDES && (MODEL_OVERRIDES['model.fbx'] || MODEL_OVERRIDES['default'])`;
the document itself is `none` when it is falsy. -/
def activeOverrides (doc : Option ModelOverrides) : Option Overrides :=
  match doc with
  | none => none
  | some d =>
    match d.modelFbx with
    | some o => some o
    | none => d.default

/-- A camera position. -/
structure CameraPosition where
  x : JsNumber
  y : JsNumber
  z : JsNumber
deriving DecidableEq

/-! ## Actions and the registry -/

/-- The constant `THREE.LoopOnce`. -/
def LoopOnce : Nat := 2200

/-- The constant `THREE.LoopRepeat`. -/
def LoopRepeat : Nat := 2201

/-- The fields of a Three.js `AnimationAction` that the engine's calls read
or write.  `fade` is the scheduled weight interpolation (duration, start
weight, end weight); `active` tells whether `play()` has activated the action
in the mixer. -/
structure AnimationAction where
  clip : AnimationClip
  enabled : Bool := true
  paused : Bool := false
  time : ℚ := 0
  weight : ℚ := 1
  loop : Nat := LoopRepeat
  clampWhenFinished : Bool := false
  fade : Option (ℚ × ℚ × ℚ) := none
  active : Bool := false
deriving DecidableEq

/-- The method `AnimationAction.reset`. -/
def AnimationAction.reset (a : AnimationAction) : AnimationAction :=
  { a with paused := false, enabled := true, time := 0, fade := none }

/-- The method `AnimationAction.setLoop`. -/
def AnimationAction.setLoop (a : AnimationAction) (mode : Nat) : AnimationAction :=
  { a with loop := mode }

/-- The method `AnimationAction.fadeIn`. -/
def AnimationAction.fadeIn (a : AnimationAction) (duration : ℚ) : AnimationAction :=
  { a with fade := some (duration, 0, 1) }

/-- The method `AnimationAction.fadeOut`. -/
def AnimationAction.fadeOut (a : AnimationAction) (duration : ℚ) : AnimationAction :=
  { a with fade := some (duration, 1, 0) }

/-- The method `AnimationAction.play`. -/
def AnimationAction.play (a : AnimationAction) : AnimationAction :=
  { a with active := true }

/-- The method `AnimationAction.setEffectiveWeight`. -/
def AnimationAction.setEffectiveWeight (a : AnimationAction) (w : ℚ) : AnimationAction :=
  { a with weight := w, fade := none }

/-- What a property read on `this.actions` can yield: an action created by the
mixer (by creation index), or a member inherited from `Object.prototype`
(`actions` is created by the object literal `{}`). -/
inductive ObjRef where
  | action (id : Nat)
  | inherited (key : JsString)
deriving DecidableEq

/-- The property names of `Object.prototype`. -/
def objectPrototypeKeys : List JsString :=
  ["constructor", "hasOwnProperty", "isPrototypeOf", "propertyIsEnumerable", "toLocaleString",
    "toString", "valueOf", "__defineGetter__", "__defineSetter__", "__lookupGetter__",
    "__lookupSetter__", "__proto__"].map String.toList

/-- The own properties of `this.actions`, in creation order: key and the
index of the action it refers to. -/
abbrev Registry := List (JsString × Nat)

/-- The read `this.actions[key]`: the own property if there is one, else the
member of `Object.prototype` of that name, else `undefined` (`none`).  Every
value it can yield is truthy. -/
def Registry.get (reg : Registry) (key : JsString) : Option ObjRef :=
  match reg.lookup key with
  | some id => some (.action id)
  | none => if objectPrototypeKeys.contains key then some (.inherited key) else none

/-- The write `this.actions[key] = action` (for the keys the engine writes,
which are `normalizeKey` outputs): an existing own property keeps its place. -/
def Registry.set : Registry → JsString → Nat → Registry
  | [], key, id => [(key, id)]
  | (k, v) :: rest, key, id =>
    if k = key then (k, id) :: rest else (k, v) :: Registry.set rest key id

/-- The numeric value of a string of decimal digits. -/
def digitsValue (s : JsString) : Nat :=
  s.foldl (fun n c => 10 * n + (c.toNat - 48)) 0

/-- Whether a property key is an array index (a canonical numeric string
below `2^32 - 1`); such keys are enumerated first, in ascending order. -/
def isArrayIndex (s : JsString) : Bool :=
  match s with
  | [] => false
  | c :: cs =>
    (c :: cs).all (fun d => 48 ≤ d.toNat && d.toNat ≤ 57) &&
      (c != '0' || cs.isEmpty) && decide (digitsValue (c :: cs) < 4294967295)

/-- The call `Object.keys(this.actions)`: the own keys, array indices first in
ascending numeric order, then the other keys in creation order. -/
def Registry.keys (reg : Registry) : List JsString :=
  let ks := reg.map Prod.fst
  (ks.filter isArrayIndex).insertionSort (fun a b => digitsValue a ≤ digitsValue b) ++
    ks.filter (fun k => !isArrayIndex k)

/-! ## loadBaseModel: orientation, overrides and scale -/

/-- The candidate rotations about the x axis that `loadBaseModel` tries:
`[0, -Math.PI / 2, Math.PI / 2, Math.PI]`. -/
inductive Rotation where
  | zero
  | negHalfPi
  | halfPi
  | pi
deriving DecidableEq

/-- The array `candidates` of `loadBaseModel`. -/
def rotationCandidates : List Rotation := [.zero, .negHalfPi, .halfPi, .pi]

/-- The world bounding box of the model: `box.getSize(..)` and
`box.getCenter(..)`, as (x, y, z). -/
structure BoxMeasure where
  size : ℚ × ℚ × ℚ
  center : ℚ × ℚ × ℚ
deriving DecidableEq

/-- The record `best` of `loadBaseModel`. -/
structure BestRotation where
  rot : Rotation
  sizeY : ℚ
  centerY : ℚ
deriving DecidableEq

/-- The tolerance `1e-6` under which two vertical sizes count as tied. -/
def tieTolerance : ℚ := 1 / 1000000

/-- The body of the loop `for (const r of candidates)`: `measure r` is the
bounding box with `obj.rotation.x = r`, or `none` when `box.setFromObject`
throws, which the inner `catch` ignores. -/
def considerRotation (measure : Rotation → Option BoxMeasure) (best : BestRotation)
    (r : Rotation) : BestRotation :=
  match measure r with
  | none => best
  | some box =>
    if box.size.2.1 > best.sizeY ∨
        (|box.size.2.1 - best.sizeY| < tieTolerance ∧ box.center.2.1 > best.centerY) then
      { rot := r, sizeY := box.size.2.1, centerY := box.center.2.1 }
    else best

/-- The record `best` after the loop over the candidates, started from
`{ rot: 0, sizeY: 0, centerY: 0 }`. -/
def selectRotation (measure : Rotation → Option BoxMeasure) : BestRotation :=
  rotationCandidates.foldl (considerRotation measure) { rot := .zero, sizeY := 0, centerY := 0 }

/-- The invariant of the selection loop over the candidates tried so far:
either `best` is still the initial record and no candidate tried could
replace it, or `best` records a candidate tried whose vertical size is the
largest so far and whose centre is the highest among those of that size. -/
def SelectionInv (m : Rotation → BoxMeasure) (tried : List Rotation) (best : BestRotation) :
    Prop :=
  (best = { rot := .zero, sizeY := 0, centerY := 0 } ∧
      ∀ r ∈ tried, (m r).size.2.1 ≤ 0 ∧
        (|(m r).size.2.1| < tieTolerance → (m r).center.2.1 ≤ 0)) ∨
    (best.rot ∈ tried ∧ best.sizeY = (m best.rot).size.2.1 ∧
      best.centerY = (m best.rot).center.2.1 ∧
      (∀ r ∈ tried, (m r).size.2.1 ≤ best.sizeY) ∧
      ∀ r ∈ tried, (m r).size.2.1 = best.sizeY → (m r).center.2.1 ≤ best.centerY)

/-- A rotation angle of the model: a number, or one of the candidate angles
`-Math.PI / 2`, `Math.PI / 2`, `Math.PI` (the candidate 0 is the number 0). -/
inductive Angle where
  | number (n : JsNumber)
  | negHalfPi
  | halfPi
  | pi
deriving DecidableEq

/-- The angle a candidate stands for. -/
def Rotation.toAngle : Rotation → Angle
  | .zero => .number (.fin 0)
  | .negHalfPi => .negHalfPi
  | .halfPi => .halfPi
  | .pi => .pi

/-- The transform of the model: `rotation`, `scale` and `position` of the
loaded object. -/
structure ModelTransform where
  rotationX : Angle
  rotationY : Angle
  rotationZ : Angle
  scale : JsNumber × JsNumber × JsNumber
  position : JsNumber × JsNumber × JsNumber
deriving DecidableEq

/-- The object the FBX loader delivers for `model.fbx`: its transform, and
the world bounding box `box.setFromObject(obj)` yields once `obj.rotation.x`
is set to a candidate (`none` when the call throws). -/
structure LoadedObject where
  transform : ModelTransform
  measure : Rotation → Option BoxMeasure

/-- The call `obj.scale.setScalar(v)`. -/
def ModelTransform.setScalar (t : ModelTransform) (v : JsNumber) : ModelTransform :=
  { t with scale := (v, v, v) }

/-- The block `if (overrides) { ... }` of `loadBaseModel`. -/
def applyOverrides (overrides : Option Overrides) (t : ModelTransform) : ModelTransform :=
  match overrides with
  | none => t
  | some o =>
    -- if (typeof overrides.rotX === 'number') obj.rotation.x = overrides.rotX
    let t :=
      match o.rotX with
      | .number n => { t with rotationX := .number n }
      | _ => t
    -- if (typeof overrides.scale === 'number') obj.scale.setScalar(overrides.scale)
    let t :=
      match o.scale with
      | .number n => t.setScalar n
      | _ => t
    -- if (overrides.translate is an array of length 3) obj.position.set(..)
    match o.translate with
    | some (x, y, z) => { t with position := (.fin x, .fin y, .fin z) }
    | none => t

/-- The value `maxDim`: `Math.max(size.x, size.y, size.z)`. -/
def BoxMeasure.maxDim (box : BoxMeasure) : ℚ :=
  max box.size.1 (max box.size.2.1 box.size.2.2)

/-- The block `if (maxDim > 0 && (maxDim < 0.2 || maxDim > 5)) { ... }` of
`loadBaseModel`: the model is rescaled by `1 / maxDim`, clamped to
`[0.01, 100]`. -/
def autoScale (box : BoxMeasure) (t : ModelTransform) : ModelTransform :=
  if 0 < box.maxDim ∧ (box.maxDim < 1 / 5 ∨ 5 < box.maxDim) then
    t.setScalar (.fin (max (1 / 100) (min (1 / box.maxDim) 100)))
  else t

/-- The transform `loadBaseModel` leaves the loaded object with.  When the
bounding box of the chosen rotation cannot be computed the outer `catch`
skips the overrides, the yaw/roll reset and the rescaling. -/
def normalizeModel (doc : Option ModelOverrides) (obj : LoadedObject) : ModelTransform :=
  -- obj.rotation.x = 0; ...; obj.rotation.x = best.rot
  let best := selectRotation obj.measure
  let t := { obj.transform with rotationX := best.rot.toAngle }
  -- box.setFromObject(obj): the box all later steps use
  match obj.measure best.rot with
  | none => t
  | some box =>
    let t := applyOverrides (activeOverrides doc) t
    -- obj.rotation.y = 0; obj.rotation.z = 0
    let t := { t with rotationY := .number (.fin 0), rotationZ := .number (.fin 0) }
    autoScale box t

/-! ## The engine -/

/-- The callbacks handed to `setTimeout`: those of the gesture loop
(`loopOnce`, and the arrow function that re-arms `loopOnce` after a gesture)
and those of the animation prefetch. -/
inductive Callback where
  | loopOnce (minInterval maxInterval : ℚ)
  | rearm (minInterval maxInterval : ℚ)
  /-- The arrow function `() => this.prefetchAnimations()` of `init`. -/
  | prefetch
  /-- The arrow function `() => { this.loadAnimationFile(f).catch(..) }` of
  `prefetchAnimations`. -/
  | loadFile (filename : JsString)
deriving DecidableEq

/-- A pending timeout. -/
structure Timer where
  id : Nat
  delay : ℚ
  callback : Callback
deriving DecidableEq

/-- The state of the `avatar3d` object (the fields the modelled methods use;
of the camera only its position, `none` before the camera exists), the
action objects created so far (`heap`), the asset loads issued through the
FBX loader (`loads`) and the pending timeouts. -/
structure Engine where
  ready : Bool := false
  mixer : Bool := false
  root : Option ModelTransform := none
  cameraPosition : Option CameraPosition := none
  heap : List AnimationAction := []
  actions : Registry := []
  currentAction : Option ObjRef := none
  idleActionName : Option JsString := none
  gestureLoopTimer : Option Nat := none
  gestureLoopRunning : Bool := false
  loads : List JsString := []
  timers : List Timer := []
  nextTimerId : Nat := 1
deriving DecidableEq

/-- Apply a method to the action object with the given index. -/
def Engine.updateAction (st : Engine) (id : Nat) (f : AnimationAction → AnimationAction) :
    Engine :=
  { st with heap := st.heap.modify f id }

/-- A method call on whatever a reference denotes, inside `try`/`catch`: on an
action the method runs; on a member of `Object.prototype` the call throws a
`TypeError`, which the `catch` swallows, and nothing changes. -/
def Engine.tryCall (st : Engine) (ref : ObjRef) (f : AnimationAction → AnimationAction) :
    Engine :=
  match ref with
  | .action id => st.updateAction id f
  | .inherited _ => st

/-! ### loadBaseModel -/

/-- An error value (what a promise is rejected with). -/
abbrev JsError := JsString

/-- What the FBX loader does with `model.fbx`: it calls `onError` with an
error, or `onLoad` with the loaded object. -/
inductive BaseModelOutcome where
  | failed (err : JsError)
  | loaded (obj : LoadedObject)

/-- The method `loadBaseModel()`: the engine afterwards, and the error its
promise is rejected with, if any. -/
def loadBaseModel (doc : Option ModelOverrides) (outcome : BaseModelOutcome) (st : Engine) :
    Engine × Option JsError :=
  match outcome with
  | .failed err => (st, some err)
  | .loaded obj => ({ st with root := some (normalizeModel doc obj), mixer := true }, none)

/-! ### loadAnimationFile -/

/-- What the FBX loader does with a file: it calls `onError`, or it calls
`onLoad` with an object whose animations are the given clips (the empty list
when the object or its `animations` array is missing or empty). -/
inductive LoadOutcome where
  | failed
  | loaded (animations : List AnimationClip)

/-- The list `candidates` of idle names in `loadAnimationFile`. -/
def idleCandidates : List JsString :=
  ["idle", "idle breathing", "breathing", "weight shift", "talking"].map String.toList

/-- Whether `this.idleActionName` is truthy. -/
def Engine.hasIdle (st : Engine) : Bool :=
  match st.idleActionName with
  | none => false
  | some n => !n.isEmpty

/-- The loop `for (const c of candidates) if (this.actions[normalizeKey(c)])
{ this.idleActionName = normalizeKey(c); break; }`: the name it assigns, if
any. -/
def firstRegisteredIdle (reg : Registry) : List JsString → Option JsString
  | [] => none
  | c :: cs =>
    if (reg.get (normalizeKey c)).isSome then some (normalizeKey c)
    else firstRegisteredIdle reg cs

/-- The body of the loop `for (const clip of animObj.animations)` of
`loadAnimationFile`. -/
def registerClip (key : JsString) (st : Engine) (clip : AnimationClip) : Engine :=
  let name := registrationName key clip
  -- const action = this.mixer.clipAction(safeClip): a new action object
  let action : AnimationAction := { clip := safeClip key clip }
  -- action.enabled = true; action.setEffectiveWeight(1); action.clampWhenFinished = true
  let action := { ({ action with enabled := true }).setEffectiveWeight 1 with
    clampWhenFinished := true }
  let id := st.heap.length
  let st := { st with heap := st.heap ++ [action] }
  -- this.actions[name] = action
  let st := { st with actions := st.actions.set name id }
  -- if (key && !this.actions[key]) this.actions[key] = action
  let st :=
    if !key.isEmpty && (st.actions.get key).isNone then
      { st with actions := st.actions.set key id }
    else st
  -- set idle action if we don't have one yet
  if !st.hasIdle then
    match firstRegisteredIdle st.actions idleCandidates with
    | some c => { st with idleActionName := some c }
    | none => { st with idleActionName := some name }
  else st

/-- The registry after `registerClip`: the clip's name is written first, then
the file key if it is non-empty and not yet readable. -/
def registryAfter (key : JsString) (st : Engine) (clip : AnimationClip) : Registry :=
  let reg := st.actions.set (registrationName key clip) st.heap.length
  if !key.isEmpty && (reg.get key).isNone then reg.set key st.heap.length else reg

/-- The method `loadAnimationFile(filename)`, with the loader's callback run
to completion before anything else happens.  `loader` tells what the FBX
loader delivers for a file. -/
def loadAnimationFile (loader : JsString → LoadOutcome) (st : Engine) (filename : JsString) :
    Engine :=
  if filename.isEmpty then st
  else
    let key := fileKey filename
    if (st.actions.get key).isSome then st
    else
      let st := { st with loads := st.loads ++ [filename] }
      match loader filename with
      | .failed => st
      | .loaded animations =>
        if !animations.isEmpty && st.mixer then animations.foldl (registerClip key) st
        else st

/-! ### play -/

/-- The `loop` option of `play`: a string, a number, or any other value. -/
inductive LoopArg where
  | str (s : JsString)
  | num (n : Nat)
  | other
deriving DecidableEq

/-- The options object of `play`; an absent field takes its default
(`fade = 0.25`, `loop = 'repeat'`). -/
structure PlayOptions where
  fade : Option ℚ := none
  loop : Option LoopArg := none
deriving DecidableEq

/-- The loop mode `play` computes from its `loop` option (with Three.js
loaded, so that `THREE.LoopRepeat` and `THREE.LoopOnce` are defined). -/
def loopModeOf (loop : LoopArg) : Nat :=
  match loop with
  | .str s => if s = "once".toList then LoopOnce else LoopRepeat
  | .num n => n
  | .other => LoopRepeat

/-- The method `play(name, { fade, loop })`. -/
def play (st : Engine) (name : JsString) (opts : PlayOptions := {}) : Engine :=
  let fade := opts.fade.getD (1 / 4)
  let loop := opts.loop.getD (.str "repeat".toList)
  if !st.ready then st
  else
    let key := normalizeKey name
    match st.actions.get key with
    | none => st
    | some action =>
      let loopMode := loopModeOf loop
      -- try { action.reset(); action.setLoop(..); action.fadeIn(fade); action.play();
      --       action.enabled = true } catch (e) { .. }
      let st := st.tryCall action (fun a =>
        { (((a.reset).setLoop loopMode).fadeIn fade).play with enabled := true })
      let st :=
        match st.currentAction with
        | some cur => if cur ≠ action then st.tryCall cur (fun a => a.fadeOut fade) else st
        | none => st
      { st with currentAction := some action }

/-! ### The gesture loop -/

/-- What `loopOnce` reads from outside the engine: whether the `speak-toggle`
element exists and is checked, whether `speechSynthesis.speaking` holds, and
the value `Math.random()` returns. -/
structure LoopEnv where
  speakToggleChecked : Bool
  speaking : Bool
  random : ℚ

/-- The assignment `this._gestureLoopTimer = setTimeout(callback, delay)`. -/
def Engine.armTimer (st : Engine) (callback : Callback) (delay : ℚ) : Engine :=
  { st with
    timers := st.timers ++ [{ id := st.nextTimerId, delay := delay, callback := callback }]
    gestureLoopTimer := some st.nextTimerId
    nextTimerId := st.nextTimerId + 1 }

/-- The filter callback of `loopOnce`: whether a registered key is a
candidate gesture. -/
def isGestureCandidate (idleActionName : Option JsString) (k : JsString) : Bool :=
  if k.isEmpty then false
  else
    let kk := toLowerCase k
    if kk = toLowerCase (idleActionName.getD []) then false
    else if includes kk "talk".toList || includes kk "speaking".toList then false
    else true

/-- The list `keys` of `loopOnce`. -/
def gestureCandidates (st : Engine) : List JsString :=
  st.actions.keys.filter (isGestureCandidate st.idleActionName)

/-- The index `Math.floor(Math.random() * keys.length)`. -/
def randomIndex (random : ℚ) (length : Nat) : Nat :=
  ⌊random * length⌋.toNat

/-- The key `loopOnce` picks:
`keys[Math.floor(Math.random() * keys.length)]`. -/
def pickGesture (st : Engine) (random : ℚ) : Option JsString :=
  (gestureCandidates st)[randomIndex random (gestureCandidates st).length]?

/-- The clip duration in milliseconds that `loopOnce` waits for:
`Math.max(300, Math.floor(clip.duration * 1000))`, or 1000 when the action has
no clip with a non-zero duration. -/
def gestureDuration (st : Engine) (ref : ObjRef) : ℚ :=
  match ref with
  | .action id =>
    match st.heap[id]? with
    | some a => if a.clip.duration = 0 then 1000 else max 300 ⌊a.clip.duration * 1000⌋
    | none => 1000
  | .inherited _ => 1000

/-- The callback `loopOnce` of `startGestureLoop`. -/
def loopOnce (env : LoopEnv) (minInterval maxInterval : ℚ) (st : Engine) : Engine :=
  let self := Callback.loopOnce minInterval maxInterval
  if !st.gestureLoopRunning then st
  else if env.speakToggleChecked && env.speaking then st.armTimer self 1000
  else
    let keys := gestureCandidates st
    if keys.isEmpty then st.armTimer self ⌊(minInterval + maxInterval) / 2⌋
    else
      -- an index outside the list yields `undefined`, the property key 'undefined'
      let key := (pickGesture st env.random).getD "undefined".toList
      match st.actions.get key with
      | none => st.armTimer self minInterval
      | some action =>
        let st := play st key { fade := some (3 / 25), loop := some (.str "once".toList) }
        let dur := gestureDuration st action
        st.armTimer (Callback.rearm minInterval maxInterval) (dur + 80)

/-- The options `{ fade: 0.12, loop: 'once' }` that `loopOnce` passes to
`play`. -/
def gestureOptions : PlayOptions :=
  { fade := some (3 / 25), loop := some (.str "once".toList) }

/-! ### Starting, stopping and timer firing -/

/-- Whether a callback belongs to the gesture scheduler. -/
def Callback.isScheduler : Callback → Bool
  | .loopOnce _ _ => true
  | .rearm _ _ => true
  | .prefetch => false
  | .loadFile _ => false

/-- The pending timeouts of the gesture scheduler. -/
def Engine.schedulerTimers (st : Engine) : List Timer :=
  st.timers.filter (fun t => t.callback.isScheduler)

/-- The call `setTimeout(callback, delay)` whose result is not recorded. -/
def Engine.setTimeout (st : Engine) (callback : Callback) (delay : ℚ) : Engine :=
  { st with
    timers := st.timers ++ [{ id := st.nextTimerId, delay := delay, callback := callback }]
    nextTimerId := st.nextTimerId + 1 }

/-- The call `clearTimeout(id)`. -/
def Engine.clearTimeout (st : Engine) (id : Nat) : Engine :=
  { st with timers := st.timers.filter (fun t => t.id != id) }

/-- The method `startGestureLoop(minInterval = 2500, maxInterval = 6000)`;
`random` is the value `Math.random()` returns for the initial delay. -/
def startGestureLoop (random : ℚ) (st : Engine) (minInterval : ℚ := 2500)
    (maxInterval : ℚ := 6000) : Engine :=
  if st.gestureLoopRunning then st
  else
    let st := { st with gestureLoopRunning := true }
    st.armTimer (.loopOnce minInterval maxInterval)
      ⌊random * (maxInterval - minInterval) + minInterval⌋

/-- The method `stopGestureLoop()`.  The test `if (this._gestureLoopTimer)`
holds for every timer id other than 0. -/
def stopGestureLoop (st : Engine) : Engine :=
  let st := { st with gestureLoopRunning := false }
  match st.gestureLoopTimer with
  | some id =>
    if id ≠ 0 then { st.clearTimeout id with gestureLoopTimer := none } else st
  | none => st

/-- The method `prefetchAnimations()`: one timeout per file of `ANIM_FILES`
whose key is not readable in the registry, 250 ms apart. -/
def prefetchAnimations (animFiles : List JsString) (st : Engine) : Engine :=
  let remaining := animFiles.filter (fun f => (st.actions.get (fileKey f)).isNone)
  (remaining.foldl (fun (acc : Engine × ℚ) f =>
    (acc.1.setTimeout (.loadFile f) acc.2, acc.2 + 250)) (st, 0)).1

/-- What a timer callback reads from outside the engine. -/
structure World where
  loop : LoopEnv
  loader : JsString → LoadOutcome
  animFiles : List JsString

/-- A pending timeout fires: it leaves the pending set and its callback
runs. -/
def fireTimer (world : World) (t : Timer) (st : Engine) : Engine :=
  let st := { st with timers := st.timers.erase t }
  match t.callback with
  | .loopOnce minInterval maxInterval => loopOnce world.loop minInterval maxInterval st
  | .rearm minInterval maxInterval => st.armTimer (.loopOnce minInterval maxInterval) 80
  | .prefetch => prefetchAnimations world.animFiles st
  | .loadFile f => loadAnimationFile world.loader st f

/-- One step of the engine as far as the gesture scheduler is concerned: a
call of `startGestureLoop` (when `allowStart` holds) or `stopGestureLoop`,
the firing of a pending scheduler timer, or a call of `play` or
`loadAnimationFile` in between. -/
inductive SchedulerStep (allowStart : Bool) : Engine → Engine → Prop where
  | start (st : Engine) (random minInterval maxInterval : ℚ) : allowStart = true →
      SchedulerStep allowStart st (startGestureLoop random st minInterval maxInterval)
  | stop (st : Engine) : SchedulerStep allowStart st (stopGestureLoop st)
  | fire (st : Engine) (world : World) (t : Timer) :
      t ∈ st.timers → t.callback.isScheduler = true →
      SchedulerStep allowStart st (fireTimer world t st)
  | play (st : Engine) (name : JsString) (opts : PlayOptions) :
      SchedulerStep allowStart st (play st name opts)
  | load (st : Engine) (loader : JsString → LoadOutcome) (filename : JsString) :
      SchedulerStep allowStart st (loadAnimationFile loader st filename)

/-- The states reachable from `st₀` by scheduler steps. -/
def SchedulerReachable (st₀ st : Engine) : Prop :=
  Relation.ReflTransGen (SchedulerStep true) st₀ st

/-- The states reachable from `st₀` by scheduler steps other than calls of
`startGestureLoop`. -/
def ReachableWithoutStart (st₀ st : Engine) : Prop :=
  Relation.ReflTransGen (SchedulerStep false) st₀ st

/-- The invariant of the gesture scheduler: timer ids are positive (as
`setTimeout` guarantees), at most one scheduler timer is pending, a pending
scheduler timer is the one recorded in `_gestureLoopTimer`, and none is
pending while the loop is not running. -/
def SchedulerInv (st : Engine) : Prop :=
  0 < st.nextTimerId ∧
    (∀ t ∈ st.timers, 0 < t.id) ∧
    st.schedulerTimers.length ≤ 1 ∧
    (∀ t ∈ st.schedulerTimers, st.gestureLoopTimer = some t.id) ∧
    (st.gestureLoopRunning = false → st.schedulerTimers = []) ∧
    (∀ id, st.gestureLoopTimer = some id → 0 < id)

/-- The scheduler fields of two engine states agree. -/
def SameScheduler (st st' : Engine) : Prop :=
  st'.timers = st.timers ∧ st'.nextTimerId = st.nextTimerId ∧
    st'.gestureLoopTimer = st.gestureLoopTimer ∧
    st'.gestureLoopRunning = st.gestureLoopRunning

/-- The scheduler state of the initial engine: no timeout pending, no timer
recorded, the loop not running. -/
def SchedulerIdle (st : Engine) : Prop :=
  st.timers = [] ∧ st.gestureLoopTimer = none ∧ st.gestureLoopRunning = false ∧
    0 < st.nextTimerId

/-- The `avatar3d` object as the object literal creates it. -/
def initialEngine : Engine := {}

/-! ## gestureForText -/

/-- The rule table `GESTURE_MAP`: its entries (pattern, gesture key) in the
order `Object.keys(GESTURE_MAP)` enumerates them. -/
abbrev GestureMap := List (JsString × JsString)

/-- The constructor call `new RegExp(k, 'i')` followed by `re.test`: `none`
when the constructor throws on the pattern, else the test the expression
performs on a text. -/
abbrev RegExpCtor := JsString → Option (JsString → Bool)

/-- The expression `/\b(w1|w2|...)\b/`. -/
def wholeWords (ws : List String) : Regex :=
  .seq .wordBoundary (.seq (Regex.words ws) .wordBoundary)

/-- The words of `/\b(no|not|never|don't|dont)\b/`. -/
def negationWords : List String := ["no", "not", "never", "don't", "dont"]

/-- The words of `/\b(yes|sure|right|correct|indeed)\b/`. -/
def affirmationWords : List String := ["yes", "sure", "right", "correct", "indeed"]

/-- The words of `/\b(thank|thanks|great|love|good)\b/`. -/
def gratitudeWords : List String := ["thank", "thanks", "great", "love", "good"]

/-- The words of `/\b(think|hmm|maybe|consider)\b/`. -/
def reflectiveWords : List String := ["think", "hmm", "maybe", "consider"]

/-- The words of `/\b(angry|frustrat|annoy)\b/`. -/
def angerWords : List String := ["angry", "frustrat", "annoy"]

/-- The loop over `Object.keys(GESTURE_MAP)`: the gesture of the first rule
whose pattern compiles and matches the text; a rule whose pattern makes the
constructor throw is skipped by the `catch`. -/
def firstMatchingRule (regExp : RegExpCtor) : GestureMap → JsString → Option JsString
  | [], _ => none
  | (k, gesture) :: rest, text =>
    match regExp k with
    | some test => if test text then some gesture else firstMatchingRule regExp rest text
    | none => firstMatchingRule regExp rest text

/-- The chain of `if` statements after the rule loop, on the lowercased
text `t`. -/
def heuristicGesture (t : JsString) : JsString :=
  if (wholeWords negationWords).test false t then "shaking head no".toList
  else if (wholeWords affirmationWords).test false t then "head nod yes".toList
  else if (wholeWords gratitudeWords).test false t then "happy hand gesture".toList
  else if (wholeWords reflectiveWords).test false t then "Thoughtful Head Nod".toList
  else if (wholeWords angerWords).test false t then "angry gesture".toList
  else "Talking".toList

/-- The method `gestureForText(text)`; a missing text is the empty string. -/
def gestureForText (regExp : RegExpCtor) (gestureMap : GestureMap) (text : JsString) :
    JsString :=
  if text.isEmpty then "Talking".toList
  else
    let t := toLowerCase text
    match firstMatchingRule regExp gestureMap text with
    | some gesture => gesture
    | none => heuristicGesture t

/-- The method `gestureForText(text)` with the method
`String.prototype.toLowerCase` taken as the parameter `lower` (the full
Unicode lowercasing of the language); `gestureForText` is the instance at the
ASCII map. -/
def gestureForTextWith (lower : JsString → JsString) (regExp : RegExpCtor)
    (gestureMap : GestureMap) (text : JsString) : JsString :=
  if text.isEmpty then "Talking".toList
  else
    let t := lower text
    match firstMatchingRule regExp gestureMap text with
    | some gesture => gesture
    | none => heuristicGesture t

/-- The method `gestureForText(text)` on an argument that may be missing
(`undefined` or `null`, here `none`): the test `!text` holds for a missing
argument as it does for the empty string. -/
def gestureForTextArg (regExp : RegExpCtor) (gestureMap : GestureMap) (text : Option JsString) :
    JsString :=
  match text with
  | none => "Talking".toList
  | some s => gestureForText regExp gestureMap s

/-! ### The heuristic as the specification words it -/

/-- The word `w` occurs in `t` as a whole word: it is neither preceded nor
followed by a word character. -/
def OccursAsWholeWord (w t : JsString) : Prop :=
  ∃ pre post, t = pre ++ w ++ post ∧
    (∀ c, pre.getLast? = some c → isWordChar c = false) ∧
    (∀ c, post.head? = some c → isWordChar c = false)

/-- Some word of the list occurs in `t` as a whole word. -/
def HasTrigger (ws : List String) (t : JsString) : Prop :=
  ∃ w ∈ ws, OccursAsWholeWord w.toList t

/-- No rule of the table matches the text. -/
def NoRuleMatches (regExp : RegExpCtor) (gestureMap : GestureMap) (text : JsString) : Prop :=
  ∀ rule ∈ gestureMap, ∀ test, regExp rule.1 = some test → test text = false

/-! ## frameModel -/

/-- The `else` branch of the zoom selection: `zoom = 1.0`, replaced by
`overrides.zoom` when the active override entry has a zoom of type number. -/
def fallbackZoom (doc : Option ModelOverrides) : JsNumber :=
  match activeOverrides doc with
  | some o =>
    match o.zoom with
    | .number n => n
    | _ => .fin 1
  | none => .fin 1

/-- The zoom `frameModel` selects from `opts.zoom` and the override document:
`opts.zoom` when `typeof opts.zoom === 'number' && opts.zoom > 0`, else the
fallback. -/
def selectZoom (doc : Option ModelOverrides) (optsZoom : JsValue) : JsNumber :=
  match optsZoom with
  | .number n => if n.isPositive then n else fallbackZoom doc
  | _ => fallbackZoom doc

/-- What `frameModel` reads of the model and the camera: the centre of the
bounding box, the radius of the bounding sphere, the length of the box
diagonal `box.getSize().length()`, and the value of `Math.sin(fov / 2)` for
the camera's field of view (non-zero for a field of view strictly between 0
and 360 degrees). -/
structure Scene where
  center : ℚ × ℚ × ℚ
  sphereRadius : ℚ
  boxDiagonal : ℚ
  sinHalfFov : ℚ

/-- The constant `radius`:
`sphere.radius || Math.max(box.getSize(..).length() * 0.5, 0.5)`. -/
def Scene.radius (sc : Scene) : ℚ :=
  if sc.sphereRadius ≠ 0 then sc.sphereRadius else max (sc.boxDiagonal * (1 / 2)) (1 / 2)

/-- The variable `distance` before the zoom is applied:
`radius / Math.sin(fov / 2) * 1.15 + 0.5`. -/
def Scene.baseDistance (sc : Scene) : ℚ :=
  sc.radius / sc.sinHalfFov * (115 / 100) + 1 / 2

/-- The variable `distance` of `frameModel` after `distance = distance / zoom`. -/
def frameDistance (doc : Option ModelOverrides) (sc : Scene) (optsZoom : JsValue) : JsNumber :=
  JsNumber.divInto sc.baseDistance (selectZoom doc optsZoom)

/-- The variable `yOffset` of `frameModel`. -/
def frameYOffset (doc : Option ModelOverrides) (sc : Scene) : JsNumber :=
  match activeOverrides doc with
  | some o =>
    match o.vOffset with
    | .number n => n
    | _ => .fin (min (sc.radius * (1 / 4)) (35 / 100))
  | none => .fin (min (sc.radius * (1 / 4)) (35 / 100))

/-- The method `frameModel(opts)`: the position it gives the camera, or `none`
when the root or the camera is missing (`scene = none`) and nothing is
done. -/
def frameModel (doc : Option ModelOverrides) (scene : Option Scene) (optsZoom : JsValue) :
    Option CameraPosition :=
  match scene with
  | none => none
  | some sc =>
    some
      { x := .fin sc.center.1
        y := JsNumber.addTo sc.center.2.1 (frameYOffset doc sc)
        z := JsNumber.addTo sc.center.2.2 (frameDistance doc sc optsZoom) }

/-! ### Auxiliary notions for the registry and for play -/

/-- The key `k` is a registered key: an own property of the registry. -/
@[reducible] def Registry.IsRegistered (reg : Registry) (k : JsString) : Prop :=
  k ∈ reg.map Prod.fst

/-- The state in which `play` leaves its target action: reset, with the given
loop mode, fading in over `fade`, activated and enabled. -/
def AnimationAction.started (a : AnimationAction) (loopMode : Nat) (fade : ℚ) :
    AnimationAction :=
  { (((a.reset).setLoop loopMode).fadeIn fade).play with enabled := true }

/-! ## init -/

/-- The built-in list `ANIM_FILES` falls back to. -/
def builtinAnimFiles : List JsString :=
  ["Talking.fbx", "acknowledging.fbx", "angry gesture.fbx", "annoyed head shake.fbx",
    "being cocky.fbx", "dismissing gesture.fbx", "happy hand gesture.fbx", "hard head nod.fbx",
    "head nod yes.fbx", "lengthy head nod.fbx", "look away gesture.fbx", "relieved sigh.fbx",
    "sarcastic head nod.fbx", "shaking head no.fbx", "Thoughtful Head Nod.fbx",
    "thoughtful head shake.fbx", "weight shift.fbx"].map String.toList

/-- The function `findAnimByName(name)` over the list `ANIM_FILES`: the first
file whose key is the wanted key, else the first whose key contains it or is
contained in it. -/
def findAnimByName (animFiles : List JsString) (name : JsString) : Option JsString :=
  if name.isEmpty then none
  else
    let want := fileKey name
    match animFiles.find? (fun f => fileKey f = want) with
    | some f => some f
    | none => animFiles.find? (fun f => includes (fileKey f) want || includes want (fileKey f))

/-- Whether the promise of `loadAnimationFile(filename)` is rejected: the
load is issued and the loader calls `onError`. -/
def loadAnimationFileRejects (loader : JsString → LoadOutcome) (st : Engine)
    (filename : JsString) : Bool :=
  if filename.isEmpty then false
  else if (st.actions.get (fileKey filename)).isSome then false
  else
    match loader filename with
    | .failed => true
    | .loaded _ => false

/-- What `init` reads from outside the engine: the error thrown while the
Three.js modules load (if any), the manifest `ANIM_FILES` (empty when the
fetch fails), the override document, what the loader does with `model.fbx`,
the geometry `frameModel` measures on the loaded model, what the loader does
with animation files, and the value `Math.random()` returns in
`startGestureLoop`. -/
structure InitEnv where
  threeError : Option JsError
  animFiles : List JsString
  overrides : Option ModelOverrides
  baseModel : BaseModelOutcome
  scene : Scene
  loader : JsString → LoadOutcome
  random : ℚ

/-- The method `init()`, from the loading of the Three.js modules on: the
engine afterwards and the error its promise is rejected with, if any.  The
DOM and renderer set-up and the render loop `animate()` are not part of the
state. -/
def init (env : InitEnv) (st : Engine) : Engine × Option JsError :=
  match env.threeError with
  | some err => (st, some err)
  | none =>
    -- this.camera = new PerspectiveCamera(..); this.camera.position.set(0, 1.6, 2.6)
    let st := { st with
      cameraPosition := some { x := .fin 0, y := .fin (8 / 5), z := .fin (13 / 5) } }
    -- await this.loadBaseModel()
    match loadBaseModel env.overrides env.baseModel st with
    | (st, some err) => (st, some err)
    | (st, none) =>
      -- try { this.frameModel(); } catch (e) { .. }
      let st :=
        match frameModel env.overrides (some env.scene) .undefined with
        | some position => { st with cameraPosition := some position }
        | none => st
      -- if (!ANIM_FILES || ANIM_FILES.length === 0) ANIM_FILES = [ .. ]
      let animFiles := if env.animFiles.isEmpty then builtinAnimFiles else env.animFiles
      -- const talkingFile = findAnimByName('talking') || 'Talking.fbx'
      let talkingFile :=
        match findAnimByName animFiles "talking".toList with
        | some f => if f.isEmpty then "Talking.fbx".toList else f
        | none => "Talking.fbx".toList
      -- try { await this.loadAnimationFile(talkingFile); if (..) this.play('Talking', ..) }
      let rejected := loadAnimationFileRejects env.loader st talkingFile
      let st := loadAnimationFile env.loader st talkingFile
      let st :=
        if !rejected && (st.actions.get (normalizeKey "Talking".toList)).isSome then
          play st "Talking".toList { fade := some (1 / 5) }
        else st
      -- setTimeout(() => this.prefetchAnimations(), 300)
      let st := st.setTimeout .prefetch 300
      -- this.ready = true; this.animate(); try { this.startGestureLoop(); } catch (e) {}
      let st := { st with ready := true }
      (startGestureLoop env.random st, none)

/-! ## Runs of the engine -/

/-- One step of the engine: a call of `init`, `loadAnimationFile`, `play`,
`startGestureLoop` or `stopGestureLoop`, or the firing of a pending timeout
(of the gesture loop or of the animation prefetch). -/
inductive EngineStep : Engine → Engine → Prop where
  | init (st : Engine) (env : InitEnv) : EngineStep st (init env st).1
  | load (st : Engine) (loader : JsString → LoadOutcome) (filename : JsString) :
      EngineStep st (loadAnimationFile loader st filename)
  | play (st : Engine) (name : JsString) (opts : PlayOptions) :
      EngineStep st (play st name opts)
  | start (st : Engine) (random minInterval maxInterval : ℚ) :
      EngineStep st (startGestureLoop random st minInterval maxInterval)
  | stop (st : Engine) : EngineStep st (stopGestureLoop st)
  | fire (st : Engine) (world : World) (t : Timer) : t ∈ st.timers →
      EngineStep st (fireTimer world t st)

/-- The states reachable from `st₀` by engine steps. -/
def EngineReachable (st₀ st : Engine) : Prop :=
  Relation.ReflTransGen EngineStep st₀ st

/-- The invariant of the registry: every registered key is a fixed point of
`normalizeKey` and refers to an action object that exists. -/
def RegistryInv (st : Engine) : Prop :=
  ∀ e ∈ st.actions, normalizeKey e.1 = e.1 ∧ e.2 < st.heap.length

/-- An engine that has a mixer or a registered action is ready. -/
def ReadyInv (st : Engine) : Prop :=
  (st.mixer = true ∨ st.actions ≠ []) → st.ready = true

/-- From `st` to `st'` action objects are only added, and every registry
entry of `st'` that is not one of `st` has a `normalizeKey` fixed point as key
and refers to an existing action object. -/
def RegistryGrows (st st' : Engine) : Prop :=
  st.heap.length ≤ st'.heap.length ∧
    ∀ e ∈ st'.actions, e ∈ st.actions ∨ (normalizeKey e.1 = e.1 ∧ e.2 < st'.heap.length)

/-- From `st` to `st'` the ready flag is not lowered, and unless `st'` is
ready the mixer is the same and the registry changed only in the presence of
a mixer. -/
def ReadyKept (st st' : Engine) : Prop :=
  st'.ready = true ∨
    (st'.ready = st.ready ∧ st'.mixer = st.mixer ∧ (st'.actions = st.actions ∨ st.mixer = true))

/-- The registry, the number of action objects, the mixer and the ready flag
of two engine states agree. -/
def SameRegistry (st st' : Engine) : Prop :=
  st'.actions = st.actions ∧ st'.heap.length = st.heap.length ∧
    st'.mixer = st.mixer ∧ st'.ready = st.ready

/-! ## Fixtures -/

/-- A clip with one limb-bone track and one facial track, used to exercise the
filter. -/
def limbClip : AnimationClip :=
  { name := "Wave".toList
    duration := 2
    tracks := some [⟨"mixamorigLeftArm.quaternion".toList, 0⟩, ⟨"Jaw.morph".toList, 1⟩] }

/-- A clip whose only track is a facial (non-transform) track. -/
def cleanClip : AnimationClip :=
  { name := "Smile".toList
    duration := 1
    tracks := some [⟨"Jaw.morph".toList, 1⟩] }

/-- A loader that knows two files. -/
def fixtureLoader (filename : JsString) : LoadOutcome :=
  if filename = "Wave.fbx".toList then .loaded [limbClip]
  else if filename = "Talking.fbx".toList then
    .loaded [{ name := "take_001".toList, duration := 3, tracks := some [] }]
  else .failed

/-- An engine with a mixer and an empty registry, as `loadBaseModel` leaves
it. -/
def baseEngine : Engine := { mixer := true }

/-- A ready engine whose registry holds the clip of `Wave.fbx`, playing it. -/
def waveEngine : Engine :=
  play { loadAnimationFile fixtureLoader baseEngine "Wave.fbx".toList with ready := true }
    "wave".toList

/-- A loader that delivers one clip for every file. -/
def singleClipLoader (_filename : JsString) : LoadOutcome := .loaded [cleanClip]

/-- A ready engine with three registered clips (`wave`, `talking`, `idle`)
whose idle action is `idle`, with the gesture loop running. -/
def gestureEngine : Engine :=
  { ready := true
    mixer := true
    heap := [{ clip := { name := "wave".toList, duration := 2, tracks := some [] } },
      { clip := { name := "talking".toList, duration := 3, tracks := some [] } },
      { clip := { name := "idle".toList, duration := 4, tracks := some [] } }]
    actions := [("wave".toList, 0), ("talking".toList, 1), ("idle".toList, 2)]
    idleActionName := some "idle".toList
    gestureLoopRunning := true }

/-- A stand-in for the `RegExp` constructor: the pattern `(` does not
compile; any other pattern is taken as a literal and matches the texts that
contain it, letter case ignored. -/
def literalRegExp : RegExpCtor := fun k =>
  if k = "(".toList then none
  else some (fun text => includes (toLowerCase text) (toLowerCase k))

/-- A rule table with an invalid pattern and two rules. -/
def fixtureGestureMap : GestureMap :=
  [("(".toList, "broken".toList), ("hello".toList, "wave".toList),
    ("no".toList, "dismissing gesture".toList)]

/-- A model of radius 1 centred at height 1, seen with `sin(fov / 2) = 1/2`. -/
def fixtureScene : Scene :=
  { center := (0, 1, 0), sphereRadius := 1, boxDiagonal := 2, sinHalfFov := 1 / 2 }

/-- An override document whose default entry sets the zoom to zero. -/
def zeroZoomOverrides : ModelOverrides :=
  { default := some { zoom := .number (.fin 0) } }

/-- An override document whose default entry sets a negative zoom. -/
def negativeZoomOverrides : ModelOverrides :=
  { default := some { zoom := .number (.fin (-2)) } }

/-- A clip with the placeholder name `take_001`. -/
def placeholderClip : AnimationClip :=
  { name := "take_001".toList, duration := 3, tracks := some [] }

/-- A loader that delivers two placeholder clips for every file. -/
def twoClipLoader (_filename : JsString) : LoadOutcome :=
  .loaded [placeholderClip, placeholderClip]

/-- A measurement whose vertical size is 1 at rotation 0 and a little less
than 1, with a higher centre, at `-Math.PI / 2`. -/
def nearTieMeasure : Rotation → BoxMeasure
  | .zero => { size := (1, 1, 1), center := (0, 0, 0) }
  | .negHalfPi => { size := (1, 1999999 / 2000000, 1), center := (0, 1, 0) }
  | .halfPi => { size := (1, 1 / 2, 1), center := (0, 0, 0) }
  | .pi => { size := (1, 1 / 2, 1), center := (0, 0, 0) }

/-- A measurement whose vertical size is largest at `Math.PI / 2`. -/
def tallAtHalfPi : Rotation → BoxMeasure
  | .zero => { size := (2, 1, 1), center := (0, 0, 0) }
  | .negHalfPi => { size := (2, 1, 1), center := (0, 1, 0) }
  | .halfPi => { size := (1, 2, 1), center := (0, 1, 0) }
  | .pi => { size := (2, 1, 1), center := (0, 0, 0) }

/-- A model ten units tall in every orientation, with the identity transform. -/
def bigModel : LoadedObject :=
  { transform :=
      { rotationX := .number (.fin 0), rotationY := .number (.fin 0),
        rotationZ := .number (.fin 0), scale := (.fin 1, .fin 1, .fin 1),
        position := (.fin 0, .fin 0, .fin 0) }
    measure := fun _ => some { size := (2, 10, 2), center := (0, 5, 0) } }

/-- An override document with a rotation, a scale and a translation. -/
def fullOverrides : ModelOverrides :=
  { default := some
      { rotX := .number (.fin (1 / 2)), scale := .number (.fin (1 / 2)),
        translate := some (1, 2, 3) } }

/-- The engine of `gestureEngine` before the gesture loop is started. -/
def gestureEngineStopped : Engine := { gestureEngine with gestureLoopRunning := false }

/-- An environment in which the Three.js modules load and the base model
fails to load with a network error. -/
def failingInitEnv : InitEnv :=
  { threeError := none
    animFiles := []
    overrides := none
    baseModel := .failed "NetworkError".toList
    scene := { center := (0, 1, 0), sphereRadius := 1, boxDiagonal := 2, sinHalfFov := 1 / 2 }
    loader := fun _ => .loaded [{ name := "take_001".toList, duration := 3, tracks := some [] }]
    random := 1 / 2 }

/-- A rule table whose only pattern is the empty pattern, which matches every
text, the empty one included. -/
def emptyPatternMap : GestureMap := [([], "wave".toList)]

/-- An environment in which the Three.js modules and the base model load and
the loader delivers one placeholder clip for every animation file. -/
def workingInitEnv : InitEnv :=
  { threeError := none
    animFiles := []
    overrides := none
    baseModel := .loaded bigModel
    scene := { center := (0, 1, 0), sphereRadius := 1, boxDiagonal := 2, sinHalfFov := 1 / 2 }
    loader := fun _ => .loaded [{ name := "take_001".toList, duration := 3, tracks := some [] }]
    random := 1 / 2 }

/-- The engine after `init` on the initial engine and a later load of
`Wave.fbx`: a ready engine with a running gesture loop whose registry holds
`talking` (the idle action) and `wave`. -/
def waveAfterInit : Engine :=
  loadAnimationFile fixtureLoader (init workingInitEnv initialEngine).1 "Wave.fbx".toList

/-- A lowercasing method that, beyond the ASCII letters, maps the Kelvin sign
(U+212A) to `k`, as `String.prototype.toLowerCase` does. -/
def kelvinLower (s : JsString) : JsString :=
  (toLowerCase s).map (fun c => if c.toNat = 8490 then 'k' else c)

/-- The text `I THIN` followed by the Kelvin sign. -/
def kelvinText : JsString := "I THIN".toList ++ [Char.ofNat 8490]

/-! ## Theorems -/

/-! ### Characters -/

theorem toNat_ofNat_of_lt (n : Nat) (h : n < 55296) : (Char.ofNat n).toNat = n := by
  have hv : n.isValidChar := Or.inl h
  simp [Char.ofNat, hv, Char.toNat, Char.ofNatAux, UInt32.toNat]

theorem char_eq_of_toNat_eq {a b : Char} (h : a.toNat = b.toNat) : a = b := by
  rw [← Char.ofNat_toNat a, ← Char.ofNat_toNat b, h]

theorem toNat_lowerChar (c : Char) :
    (lowerChar c).toNat = if 65 ≤ c.toNat ∧ c.toNat ≤ 90 then c.toNat + 32 else c.toNat := by
  unfold lowerChar
  split
  · rw [toNat_ofNat_of_lt]; omega
  · rfl

theorem toNat_upperChar (c : Char) :
    (upperChar c).toNat = if 97 ≤ c.toNat ∧ c.toNat ≤ 122 then c.toNat - 32 else c.toNat := by
  unfold upperChar
  split
  · rw [toNat_ofNat_of_lt]; omega
  · rfl

/-- Against a character that is not an uppercase letter, comparison by
uppercase form is comparison of the lowercased character. -/
theorem upperChar_eq_iff (c x : Char) (hx : lowerChar x = x) :
    upperChar x = upperChar c ↔ lowerChar c = x := by
  have hx2 := congrArg Char.toNat hx
  rw [toNat_lowerChar] at hx2
  constructor
  · intro h
    have := congrArg Char.toNat h
    rw [toNat_upperChar, toNat_upperChar] at this
    apply char_eq_of_toNat_eq
    rw [toNat_lowerChar]
    split_ifs at * <;> omega
  · intro h
    have := congrArg Char.toNat h
    rw [toNat_lowerChar] at this
    apply char_eq_of_toNat_eq
    rw [toNat_upperChar, toNat_upperChar]
    split_ifs at * <;> omega

theorem map_upperChar_eq_iff (w m : List Char) (hw : ∀ x ∈ w, lowerChar x = x) :
    w.map upperChar = m.map upperChar ↔ m.map lowerChar = w := by
  induction w generalizing m with
  | nil => cases m <;> simp
  | cons x xs ih =>
    cases m with
    | nil => simp
    | cons c cs =>
      have hx : lowerChar x = x := hw x (List.mem_cons_self _ _)
      have hxs : ∀ y ∈ xs, lowerChar y = y := fun y hy => hw y (List.mem_cons_of_mem _ hy)
      simp only [List.map_cons, List.cons.injEq, upperChar_eq_iff c x hx, ih cs hxs]

/-! ### The matcher -/

theorem matchChars_eq_some (ic : Bool) (xs : List Char) (b a : List Char) (q : Pos) :
    matchChars ic xs (b, a) = some q ↔
      ∃ m rest, a = m ++ rest ∧ xs.map (canonicalize ic) = m.map (canonicalize ic) ∧
        q = (m.reverse ++ b, rest) := by
  induction xs generalizing b a with
  | nil =>
    simp only [matchChars, Option.some.injEq, List.map_nil]
    constructor
    · intro h; exact ⟨[], a, rfl, rfl, by simp [← h]⟩
    · rintro ⟨m, rest, ha, hm, hq⟩
      have : m = [] := by simpa using hm.symm
      subst this; simp [hq, ha]
  | cons x xs ih =>
    cases a with
    | nil =>
      simp only [matchChars]
      refine ⟨fun h => by simp at h, ?_⟩
      rintro ⟨m, rest, ha, hm, -⟩
      have : m = [] := by
        cases m with
        | nil => rfl
        | cons _ _ => simp at ha
      subst this; simp at hm
    | cons c cs =>
      simp only [matchChars]
      split_ifs with hc
      · rw [ih]
        constructor
        · rintro ⟨m, rest, ha, hm, hq⟩
          exact ⟨c :: m, rest, by simp [ha], by simp [hc, hm], by simp [hq]⟩
        · rintro ⟨m, rest, ha, hm, hq⟩
          cases m with
          | nil => simp at hm
          | cons d ds =>
            simp only [List.cons_append, List.cons.injEq] at ha
            obtain ⟨rfl, ha⟩ := ha
            simp only [List.map_cons, List.cons.injEq] at hm
            exact ⟨ds, rest, ha, hm.2, by simp [hq]⟩
      · simp only [false_iff]
        rintro ⟨m, rest, ha, hm, -⟩
        cases m with
        | nil => simp at hm
        | cons d ds =>
          simp only [List.cons_append, List.cons.injEq] at ha
          obtain ⟨rfl, -⟩ := ha
          simp only [List.map_cons, List.cons.injEq] at hm
          exact hc hm.1

/-- The expression `exec` finds a match exactly when the expression matches
at some position of the text. -/
theorem exec_isSome (ic : Bool) (r : Regex) (b a : List Char) :
    (r.exec ic b a).isSome = true ↔
      ∃ pre suf, a = pre ++ suf ∧ r.run ic (pre.reverse ++ b, suf) ≠ [] := by
  induction a generalizing b with
  | nil =>
    simp only [Regex.exec]
    constructor
    · intro h
      refine ⟨[], [], rfl, ?_⟩
      intro hr
      simp only [List.reverse_nil, List.nil_append] at hr
      simp [hr] at h
    · rintro ⟨pre, suf, ha, hr⟩
      have hpre : pre = [] := by
        cases pre with
        | nil => rfl
        | cons _ _ => simp at ha
      subst hpre
      have hsuf : suf = [] := by simpa using ha.symm
      subst hsuf
      simp only [List.reverse_nil, List.nil_append] at hr
      cases hrun : r.run ic (b, []) with
      | nil => exact absurd hrun hr
      | cons _ _ => simp
  | cons c cs ih =>
    simp only [Regex.exec]
    cases hrun : r.run ic (b, c :: cs) with
    | nil =>
      simp only []
      rw [ih]
      constructor
      · rintro ⟨pre, suf, ha, hr⟩
        exact ⟨c :: pre, suf, by simp [ha], by simpa using hr⟩
      · rintro ⟨pre, suf, ha, hr⟩
        cases pre with
        | nil =>
          simp only [List.nil_append] at ha
          subst ha
          simp [hrun] at hr
        | cons d ds =>
          simp only [List.cons_append, List.cons.injEq] at ha
          obtain ⟨rfl, ha⟩ := ha
          exact ⟨ds, suf, ha, by simpa using hr⟩
    | cons e es =>
      simp only [Option.isSome_some, true_iff]
      exact ⟨[], c :: cs, rfl, by simp [hrun]⟩

/-- A literal followed by `$` matches at a position exactly when the text
ahead is the literal, compared in canonical form. -/
theorem run_chars_eol_ne_nil (ic : Bool) (w : List Char) (p : Pos) :
    (Regex.seq (.chars w) .eol).run ic p ≠ [] ↔
      w.map (canonicalize ic) = p.2.map (canonicalize ic) := by
  obtain ⟨b, a⟩ := p
  simp only [Regex.run]
  cases hm : matchChars ic w (b, a) with
  | none =>
    simp only [Option.toList, List.map_nil, List.flatten_nil, ne_eq, not_true_eq_false, false_iff]
    intro h
    have : matchChars ic w (b, a) = some (a.reverse ++ b, []) :=
      (matchChars_eq_some ic w b a _).2 ⟨a, [], by simp, h, rfl⟩
    simp [hm] at this
  | some q =>
    obtain ⟨m, rest, ha, hmap, hq⟩ := (matchChars_eq_some ic w b a q).1 hm
    subst hq
    cases rest with
    | nil =>
      simp only [List.append_nil] at ha
      subst ha
      simp [Option.toList, hmap]
    | cons d ds =>
      subst ha
      simp only [Option.toList, List.map_cons, List.map_nil, List.isEmpty_cons,
        Bool.false_eq_true, if_false, List.flatten_cons, List.flatten_nil, List.append_nil,
        ne_eq, not_true_eq_false, false_iff]
      intro h
      have := congrArg List.length h
      have h2 := congrArg List.length hmap
      simp at this h2
      omega

theorem run_alt_ne_nil (ic : Bool) (a b : Regex) (p : Pos) :
    (Regex.alt a b).run ic p ≠ [] ↔ a.run ic p ≠ [] ∨ b.run ic p ≠ [] := by
  simp only [Regex.run, ne_eq, List.append_eq_nil]
  tauto

/-- A lowercase literal followed by `$`, with the `i` flag, matches somewhere
in a text exactly when the lowercased text ends with the literal. -/
theorem chars_eol_somewhere_iff (w : List Char) (hw : ∀ x ∈ w, lowerChar x = x)
    (s : JsString) :
    (∃ pre suf, s = pre ++ suf ∧ w.map upperChar = suf.map upperChar) ↔
      w <:+ toLowerCase s := by
  constructor
  · rintro ⟨pre, suf, rfl, h⟩
    rw [map_upperChar_eq_iff w suf hw] at h
    exact ⟨pre.map lowerChar, by simp [toLowerCase, h]⟩
  · rintro ⟨t, ht⟩
    unfold toLowerCase at ht
    obtain ⟨l₁, l₂, hs, -, h₂⟩ := List.map_eq_append_iff.1 ht.symm
    exact ⟨l₁, l₂, hs, (map_upperChar_eq_iff w l₂ hw).2 h₂⟩

theorem test_transformChannel (tn : JsString) :
    transformChannel.test true tn = true ↔ EndsInTransformChannel tn := by
  unfold Regex.test
  rw [exec_isSome]
  have h1 := chars_eol_somewhere_iff ".position".toList (by decide) tn
  have h2 := chars_eol_somewhere_iff ".quaternion".toList (by decide) tn
  have h3 := chars_eol_somewhere_iff ".rotation".toList (by decide) tn
  have hcanon : canonicalize true = upperChar := by funext c; simp [canonicalize]
  constructor
  · rintro ⟨pre, suf, hs, hr⟩
    simp only [transformChannel, run_alt_ne_nil, Regex.word, run_chars_eol_ne_nil, hcanon] at hr
    rcases hr with hr | hr | hr
    · exact ⟨_, by simp [transformSuffixes], h1.1 ⟨pre, suf, hs, hr⟩⟩
    · exact ⟨_, by simp [transformSuffixes], h2.1 ⟨pre, suf, hs, hr⟩⟩
    · exact ⟨_, by simp [transformSuffixes], h3.1 ⟨pre, suf, hs, hr⟩⟩
  · rintro ⟨ch, hch, hsuf⟩
    simp only [transformSuffixes, List.map_cons, List.map_nil, List.mem_cons,
      List.mem_singleton, List.not_mem_nil, or_false] at hch
    simp only [transformChannel, run_alt_ne_nil, Regex.word, run_chars_eol_ne_nil, hcanon]
    rcases hch with rfl | rfl | rfl
    · obtain ⟨pre, suf, hs, hr⟩ := h1.2 hsuf
      exact ⟨pre, suf, hs, Or.inl hr⟩
    · obtain ⟨pre, suf, hs, hr⟩ := h2.2 hsuf
      exact ⟨pre, suf, hs, Or.inr (Or.inl hr)⟩
    · obtain ⟨pre, suf, hs, hr⟩ := h3.2 hsuf
      exact ⟨pre, suf, hs, Or.inr (Or.inr hr)⟩

/-! ### Substrings and the bone part -/

theorem includes_iff (s w : JsString) : includes s w = true ↔ w <:+: s := by
  induction s with
  | nil => simp [includes, List.isEmpty_iff]
  | cons c cs ih =>
    simp only [includes, Bool.or_eq_true, List.isPrefixOf_iff_prefix, ih, List.infix_cons_iff]

theorem isBonePart_firstSegment (name : JsString) : IsBonePart name (firstSegment name) := by
  induction name with
  | nil => exact ⟨by simp [firstSegment], Or.inl rfl⟩
  | cons c cs ih =>
    by_cases hc : isPathSeparator c = true
    · refine ⟨by simp [firstSegment, hc], Or.inr ⟨c, cs, hc, by simp [firstSegment, hc]⟩⟩
    · have hc2 : isPathSeparator c = false := by simpa using hc
      have hfs : firstSegment (c :: cs) = c :: firstSegment cs := by
        simp [firstSegment, hc2]
      rw [hfs]
      obtain ⟨hall, hrest⟩ := ih
      refine ⟨?_, ?_⟩
      · intro d hd
        rcases List.mem_cons.1 hd with rfl | hd
        · exact hc2
        · exact hall d hd
      · rcases hrest with h | ⟨sep, rest, hsep, h⟩
        · exact Or.inl (by rw [← h])
        · exact Or.inr ⟨sep, rest, hsep, by rw [List.cons_append, ← h]⟩

theorem firstSegment_eq_of_isBonePart (name bone : JsString) (h : IsBonePart name bone) :
    firstSegment name = bone := by
  obtain ⟨hall, hname⟩ := h
  have hp : ∀ c ∈ bone, (!isPathSeparator c) = true := fun c hc => by simp [hall c hc]
  rcases hname with rfl | ⟨sep, rest, hsep, rfl⟩
  · exact List.takeWhile_eq_self_iff.2 hp
  · unfold firstSegment
    rw [List.takeWhile_append_of_pos hp]
    simp [List.takeWhile, hsep]

theorem isRootMotionTrack_iff (tn : JsString) :
    isRootMotionTrack tn = true ↔ TargetsRootKeyword tn := by
  simp only [isRootMotionTrack, List.any_eq_true, includes_iff]
  constructor
  · rintro ⟨kw, hkw, hin⟩
    exact ⟨firstSegment tn, isBonePart_firstSegment tn, kw, hkw, hin⟩
  · rintro ⟨bone, hbone, kw, hkw, hin⟩
    rw [← firstSegment_eq_of_isBonePart tn bone hbone] at hin
    exact ⟨kw, hkw, hin⟩

theorem keepTrack_eq_false_iff (t : KeyframeTrack) :
    keepTrack t = false ↔ IsRootMotionTransform t.name := by
  unfold IsRootMotionTransform
  rw [← test_transformChannel, ← isRootMotionTrack_iff]
  cases h1 : transformChannel.test true t.name <;>
    cases h2 : isRootMotionTrack t.name <;> simp [keepTrack, h1, h2]

/-! ### The registry -/

theorem lookup_set_self (reg : Registry) (key : JsString) (id : Nat) :
    List.lookup key (reg.set key id) = some id := by
  induction reg with
  | nil => simp [Registry.set, List.lookup]
  | cons e rest ih =>
    obtain ⟨k, v⟩ := e
    by_cases hk : k = key
    · subst hk; simp [Registry.set, List.lookup]
    · have hk2 : (key == k) = false := by
        simpa using fun h : key = k => hk h.symm
      simp [Registry.set, hk, List.lookup, hk2, ih]

theorem lookup_set_of_ne (reg : Registry) (key other : JsString) (id : Nat)
    (h : other ≠ key) : List.lookup other (reg.set key id) = List.lookup other reg := by
  induction reg with
  | nil =>
    have : (other == key) = false := by simpa using h
    simp [Registry.set, List.lookup, this]
  | cons e rest ih =>
    obtain ⟨k, v⟩ := e
    by_cases hk : k = key
    · subst hk
      have : (other == k) = false := by simpa using h
      simp [Registry.set, List.lookup, this]
    · by_cases ho : other = k
      · subst ho; simp [Registry.set, hk, List.lookup]
      · have : (other == k) = false := by simpa using ho
        simp [Registry.set, hk, List.lookup, this, ih]

theorem get_set_self (reg : Registry) (key : JsString) (id : Nat) :
    (reg.set key id).get key = some (.action id) := by
  simp [Registry.get, lookup_set_self]

theorem get_set_of_ne (reg : Registry) (key other : JsString) (id : Nat) (h : other ≠ key) :
    (reg.set key id).get other = reg.get other := by
  simp [Registry.get, lookup_set_of_ne reg key other id h]

theorem registerClip_actions (key : JsString) (st : Engine) (clip : AnimationClip) :
    (registerClip key st clip).actions = registryAfter key st clip := by
  simp only [registerClip, registryAfter]
  split_ifs <;> (try split) <;> rfl

theorem registerClip_heap (key : JsString) (st : Engine) (clip : AnimationClip) :
    (registerClip key st clip).heap =
      st.heap ++ [{ clip := safeClip key clip, clampWhenFinished := true }] := by
  simp only [registerClip, AnimationAction.setEffectiveWeight]
  split_ifs <;> (try split) <;> rfl

theorem registryAfter_get_name (key : JsString) (st : Engine) (clip : AnimationClip) :
    (registryAfter key st clip).get (registrationName key clip) =
      some (.action st.heap.length) := by
  unfold registryAfter
  simp only []
  split_ifs with h
  · by_cases hk : registrationName key clip = key
    · rw [hk]; exact get_set_self _ _ _
    · rw [get_set_of_ne _ _ _ _ hk]; exact get_set_self _ _ _
  · exact get_set_self _ _ _

/-! ### The root-motion filter (C1, C2) -/

/-- C1: the clip that `loadAnimationFile` registers for a loaded clip (the
action created at the next heap index, readable under the clip's registration
name) carries exactly the original tracks, in order, minus those the filter
drops; the filter drops a track exactly when its name ends in `.position`,
`.quaternion` or `.rotation` (case ignored) and its lowercased bone part
contains a root-motion keyword.  No such track remains, every other track is
kept, and a clip without such tracks keeps its track list and track count. -/
theorem registered_clip_tracks_strip_root_motion (key : JsString) (st : Engine)
    (clip : AnimationClip) :
    (∃ a, (registerClip key st clip).heap[st.heap.length]? = some a ∧
        (registerClip key st clip).actions.get (registrationName key clip) =
          some (.action st.heap.length) ∧
        a.clip = safeClip key clip) ∧
      (safeClip key clip).tracks = some ((clip.tracks.getD []).filter keepTrack) ∧
      (∀ t : KeyframeTrack, keepTrack t = false ↔ IsRootMotionTransform t.name) ∧
      (∀ t ∈ sanitizedTracks clip, ¬ IsRootMotionTransform t.name) ∧
      (∀ t ∈ clip.tracks.getD [], ¬ IsRootMotionTransform t.name → t ∈ sanitizedTracks clip) ∧
      (sanitizedTracks clip).Sublist (clip.tracks.getD []) ∧
      ((∀ t ∈ clip.tracks.getD [], ¬ IsRootMotionTransform t.name) →
        sanitizedTracks clip = clip.tracks.getD [] ∧
          (sanitizedTracks clip).length = (clip.tracks.getD []).length) := by
  have hsan : sanitizedTracks clip = (clip.tracks.getD []).filter keepTrack := by
    unfold sanitizedTracks
    cases clip.tracks <;> simp
  have hkeep : ∀ t : KeyframeTrack, keepTrack t = true ↔ ¬ IsRootMotionTransform t.name := by
    intro t
    rw [← keepTrack_eq_false_iff]
    simp
  refine ⟨?_, ?_, keepTrack_eq_false_iff, ?_, ?_, ?_, ?_⟩
  · refine ⟨{ clip := safeClip key clip, clampWhenFinished := true }, ?_, ?_, rfl⟩
    · rw [registerClip_heap]; simp
    · rw [registerClip_actions]; exact registryAfter_get_name key st clip
  · simp [safeClip, hsan]
  · intro t ht
    rw [hsan, List.mem_filter] at ht
    exact (hkeep t).1 ht.2
  · intro t ht hnot
    rw [hsan, List.mem_filter]
    exact ⟨ht, (hkeep t).2 hnot⟩
  · rw [hsan]; exact List.filter_sublist _
  · intro hclean
    have : sanitizedTracks clip = clip.tracks.getD [] := by
      rw [hsan, List.filter_eq_self]
      exact fun t ht => (hkeep t).2 (hclean t ht)
    exact ⟨this, by rw [this]⟩

/-- C1 (instance): a clip whose only track is a non-transform track keeps its
track list and its track count. -/
theorem registered_clip_tracks_strip_root_motion_witness :
    sanitizedTracks cleanClip = cleanClip.tracks.getD [] ∧
      (sanitizedTracks cleanClip).length = (cleanClip.tracks.getD []).length :=
  (registered_clip_tracks_strip_root_motion [] {} cleanClip).2.2.2.2.2.2
    (fun t ht => by
      have ht2 : t = ⟨"Jaw.morph".toList, 1⟩ := by simpa [cleanClip] using ht
      subst ht2
      rw [← keepTrack_eq_false_iff]
      decide)

/-- C2 (the code at the failing input): the quaternion track of the limb bone
`mixamorigLeftArm` is not a track on the root, hips, pelvis or reference bone,
yet the filter drops it, because the bone name contains the rig prefix
`mixamo`; the registered clip keeps only the other track. -/
theorem limb_track_is_dropped :
    keepTrack ⟨"mixamorigLeftArm.quaternion".toList, 0⟩ = false ∧
      (safeClip "wave".toList limbClip).tracks = some [⟨"Jaw.morph".toList, 1⟩] := by
  decide

/-! ### play on an unregistered key (C3) -/

theorem play_of_not_ready (st : Engine) (name : JsString) (opts : PlayOptions)
    (h : st.ready = false) : play st name opts = st := by
  simp [play, h]

/-- When the read `this.actions[normalizeKey(name)]` yields `undefined`,
`play` changes nothing. -/
theorem play_of_get_none (st : Engine) (name : JsString) (opts : PlayOptions)
    (h : st.actions.get (normalizeKey name) = none) : play st name opts = st := by
  simp only [play, h]
  split_ifs <;> rfl

/-- C3 (the code at the failing input): on a ready engine whose only
registered key is `wave`, `play('constructor')` is not a no-op, although
`constructor` is not a registered key: the read `this.actions['constructor']`
yields the inherited `Object.prototype.constructor`, so the current action is
faded out and `currentAction` is left pointing at that function. -/
theorem play_constructor_is_not_noop :
    waveEngine.ready = true ∧
      waveEngine.actions.keys = ["wave".toList] ∧
      normalizeKey "constructor".toList = "constructor".toList ∧
      waveEngine.currentAction = some (.action 0) ∧
      (play waveEngine "constructor".toList).currentAction =
        some (.inherited "constructor".toList) ∧
      (waveEngine.heap[0]?).map (fun a => a.fade) = some (some (1 / 4, 0, 1)) ∧
      ((play waveEngine "constructor".toList).heap[0]?).map (fun a => a.fade) =
        some (some (1 / 4, 1, 0)) :=
  ⟨by decide, by decide, by decide, by decide, by decide, rfl, rfl⟩

/-! ### Loading a file twice (C4) -/

theorem registryAfter_get_key (key : JsString) (st : Engine) (clip : AnimationClip)
    (hkey : key ≠ []) : ((registryAfter key st clip).get key).isSome = true := by
  unfold registryAfter
  simp only []
  split_ifs with h
  · rw [get_set_self]; rfl
  · have hk : key.isEmpty = false := by
      cases key with
      | nil => exact absurd rfl hkey
      | cons _ _ => rfl
    simp only [hk, Bool.not_false, Bool.true_and, Bool.not_eq_true, Option.isNone_eq_false_iff,
      Option.isSome_iff_ne_none, ne_eq] at h
    exact Option.isSome_iff_ne_none.2 h

theorem foldl_registerClip_get_key (key : JsString) (hkey : key ≠ []) (clips : List AnimationClip)
    (st : Engine) (h : clips ≠ [] ∨ (st.actions.get key).isSome = true) :
    ((clips.foldl (registerClip key) st).actions.get key).isSome = true := by
  induction clips generalizing st with
  | nil =>
    rcases h with h | h
    · exact absurd rfl h
    · exact h
  | cons c cs ih =>
    rw [List.foldl_cons]
    apply ih
    right
    rw [registerClip_actions]
    exact registryAfter_get_key key st c hkey

/-- After a load that delivered at least one clip to an engine with a mixer,
the file key is readable in the registry, so a second call returns at once:
it issues no load and leaves the whole engine state as the first call left
it. -/
theorem loadAnimationFile_twice (loader : JsString → LoadOutcome) (st : Engine)
    (filename : JsString) (c : AnimationClip) (cs : List AnimationClip)
    (hkey : fileKey filename ≠ []) (hload : loader filename = .loaded (c :: cs))
    (hmixer : st.mixer = true) :
    loadAnimationFile loader (loadAnimationFile loader st filename) filename =
      loadAnimationFile loader st filename := by
  have hread : ((loadAnimationFile loader st filename).actions.get (fileKey filename)).isSome
      = true := by
    have hne : filename.isEmpty = false := by
      cases filename with
      | nil => exact absurd (by decide) hkey
      | cons _ _ => rfl
    by_cases h2 : (st.actions.get (fileKey filename)).isSome = true
    · simp [loadAnimationFile, hne, h2]
    · simp only [loadAnimationFile, hne, h2, hload, hmixer, Bool.false_eq_true, if_false,
        List.isEmpty_cons, Bool.not_false, Bool.and_self, if_true]
      exact foldl_registerClip_get_key _ hkey _ _ (Or.inl (by simp))
  generalize loadAnimationFile loader st filename = st1 at hread ⊢
  unfold loadAnimationFile
  simp [hread]

/-- A first load of a single-clip file whose key is not yet readable issues
one asset load and creates one action. -/
theorem loadAnimationFile_single_clip (loader : JsString → LoadOutcome) (st : Engine)
    (filename : JsString) (c : AnimationClip)
    (hname : filename ≠ []) (hfresh : st.actions.get (fileKey filename) = none)
    (hload : loader filename = .loaded [c]) (hmixer : st.mixer = true) :
    (loadAnimationFile loader st filename).loads = st.loads ++ [filename] ∧
      (loadAnimationFile loader st filename).heap.length = st.heap.length + 1 ∧
      (loadAnimationFile loader st filename).actions.get (registrationName (fileKey filename) c)
        = some (.action st.heap.length) := by
  have hne : filename.isEmpty = false := by
    cases filename with
    | nil => exact absurd rfl hname
    | cons _ _ => rfl
  simp only [loadAnimationFile, hne, hfresh, hload, hmixer, Bool.false_eq_true, if_false,
    Option.isSome_none, List.isEmpty_cons, Bool.not_false, Bool.and_self, if_true,
    List.foldl_cons, List.foldl_nil]
  refine ⟨?_, ?_, ?_⟩
  · simp only [registerClip]
    split_ifs <;> (try split) <;> rfl
  · rw [registerClip_heap]; simp
  · rw [registerClip_actions]
    exact registryAfter_get_name _ _ _

/-- C4 (the code at the failing input): for the file `constructor.fbx`, whose
key `constructor` is non-empty, with a mixer present and a loader that
delivers one clip, the first call already takes the `already loaded` return,
because the read `this.actions['constructor']` yields the inherited
`Object.prototype.constructor`: after two calls no load was issued, no action
was created and the registry has no entry (whereas `talking.fbx`, under the
same conditions, ends with one registered action). -/
theorem load_constructor_registers_nothing :
    fileKey "constructor.fbx".toList = "constructor".toList ∧
      baseEngine.mixer = true ∧
      (loadAnimationFile singleClipLoader
        (loadAnimationFile singleClipLoader baseEngine "constructor.fbx".toList)
        "constructor.fbx".toList).loads = [] ∧
      (loadAnimationFile singleClipLoader
        (loadAnimationFile singleClipLoader baseEngine "constructor.fbx".toList)
        "constructor.fbx".toList).heap = [] ∧
      (loadAnimationFile singleClipLoader
        (loadAnimationFile singleClipLoader baseEngine "constructor.fbx".toList)
        "constructor.fbx".toList).actions = [] ∧
      (loadAnimationFile singleClipLoader
        (loadAnimationFile singleClipLoader baseEngine "talking.fbx".toList)
        "talking.fbx".toList).heap.length = 1 := by
  decide

/-! ### The random gesture pick (C5) -/

theorem mem_keys (reg : Registry) (k : JsString) : k ∈ reg.keys ↔ k ∈ reg.map Prod.fst := by
  simp only [Registry.keys, List.mem_append, (List.perm_insertionSort _ _).mem_iff,
    List.mem_filter]
  cases h : isArrayIndex k <;> simp [h]

theorem get_of_mem_keys (reg : Registry) (k : JsString) (h : k ∈ reg.keys) :
    ∃ id, (k, id) ∈ reg ∧ reg.get k = some (.action id) := by
  rw [mem_keys] at h
  induction reg with
  | nil => simp at h
  | cons e rest ih =>
    obtain ⟨k', v⟩ := e
    by_cases hk : k = k'
    · subst hk
      exact ⟨v, List.mem_cons_self _ _, by simp [Registry.get, List.lookup]⟩
    · have hmem : k ∈ rest.map Prod.fst := by
        simpa [hk] using h
      obtain ⟨id, hid, hget⟩ := ih hmem
      refine ⟨id, List.mem_cons_of_mem _ hid, ?_⟩
      have hbeq : (k == k') = false := by simpa using hk
      simp only [Registry.get, List.lookup, hbeq] at hget ⊢
      exact hget

theorem randomIndex_lt (random : ℚ) (n : Nat) (h0 : 0 ≤ random) (h1 : random < 1)
    (hn : 0 < n) : randomIndex random n < n := by
  unfold randomIndex
  have hn' : (0 : ℚ) < n := by exact_mod_cast hn
  have hlt : random * n < n := by nlinarith
  have hfl : ⌊random * n⌋ < (n : ℤ) := by
    rw [Int.floor_lt]
    exact_mod_cast hlt
  have hnn : 0 ≤ ⌊random * (n : ℚ)⌋ := Int.floor_nonneg.2 (by positivity)
  omega

theorem infix_toLowerCase_of_infix_lower (w k : JsString) (hw : toLowerCase w = w) (h : w <:+: k) :
    w <:+: toLowerCase k := by
  obtain ⟨a, b, rfl⟩ := h
  refine ⟨toLowerCase a, toLowerCase b, ?_⟩
  unfold toLowerCase at hw ⊢
  rw [List.map_append, List.map_append, hw]

theorem isGestureCandidate_iff (idle : Option JsString) (k : JsString) :
    isGestureCandidate idle k = true ↔
      k ≠ [] ∧ toLowerCase k ≠ toLowerCase (idle.getD []) ∧
        ¬ "talk".toList <:+: toLowerCase k ∧ ¬ "speaking".toList <:+: toLowerCase k := by
  unfold isGestureCandidate
  cases k with
  | nil => simp
  | cons c cs =>
    have hne : c :: cs ≠ [] := List.cons_ne_nil _ _
    simp only [List.isEmpty_cons, Bool.false_eq_true, if_false]
    split_ifs with h1 h2
    · exact ⟨fun h => by simp at h, fun h => absurd h1 h.2.1⟩
    · simp only [Bool.or_eq_true, includes_iff] at h2
      refine ⟨fun h => by simp at h, fun h => ?_⟩
      rcases h2 with h2 | h2
      · exact absurd h2 h.2.2.1
      · exact absurd h2 h.2.2.2
    · simp only [Bool.or_eq_true, includes_iff, not_or] at h2
      exact ⟨fun _ => ⟨hne, h1, h2.1, h2.2⟩, fun _ => rfl⟩

/-- The timer calls of `loopOnce` leave the actions alone. -/
theorem armTimer_frame (st : Engine) (cb : Callback) (d : ℚ) :
    (st.armTimer cb d).heap = st.heap ∧ (st.armTimer cb d).currentAction = st.currentAction ∧
      (st.armTimer cb d).actions = st.actions := ⟨rfl, rfl, rfl⟩

/-- C5: for a random draw in `[0, 1)`, when the candidate list of `loopOnce`
is not empty the index `floor(random * length)` lies within it and the picked
key is a non-empty registered key whose lowercase form differs from the
lowercased idle key and contains neither `talk` nor `speaking` (nor does the
key itself); a running loop that is not waiting for speech plays exactly that
key.  When the candidate list is empty, `loopOnce` plays nothing: no action
and no current-action pointer changes. -/
theorem loopOnce_picks_candidate (st : Engine) (random : ℚ) (h0 : 0 ≤ random)
    (h1 : random < 1) :
    (gestureCandidates st ≠ [] →
      randomIndex random (gestureCandidates st).length < (gestureCandidates st).length ∧
      ∃ key id, pickGesture st random = some key ∧
        key ≠ [] ∧ (key, id) ∈ st.actions ∧ st.actions.get key = some (.action id) ∧
        toLowerCase key ≠ toLowerCase (st.idleActionName.getD []) ∧
        ¬ "talk".toList <:+: toLowerCase key ∧ ¬ "speaking".toList <:+: toLowerCase key ∧
        ¬ "talk".toList <:+: key ∧ ¬ "speaking".toList <:+: key ∧
        ∀ (toggle speaking : Bool) (minInterval maxInterval : ℚ),
          st.gestureLoopRunning = true → (toggle && speaking) = false →
          loopOnce ⟨toggle, speaking, random⟩ minInterval maxInterval st =
            (play st key gestureOptions).armTimer (Callback.rearm minInterval maxInterval)
              (gestureDuration (play st key gestureOptions) (.action id) + 80)) ∧
    (gestureCandidates st = [] → ∀ (env : LoopEnv) (minInterval maxInterval : ℚ),
      (loopOnce env minInterval maxInterval st).heap = st.heap ∧
        (loopOnce env minInterval maxInterval st).currentAction = st.currentAction) := by
  constructor
  · intro hne
    have hlen : 0 < (gestureCandidates st).length := List.length_pos.2 hne
    have hidx := randomIndex_lt random _ h0 h1 hlen
    have hpick : pickGesture st random =
        some ((gestureCandidates st)[randomIndex random (gestureCandidates st).length]) := by
      unfold pickGesture
      exact List.getElem?_eq_getElem hidx
    have hmem : (gestureCandidates st)[randomIndex random (gestureCandidates st).length] ∈
        gestureCandidates st := List.getElem_mem _
    generalize (gestureCandidates st)[randomIndex random (gestureCandidates st).length] = key
      at hpick hmem
    have hmem2 := hmem
    unfold gestureCandidates at hmem2
    rw [List.mem_filter, isGestureCandidate_iff] at hmem2
    obtain ⟨hkeys, hne', hidle, htalk, hspeak⟩ := hmem2
    obtain ⟨id, hid, hget⟩ := get_of_mem_keys _ _ hkeys
    refine ⟨hidx, key, id, hpick, hne', hid, hget, hidle, htalk, hspeak, ?_, ?_, ?_⟩
    · exact fun h => htalk (infix_toLowerCase_of_infix_lower _ _ (by decide) h)
    · exact fun h => hspeak (infix_toLowerCase_of_infix_lower _ _ (by decide) h)
    · intro toggle speaking minInterval maxInterval hrun hquiet
      have hempty : (gestureCandidates st).isEmpty = false := by
        cases hc : gestureCandidates st with
        | nil => exact absurd hc hne
        | cons _ _ => rfl
      simp only [loopOnce, hrun, hquiet, hempty, hpick, hget, Option.getD_some, gestureOptions,
        Bool.not_true, Bool.false_eq_true, if_false]
  · intro hnil env minInterval maxInterval
    have hempty : (gestureCandidates st).isEmpty = true := by rw [hnil]; rfl
    simp only [loopOnce, hempty, if_true]
    split_ifs <;> exact ⟨rfl, rfl⟩

/-- C5 (instance): with `wave`, `talking` and `idle` registered and `idle` the
idle key, the draw `1/2` picks `wave`. -/
theorem loopOnce_picks_candidate_witness :
    (0 : ℚ) ≤ 1 / 2 ∧ (1 / 2 : ℚ) < 1 ∧ gestureCandidates gestureEngine = ["wave".toList] ∧
      randomIndex (1 / 2) (gestureCandidates gestureEngine).length <
        (gestureCandidates gestureEngine).length :=
  ⟨by norm_num, by norm_num, by decide,
    ((loopOnce_picks_candidate gestureEngine (1 / 2) (by norm_num) (by norm_num)).1
      (by decide)).1⟩

/-! ### The rule table (C6) -/

theorem firstMatchingRule_eq_none (regExp : RegExpCtor) (gestureMap : GestureMap)
    (text : JsString) (h : NoRuleMatches regExp gestureMap text) :
    firstMatchingRule regExp gestureMap text = none := by
  induction gestureMap with
  | nil => rfl
  | cons rule rest ih =>
    obtain ⟨k, g⟩ := rule
    have hrest : NoRuleMatches regExp rest text :=
      fun r hr => h r (List.mem_cons_of_mem _ hr)
    have hhead := h (k, g) (List.mem_cons_self _ _)
    simp only [firstMatchingRule]
    cases hk : regExp k with
    | none => exact ih hrest
    | some test =>
      simp only [hhead test hk, Bool.false_eq_true, if_false]
      exact ih hrest

theorem firstMatchingRule_first (regExp : RegExpCtor) (gestureMap : GestureMap)
    (text : JsString)
    (h : ∃ rule ∈ gestureMap, ∃ test, regExp rule.1 = some test ∧ test text = true) :
    ∃ pre k g post test, gestureMap = pre ++ (k, g) :: post ∧
      regExp k = some test ∧ test text = true ∧ NoRuleMatches regExp pre text ∧
      firstMatchingRule regExp gestureMap text = some g := by
  induction gestureMap with
  | nil =>
    obtain ⟨rule, hmem, -⟩ := h
    simp at hmem
  | cons rule rest ih =>
    obtain ⟨k, g⟩ := rule
    by_cases hhead : ∃ test, regExp k = some test ∧ test text = true
    · obtain ⟨test, hk, ht⟩ := hhead
      refine ⟨[], k, g, rest, test, rfl, hk, ht, ?_, ?_⟩
      · intro r hr; simp at hr
      · simp [firstMatchingRule, hk, ht]
    · have hrest : ∃ rule ∈ rest, ∃ test, regExp rule.1 = some test ∧ test text = true := by
        obtain ⟨rule, hmem, test, hk, ht⟩ := h
        rcases List.mem_cons.1 hmem with rfl | hmem
        · exact absurd ⟨test, hk, ht⟩ hhead
        · exact ⟨rule, hmem, test, hk, ht⟩
      obtain ⟨pre, k', g', post, test, hsplit, hk', ht', hpre, hres⟩ := ih hrest
      refine ⟨(k, g) :: pre, k', g', post, test, by simp [hsplit], hk', ht', ?_, ?_⟩
      · intro r hr t hrt
        rcases List.mem_cons.1 hr with rfl | hr
        · by_contra hne
          exact hhead ⟨t, hrt, by simpa using hne⟩
        · exact hpre r hr t hrt
      · simp only [firstMatchingRule]
        cases hk : regExp k with
        | none => exact hres
        | some t =>
          have : t text = false := by
            by_contra hne
            exact hhead ⟨t, hk, by simpa using hne⟩
          simp only [this, Bool.false_eq_true, if_false]
          exact hres

theorem firstMatchingRule_filter_valid (regExp : RegExpCtor) (gestureMap : GestureMap)
    (text : JsString) :
    firstMatchingRule regExp (gestureMap.filter (fun r => (regExp r.1).isSome)) text =
      firstMatchingRule regExp gestureMap text := by
  induction gestureMap with
  | nil => rfl
  | cons rule rest ih =>
    obtain ⟨k, g⟩ := rule
    cases hk : regExp k with
    | none => simp [List.filter, hk, firstMatchingRule, ih]
    | some test => simp [List.filter, hk, firstMatchingRule, ih]

/-- C6: for a non-empty text, when some rule with a valid pattern matches the
text, `gestureForText` returns the gesture of the first such rule in table
order (every rule before it is invalid or does not match), whatever the
heuristic chain would return; and for every text, removing the rules with an
invalid pattern from the table does not change the result. -/
theorem gestureForText_first_rule_wins (regExp : RegExpCtor) (gestureMap : GestureMap)
    (text : JsString) (htext : text ≠ [])
    (hmatch : ∃ rule ∈ gestureMap, ∃ test, regExp rule.1 = some test ∧ test text = true) :
    (∃ pre k g post test, gestureMap = pre ++ (k, g) :: post ∧
      regExp k = some test ∧ test text = true ∧ NoRuleMatches regExp pre text ∧
      gestureForText regExp gestureMap text = g) ∧
    ∀ text' : JsString,
      gestureForText regExp (gestureMap.filter (fun r => (regExp r.1).isSome)) text' =
        gestureForText regExp gestureMap text' := by
  constructor
  · obtain ⟨pre, k, g, post, test, hsplit, hk, ht, hpre, hres⟩ :=
      firstMatchingRule_first regExp gestureMap text hmatch
    refine ⟨pre, k, g, post, test, hsplit, hk, ht, hpre, ?_⟩
    have hne : text.isEmpty = false := by
      cases text with
      | nil => exact absurd rfl htext
      | cons _ _ => rfl
    simp [gestureForText, hne, hres]
  · intro text'
    simp only [gestureForText, firstMatchingRule_filter_valid]

/-- C6 (instance): the text `Hello, no` matches the second and the third rule
of a table whose first pattern is invalid; the second rule's gesture `wave`
is returned, although the heuristic chain would answer `shaking head no`. -/
theorem gestureForText_first_rule_wins_witness :
    gestureForText literalRegExp fixtureGestureMap "Hello, no".toList = "wave".toList ∧
      heuristicGesture (toLowerCase "Hello, no".toList) = "shaking head no".toList ∧
      ∃ pre k g post test, fixtureGestureMap = pre ++ (k, g) :: post ∧
        literalRegExp k = some test ∧ test "Hello, no".toList = true ∧
        NoRuleMatches literalRegExp pre "Hello, no".toList ∧
        gestureForText literalRegExp fixtureGestureMap "Hello, no".toList = g :=
  ⟨by decide, by decide,
    (gestureForText_first_rule_wins literalRegExp fixtureGestureMap "Hello, no".toList
      (by decide)
      ⟨("hello".toList, "wave".toList), by decide, _, rfl, by decide⟩).1⟩

/-! ### The heuristic chain (C7, C8) -/

theorem mem_run_seq (ic : Bool) (a b : Regex) (p q : Pos) :
    q ∈ (Regex.seq a b).run ic p ↔ ∃ m ∈ a.run ic p, q ∈ b.run ic m := by
  simp only [Regex.run, List.mem_flatten, List.mem_map]
  constructor
  · rintro ⟨l, ⟨m, hm, rfl⟩, hq⟩
    exact ⟨m, hm, hq⟩
  · rintro ⟨m, hm, hq⟩
    exact ⟨_, ⟨m, hm, rfl⟩, hq⟩

theorem mem_run_wordBoundary (ic : Bool) (p q : Pos) :
    q ∈ Regex.wordBoundary.run ic p ↔ q = p ∧ atWordBoundary p = true := by
  simp only [Regex.run]
  split_ifs with h <;> simp [h]

theorem mem_run_words (ic : Bool) (ws : List String) (hws : ws ≠ []) (p q : Pos) :
    q ∈ (Regex.words ws).run ic p ↔ ∃ w ∈ ws, matchChars ic w.toList p = some q := by
  induction ws with
  | nil => exact absurd rfl hws
  | cons w rest ih =>
    cases rest with
    | nil =>
      simp [Regex.words, Regex.word, Regex.run, Option.mem_toList, eq_comm]
    | cons w' rest' =>
      have ih' := ih (List.cons_ne_nil _ _)
      simp only [Regex.words, Regex.run, List.mem_append, ih', Regex.word, Option.mem_toList,
        Option.mem_def, List.mem_cons, exists_eq_or_imp]

theorem run_ne_nil_iff (ic : Bool) (r : Regex) (p : Pos) :
    r.run ic p ≠ [] ↔ ∃ q, q ∈ r.run ic p := by
  cases r.run ic p with
  | nil => simp
  | cons e es => simp

theorem sideIsWord_append (l r : List Char) (h : sideIsWord l = true) :
    sideIsWord (l ++ r) = true := by
  cases l with
  | nil => simp [sideIsWord] at h
  | cons c cs => simpa [sideIsWord] using h

theorem sideIsWord_eq_false_iff (l : List Char) :
    sideIsWord l = false ↔ ∀ c, l.head? = some c → isWordChar c = false := by
  cases l with
  | nil => simp [sideIsWord]
  | cons c cs => simp [sideIsWord]

/-- The expression `/\b(w1|...)\b/`, for words that begin and end with a word
character, matches somewhere in a text exactly when one of the words occurs
in the text as a whole word. -/
theorem test_wholeWords (ws : List String) (hws : ws ≠ [])
    (hstart : ∀ w ∈ ws, sideIsWord w.toList = true)
    (hend : ∀ w ∈ ws, sideIsWord w.toList.reverse = true) (t : JsString) :
    (wholeWords ws).test false t = true ↔ HasTrigger ws t := by
  unfold Regex.test
  rw [exec_isSome]
  have hcanon : canonicalize false = id := by funext c; simp [canonicalize]
  constructor
  · rintro ⟨pre, suf, ht, hr⟩
    obtain ⟨q, hq⟩ := (run_ne_nil_iff _ _ _).1 hr
    simp only [wholeWords, mem_run_seq, mem_run_wordBoundary, mem_run_words false ws hws] at hq
    obtain ⟨m, ⟨rfl, hb1⟩, m2, ⟨w, hw, hmatch⟩, -, hb2⟩ := hq
    obtain ⟨x, rest, hsuf, hx, rfl⟩ := (matchChars_eq_some _ _ _ _ _).1 hmatch
    simp only [hcanon, List.map_id] at hx
    subst hx
    have hs1 : sideIsWord suf = true := by rw [hsuf]; exact sideIsWord_append _ _ (hstart w hw)
    have hs2 : sideIsWord (w.toList.reverse ++ (pre.reverse ++ [])) = true :=
      sideIsWord_append _ _ (hend w hw)
    simp only [atWordBoundary, hs1, hs2, bne_iff_ne, ne_eq, Bool.not_eq_true] at hb1 hb2
    refine ⟨w, hw, pre, rest, by rw [ht, hsuf, List.append_assoc], ?_, ?_⟩
    · have := (sideIsWord_eq_false_iff _).1 hb1
      simpa using this
    · exact (sideIsWord_eq_false_iff _).1 (by simpa using hb2)
  · rintro ⟨w, hw, pre, post, ht, hpre, hpost⟩
    refine ⟨pre, w.toList ++ post, by rw [ht, List.append_assoc], ?_⟩
    rw [run_ne_nil_iff]
    have hs1 : sideIsWord (w.toList ++ post) = true := sideIsWord_append _ _ (hstart w hw)
    have hs2 : sideIsWord (w.toList.reverse ++ (pre.reverse ++ [])) = true :=
      sideIsWord_append _ _ (hend w hw)
    have hb1 : sideIsWord (pre.reverse ++ []) = false :=
      (sideIsWord_eq_false_iff _).2 (by simpa using hpre)
    have hb2 : sideIsWord post = false := (sideIsWord_eq_false_iff _).2 hpost
    refine ⟨(w.toList.reverse ++ (pre.reverse ++ []), post), ?_⟩
    simp only [wholeWords, mem_run_seq, mem_run_wordBoundary, mem_run_words false ws hws]
    have hwb1 : atWordBoundary (pre.reverse ++ [], w.toList ++ post) = true := by
      show (sideIsWord (pre.reverse ++ []) != sideIsWord (w.toList ++ post)) = true
      rw [hs1, hb1]; rfl
    have hwb2 : atWordBoundary (w.toList.reverse ++ (pre.reverse ++ []), post) = true := by
      show (sideIsWord (w.toList.reverse ++ (pre.reverse ++ [])) != sideIsWord post) = true
      rw [hs2, hb2]; rfl
    refine ⟨_, ⟨rfl, hwb1⟩, _, ⟨w, hw, ?_⟩, rfl, hwb2⟩
    exact (matchChars_eq_some _ _ _ _ _).2 ⟨w.toList, post, rfl, rfl, rfl⟩

theorem test_negationWords (t : JsString) :
    (wholeWords negationWords).test false t = true ↔ HasTrigger negationWords t :=
  test_wholeWords _ (by decide) (by decide) (by decide) t

theorem test_affirmationWords (t : JsString) :
    (wholeWords affirmationWords).test false t = true ↔ HasTrigger affirmationWords t :=
  test_wholeWords _ (by decide) (by decide) (by decide) t

theorem test_gratitudeWords (t : JsString) :
    (wholeWords gratitudeWords).test false t = true ↔ HasTrigger gratitudeWords t :=
  test_wholeWords _ (by decide) (by decide) (by decide) t

theorem test_reflectiveWords (t : JsString) :
    (wholeWords reflectiveWords).test false t = true ↔ HasTrigger reflectiveWords t :=
  test_wholeWords _ (by decide) (by decide) (by decide) t

theorem test_angerWords (t : JsString) :
    (wholeWords angerWords).test false t = true ↔ HasTrigger angerWords t :=
  test_wholeWords _ (by decide) (by decide) (by decide) t

theorem gestureForText_of_no_rule (regExp : RegExpCtor) (gestureMap : GestureMap)
    (text : JsString) (htext : text ≠ []) (hno : NoRuleMatches regExp gestureMap text) :
    gestureForText regExp gestureMap text = heuristicGesture (toLowerCase text) := by
  have hne : text.isEmpty = false := by
    cases text with
    | nil => exact absurd rfl htext
    | cons _ _ => rfl
  simp [gestureForText, hne, firstMatchingRule_eq_none regExp gestureMap text hno]

theorem gestureForTextWith_of_no_rule (lower : JsString → JsString) (regExp : RegExpCtor)
    (gestureMap : GestureMap) (text : JsString) (htext : text ≠ [])
    (hno : NoRuleMatches regExp gestureMap text) :
    gestureForTextWith lower regExp gestureMap text = heuristicGesture (lower text) := by
  have hne : text.isEmpty = false := by
    cases text with
    | nil => exact absurd rfl htext
    | cons _ _ => rfl
  simp [gestureForTextWith, hne, firstMatchingRule_eq_none regExp gestureMap text hno]

/-- C7: whatever the lowercasing method `toLowerCase` computes (the theorem
holds for every function `lower`, so for the Unicode method of the language
as for its ASCII part), for a non-empty text that no rule matches,
`gestureForText` answers with the gesture of the first class, in the order
negation, affirmation, gratitude, reflective, anger, one of whose trigger
words occurs as a whole word in the lowercased text, and with `Talking` when
no class has one.  In particular a negation word decides the result whatever
else the text contains.  At the ASCII map the function is the
`gestureForText` of the other theorems. -/
theorem gestureForText_heuristic_order (lower : JsString → JsString) (regExp : RegExpCtor)
    (gestureMap : GestureMap) (text : JsString) (htext : text ≠ [])
    (hno : NoRuleMatches regExp gestureMap text) :
    (HasTrigger negationWords (lower text) →
      gestureForTextWith lower regExp gestureMap text = "shaking head no".toList) ∧
    (¬ HasTrigger negationWords (lower text) →
      HasTrigger affirmationWords (lower text) →
      gestureForTextWith lower regExp gestureMap text = "head nod yes".toList) ∧
    (¬ HasTrigger negationWords (lower text) →
      ¬ HasTrigger affirmationWords (lower text) →
      HasTrigger gratitudeWords (lower text) →
      gestureForTextWith lower regExp gestureMap text = "happy hand gesture".toList) ∧
    (¬ HasTrigger negationWords (lower text) →
      ¬ HasTrigger affirmationWords (lower text) →
      ¬ HasTrigger gratitudeWords (lower text) →
      HasTrigger reflectiveWords (lower text) →
      gestureForTextWith lower regExp gestureMap text = "Thoughtful Head Nod".toList) ∧
    (¬ HasTrigger negationWords (lower text) →
      ¬ HasTrigger affirmationWords (lower text) →
      ¬ HasTrigger gratitudeWords (lower text) →
      ¬ HasTrigger reflectiveWords (lower text) →
      HasTrigger angerWords (lower text) →
      gestureForTextWith lower regExp gestureMap text = "angry gesture".toList) ∧
    (¬ HasTrigger negationWords (lower text) →
      ¬ HasTrigger affirmationWords (lower text) →
      ¬ HasTrigger gratitudeWords (lower text) →
      ¬ HasTrigger reflectiveWords (lower text) →
      ¬ HasTrigger angerWords (lower text) →
      gestureForTextWith lower regExp gestureMap text = "Talking".toList) ∧
    gestureForTextWith toLowerCase regExp gestureMap text =
      gestureForText regExp gestureMap text := by
  rw [gestureForTextWith_of_no_rule lower regExp gestureMap text htext hno]
  simp only [← test_negationWords, ← test_affirmationWords, ← test_gratitudeWords,
    ← test_reflectiveWords, ← test_angerWords, heuristicGesture]
  refine ⟨?_, ?_, ?_, ?_, ?_, ?_, rfl⟩
  · intro h1; simp [h1]
  · intro h1 h2; simp [h1, h2]
  · intro h1 h2 h3; simp [h1, h2, h3]
  · intro h1 h2 h3 h4; simp [h1, h2, h3, h4]
  · intro h1 h2 h3 h4 h5; simp [h1, h2, h3, h4, h5]
  · intro h1 h2 h3 h4 h5; simp [h1, h2, h3, h4, h5]

/-- C7 (instance): `Yes, but no` holds both an affirmation and a negation
word; with an empty rule table the answer is `shaking head no`.  The text is
ASCII, on which every lowercasing method is the ASCII map.  With a method
that lowercases the Kelvin sign to `k`, a text ending in `THIN` and the
Kelvin sign holds the reflective word `think` once lowercased, and the answer
is `Thoughtful Head Nod`. -/
theorem gestureForText_heuristic_order_witness :
    HasTrigger affirmationWords (toLowerCase "Yes, but no".toList) ∧
      gestureForTextWith toLowerCase literalRegExp [] "Yes, but no".toList =
        "shaking head no".toList ∧
      gestureForText literalRegExp [] "Yes, but no".toList = "shaking head no".toList ∧
      kelvinLower kelvinText = "i think".toList ∧
      gestureForTextWith kelvinLower literalRegExp [] kelvinText =
        "Thoughtful Head Nod".toList :=
  ⟨(test_affirmationWords _).1 (by decide),
    (gestureForText_heuristic_order toLowerCase literalRegExp [] "Yes, but no".toList
      (by decide) (fun _ h => by simp at h)).1 ((test_negationWords _).1 (by decide)),
    by decide, by decide,
    (gestureForText_heuristic_order kelvinLower literalRegExp [] kelvinText
      (by decide) (fun _ h => by simp at h)).2.2.2.1
      (fun h => absurd ((test_negationWords _).2 h) (by decide))
      (fun h => absurd ((test_affirmationWords _).2 h) (by decide))
      (fun h => absurd ((test_gratitudeWords _).2 h) (by decide))
      ((test_reflectiveWords _).1 (by decide))⟩

/-- C8 (the code at the failing input): the text `I am frustrated` matches no
rule and holds no negation, affirmation, gratitude or reflective trigger
word; it contains the frustration word `frustrated`, yet the answer is
`Talking`, because `/\b(angry|frustrat|annoy)\b/` requires a word boundary
right after the stem `frustrat`.  The same holds for `annoyed`. -/
theorem frustrated_text_gets_talking :
    NoRuleMatches literalRegExp [] "I am frustrated".toList ∧
      ¬ HasTrigger negationWords (toLowerCase "I am frustrated".toList) ∧
      ¬ HasTrigger affirmationWords (toLowerCase "I am frustrated".toList) ∧
      ¬ HasTrigger gratitudeWords (toLowerCase "I am frustrated".toList) ∧
      ¬ HasTrigger reflectiveWords (toLowerCase "I am frustrated".toList) ∧
      "frustrated".toList <:+: toLowerCase "I am frustrated".toList ∧
      gestureForText literalRegExp [] "I am frustrated".toList = "Talking".toList ∧
      gestureForText literalRegExp [] "She was annoyed".toList = "Talking".toList := by
  refine ⟨fun _ h => by simp at h, ?_, ?_, ?_, ?_, ?_, by decide, by decide⟩
  · rw [← test_negationWords]; decide
  · rw [← test_affirmationWords]; decide
  · rw [← test_gratitudeWords]; decide
  · rw [← test_reflectiveWords]; decide
  · rw [← includes_iff]; decide

/-! ### Camera framing (C9, C10) -/

theorem selectZoom_of_positive (doc : Option ModelOverrides) (z : ℚ) (hz : 0 < z) :
    selectZoom doc (.number (.fin z)) = .fin z := by
  simp [selectZoom, JsNumber.isPositive, hz]

/-- C9: for one scene (bounding sphere, field of view) and override document,
the distance `frameModel({zoom: z})` computes for a zoom `z > 0` is the
distance of `frameModel({zoom: 1})` divided by `z`; for `z = 2` it is exactly
half of it.  The camera is placed at that distance from the centre along the
z axis. -/
theorem frameModel_distance_inverse_to_zoom (doc : Option ModelOverrides) (sc : Scene)
    (z : ℚ) (hz : 0 < z) :
    frameDistance doc sc (.number (.fin 1)) = .fin sc.baseDistance ∧
      frameDistance doc sc (.number (.fin z)) = .fin (sc.baseDistance / z) ∧
      frameDistance doc sc (.number (.fin 2)) = .fin (sc.baseDistance / 2) ∧
      (frameModel doc (some sc) (.number (.fin z))).map (fun p => p.z) =
        some (.fin (sc.center.2.2 + sc.baseDistance / z)) := by
  have h1 : selectZoom doc (.number (.fin 1)) = .fin 1 := selectZoom_of_positive doc 1 one_pos
  have h2 : selectZoom doc (.number (.fin 2)) = .fin 2 := selectZoom_of_positive doc 2 two_pos
  have hzz : selectZoom doc (.number (.fin z)) = .fin z := selectZoom_of_positive doc z hz
  have hne : z ≠ 0 := ne_of_gt hz
  refine ⟨?_, ?_, ?_, ?_⟩
  · simp [frameDistance, h1, JsNumber.divInto]
  · simp [frameDistance, hzz, JsNumber.divInto, hne]
  · simp [frameDistance, h2, JsNumber.divInto]
  · simp [frameModel, frameDistance, hzz, JsNumber.divInto, hne, JsNumber.addTo]

/-- C9 (instance): at zoom 3 the distance is a third of the zoom-1 distance. -/
theorem frameModel_distance_inverse_to_zoom_witness :
    (0 : ℚ) < 3 ∧
      frameDistance none fixtureScene (.number (.fin 3)) =
        .fin (fixtureScene.baseDistance / 3) :=
  ⟨by norm_num,
    (frameModel_distance_inverse_to_zoom none fixtureScene 3 (by norm_num)).2.1⟩

/-- The zoom is positive whenever the active override entry has no numeric
zoom or a positive one. -/
theorem selectZoom_isPositive (doc : Option ModelOverrides) (optsZoom : JsValue)
    (h : ∀ o n, activeOverrides doc = some o → o.zoom = .number n → n.isPositive = true) :
    (selectZoom doc optsZoom).isPositive = true := by
  have hfallback : (fallbackZoom doc).isPositive = true := by
    cases ha : activeOverrides doc with
    | none => simp [fallbackZoom, ha, JsNumber.isPositive]
    | some o =>
      cases hz : o.zoom with
      | undefined => simp [fallbackZoom, ha, hz, JsNumber.isPositive]
      | other => simp [fallbackZoom, ha, hz, JsNumber.isPositive]
      | number n =>
        simp only [fallbackZoom, ha, hz]
        exact h o n ha hz
  unfold selectZoom
  cases optsZoom with
  | undefined => exact hfallback
  | other => exact hfallback
  | number n =>
    by_cases hn : n.isPositive = true
    · simp [hn]
    · simp only [hn, Bool.false_eq_true, if_false]
      exact hfallback

/-- C10 (the code at the failing input): with an override document whose
active entry has `zoom: 0`, a call without a usable `opts.zoom` (missing,
`NaN`, zero or negative) selects the zoom 0, which is not positive, and the
division `distance / zoom` yields an infinite distance; with the override
`zoom: -2` the selected zoom is negative and the camera is placed behind the
model. -/
theorem override_zoom_is_not_validated :
    selectZoom (some zeroZoomOverrides) .undefined = .fin 0 ∧
      selectZoom (some zeroZoomOverrides) (.number .nan) = .fin 0 ∧
      selectZoom (some zeroZoomOverrides) (.number (.fin (-1))) = .fin 0 ∧
      (selectZoom (some zeroZoomOverrides) .undefined).isPositive = false ∧
      frameDistance (some zeroZoomOverrides) fixtureScene .undefined = .posInf ∧
      selectZoom (some negativeZoomOverrides) .undefined = .fin (-2) ∧
      (selectZoom (some negativeZoomOverrides) .undefined).isPositive = false ∧
      frameDistance (some negativeZoomOverrides) fixtureScene .undefined = .fin (-7 / 5) := by
  refine ⟨?_, ?_, ?_, ?_, ?_, ?_, ?_, ?_⟩ <;>
    simp [selectZoom, fallbackZoom, activeOverrides, zeroZoomOverrides, negativeZoomOverrides,
      JsNumber.isPositive, frameDistance, JsNumber.divInto, Scene.baseDistance, Scene.radius,
      fixtureScene] <;> norm_num

/-! ### The normal form of normalizeKey (C15) -/

theorem replaceRuns_true_eq (l : JsString) :
    replaceRuns true l = replaceRuns false (l.dropWhile (fun c => !isLowerAlnum c)) := by
  induction l with
  | nil => rfl
  | cons c cs ih =>
    by_cases hc : isLowerAlnum c = true
    · simp [replaceRuns, List.dropWhile, hc]
    · simp only [Bool.not_eq_true] at hc
      simp [replaceRuns, List.dropWhile, hc, ih]

theorem collapsesTo_replaceRuns_aux (n : Nat) :
    ∀ l : JsString, l.length ≤ n → CollapsesTo l (replaceRuns false l) := by
  induction n with
  | zero =>
    intro l hl
    have : l = [] := List.length_eq_zero.1 (Nat.le_zero.1 hl)
    subst this
    exact CollapsesTo.nil
  | succ n ih =>
    intro l hl
    cases l with
    | nil => exact CollapsesTo.nil
    | cons c cs =>
      have hcs : cs.length ≤ n := by simpa using hl
      by_cases hc : isLowerAlnum c = true
      · have : replaceRuns false (c :: cs) = c :: replaceRuns false cs := by
          simp [replaceRuns, hc]
        rw [this]
        exact CollapsesTo.keep c cs _ hc (ih cs hcs)
      · simp only [Bool.not_eq_true] at hc
        have hrw : replaceRuns false (c :: cs) =
            ' ' :: replaceRuns false (cs.dropWhile (fun c => !isLowerAlnum c)) := by
          simp [replaceRuns, hc, replaceRuns_true_eq]
        rw [hrw]
        have hsplit : c :: cs = (c :: cs.takeWhile (fun c => !isLowerAlnum c)) ++
            cs.dropWhile (fun c => !isLowerAlnum c) := by
          simp [List.takeWhile_append_dropWhile]
        rw [hsplit]
        refine CollapsesTo.run _ _ _ (List.cons_ne_nil _ _) ?_ ?_ ?_
        · intro d hd
          rcases List.mem_cons.1 hd with rfl | hd
          · exact hc
          · simpa using List.mem_takeWhile_imp hd
        · intro d hd
          have := List.head?_dropWhile_not (fun c => !isLowerAlnum c) cs
          simp only [hd] at this
          simpa using this
        · refine ih _ ?_
          have := (List.dropWhile_suffix (l := cs) (fun c => !isLowerAlnum c)).length_le
          omega

theorem collapsesTo_replaceRuns (l : JsString) : CollapsesTo l (replaceRuns false l) :=
  collapsesTo_replaceRuns_aux l.length l (Nat.le_refl _)

theorem eq_replaceRuns_of_collapsesTo (l out : JsString) (h : CollapsesTo l out) :
    out = replaceRuns false l := by
  induction h with
  | nil => rfl
  | keep c s out hc _ ih => simp [replaceRuns, hc, ih]
  | run r rest out hr hall hrest _ ih =>
    cases r with
    | nil => exact absurd rfl hr
    | cons c cs =>
      have hc : isLowerAlnum c = false := hall c (List.mem_cons_self _ _)
      have hcs : ∀ d ∈ cs, (!isLowerAlnum d) = true := fun d hd => by
        simp [hall d (List.mem_cons_of_mem _ hd)]
      have hdrop : (cs ++ rest).dropWhile (fun c => !isLowerAlnum c) = rest := by
        rw [List.dropWhile_append_of_pos hcs]
        cases rest with
        | nil => rfl
        | cons d ds =>
          have := hrest d rfl
          simp [List.dropWhile, this]
      simp [replaceRuns, hc, replaceRuns_true_eq, hdrop, ih]

theorem isTrimOf_trim (s : JsString) : IsTrimOf s (trim s) := by
  refine ⟨s.takeWhile isWhiteSpace,
    ((s.dropWhile isWhiteSpace).reverse.takeWhile isWhiteSpace).reverse, ?_, ?_, ?_, ?_, ?_⟩
  · have h1 := List.takeWhile_append_dropWhile isWhiteSpace s
    have h2 := List.takeWhile_append_dropWhile isWhiteSpace (s.dropWhile isWhiteSpace).reverse
    have h3 := congrArg List.reverse h2
    simp only [List.reverse_append, List.reverse_reverse] at h3
    unfold trim
    rw [List.append_assoc, h3, h1]
  · intro c hc
    exact List.mem_takeWhile_imp hc
  · intro c hc
    exact List.mem_takeWhile_imp (List.mem_reverse.1 hc)
  · intro c hc
    have h2 := List.takeWhile_append_dropWhile isWhiteSpace (s.dropWhile isWhiteSpace).reverse
    have h3 := congrArg List.reverse h2
    simp only [List.reverse_append, List.reverse_reverse] at h3
    have hhead : (s.dropWhile isWhiteSpace).head? = some c := by
      rw [← h3]
      unfold trim at hc
      cases ht : ((s.dropWhile isWhiteSpace).reverse.dropWhile isWhiteSpace).reverse with
      | nil => simp [ht] at hc
      | cons d ds =>
        rw [ht] at hc
        simpa using hc
    have := List.head?_dropWhile_not isWhiteSpace s
    simp only [hhead] at this
    simpa using this
  · intro c hc
    unfold trim at hc
    rw [List.getLast?_reverse] at hc
    have := List.head?_dropWhile_not isWhiteSpace (s.dropWhile isWhiteSpace).reverse
    simp only [hc] at this
    simpa using this

theorem dropWhile_white_append (pre t : JsString) (hpre : ∀ c ∈ pre, isWhiteSpace c = true)
    (ht : ∀ c, t.head? = some c → isWhiteSpace c = false) :
    (pre ++ t).dropWhile isWhiteSpace = t := by
  rw [List.dropWhile_append_of_pos hpre]
  cases t with
  | nil => rfl
  | cons d ds => simp [List.dropWhile, ht d rfl]

theorem eq_trim_of_isTrimOf (s t : JsString) (h : IsTrimOf s t) : t = trim s := by
  obtain ⟨pre, post, rfl, hpre, hpost, hhead, hlast⟩ := h
  unfold trim
  by_cases ht : t = []
  · subst ht
    have h1 : (pre ++ [] ++ post).dropWhile isWhiteSpace = [] := by
      rw [List.append_nil, List.dropWhile_eq_nil_iff]
      intro c hc
      rcases List.mem_append.1 hc with hc | hc
      · exact hpre c hc
      · exact hpost c hc
    rw [h1]
    rfl
  · have hh : ∀ c, (t ++ post).head? = some c → isWhiteSpace c = false := by
      intro c hc
      cases t with
      | nil => exact absurd rfl ht
      | cons d ds => exact hhead c (by simpa using hc)
    have h1 : (pre ++ t ++ post).dropWhile isWhiteSpace = t ++ post := by
      rw [List.append_assoc]
      exact dropWhile_white_append pre (t ++ post) hpre hh
    rw [h1, List.reverse_append]
    have h2 : (post.reverse ++ t.reverse).dropWhile isWhiteSpace = t.reverse :=
      dropWhile_white_append post.reverse t.reverse
        (fun c hc => hpost c (List.mem_reverse.1 hc))
        (fun c hc => hlast c (by rw [← List.head?_reverse]; exact hc))
    rw [h2, List.reverse_reverse]

theorem mem_replaceRuns (b : Bool) (l : JsString) :
    ∀ c ∈ replaceRuns b l, isLowerAlnum c = true ∨ c = ' ' := by
  induction l generalizing b with
  | nil => intro c hc; simp [replaceRuns] at hc
  | cons d ds ih =>
    intro c hc
    simp only [replaceRuns] at hc
    split_ifs at hc with h1 h2
    · rcases List.mem_cons.1 hc with rfl | hc
      · exact Or.inl h1
      · exact ih false c hc
    · exact ih true c hc
    · rcases List.mem_cons.1 hc with rfl | hc
      · exact Or.inr rfl
      · exact ih true c hc

theorem noDoubleSpace_replaceRuns (b : Bool) (l : JsString) :
    NoDoubleSpace (replaceRuns b l) ∧ (b = true → (replaceRuns b l).head? ≠ some ' ') := by
  induction l generalizing b with
  | nil => simp [replaceRuns, NoDoubleSpace]
  | cons d ds ih =>
    simp only [replaceRuns]
    split_ifs with h1 h2
    · have hd : d ≠ ' ' := by
        rintro rfl
        revert h1
        decide
      refine ⟨?_, fun _ => by simpa using hd⟩
      unfold NoDoubleSpace
      rw [List.chain'_cons']
      exact ⟨fun y _ h => hd h.1, (ih false).1⟩
    · exact ⟨(ih true).1, fun _ => (ih true).2 rfl⟩
    · refine ⟨?_, fun hb => by simp [hb] at h2⟩
      unfold NoDoubleSpace
      rw [List.chain'_cons']
      refine ⟨fun y hy h => (ih true).2 rfl ?_, (ih true).1⟩
      rw [Option.mem_def] at hy
      rw [hy, h.2]

theorem trim_isInfix_self (s : JsString) : trim s <:+: s := by
  obtain ⟨pre, post, h, -⟩ := isTrimOf_trim s
  exact ⟨pre, post, h.symm⟩

/-- C15: for every string `s`, and whatever the lowercasing method
`toLowerCase` computes (the theorem holds for every function `lower`, so for
the Unicode method of the language as for its ASCII part), `normalizeKey(s)`
consists only of the characters `a-z`, `0-9` and space, neither begins nor
ends with a space, has no two consecutive spaces, and is the lowercased input
with every maximal run of characters outside `a-z0-9` collapsed to one space
and then trimmed (that description determines it uniquely).  At the ASCII map
the function is the `normalizeKey` of the other theorems. -/
theorem normalizeKey_normal_form (lower : JsString → JsString) (s : JsString) :
    (∀ c ∈ normalizeKeyWith lower s, isLowerAlnum c = true ∨ c = ' ') ∧
      (normalizeKeyWith lower s).head? ≠ some ' ' ∧
      (normalizeKeyWith lower s).getLast? ≠ some ' ' ∧
      NoDoubleSpace (normalizeKeyWith lower s) ∧
      (∃ mid, CollapsesTo (lower s) mid ∧ IsTrimOf mid (normalizeKeyWith lower s)) ∧
      (∀ mid t, CollapsesTo (lower s) mid → IsTrimOf mid t → t = normalizeKeyWith lower s) ∧
      normalizeKeyWith toLowerCase s = normalizeKey s := by
  have htrim := isTrimOf_trim (replaceRuns false (lower s))
  obtain ⟨pre, post, hsplit, hpre, hpost, hhead, hlast⟩ := htrim
  have hinf := trim_isInfix_self (replaceRuns false (lower s))
  refine ⟨?_, ?_, ?_, ?_, ?_, ?_, rfl⟩
  · intro c hc
    exact mem_replaceRuns false _ c (hinf.subset hc)
  · intro h
    have := hhead ' ' h
    revert this
    decide
  · intro h
    have := hlast ' ' h
    revert this
    decide
  · exact List.Chain'.infix (noDoubleSpace_replaceRuns false _).1 hinf
  · exact ⟨_, collapsesTo_replaceRuns _, isTrimOf_trim _⟩
  · intro mid t hmid ht
    rw [eq_replaceRuns_of_collapsesTo _ _ hmid] at ht
    exact eq_trim_of_isTrimOf _ _ ht

/-- With a lowercasing method that maps the Kelvin sign to `k`, a name
spelled with the Kelvin sign normalizes to `talking`; with the ASCII map the
sign is outside `a-z0-9` and becomes a space. -/
theorem normalizeKeyWith_kelvin :
    normalizeKeyWith kelvinLower ("Tal".toList ++ [Char.ofNat 8490] ++ "ing".toList) =
        "talking".toList ∧
      normalizeKey ("Tal".toList ++ [Char.ofNat 8490] ++ "ing".toList) = "tal ing".toList := by
  decide

/-! ### Registration under both identities (C16) -/

theorem registerClip_heap_prefix (key : JsString) (st : Engine) (clip : AnimationClip)
    (i : Nat) (a : AnimationAction) (h : st.heap[i]? = some a) :
    (registerClip key st clip).heap[i]? = some a := by
  rw [registerClip_heap]
  have hi : i < st.heap.length := by
    by_contra hn
    rw [List.getElem?_eq_none (Nat.le_of_not_lt hn)] at h
    exact Option.noConfusion h
  rw [List.getElem?_append_left hi]
  exact h

/-- C16 (as amended): after `loadAnimationFile` registers a clip from a file
whose key is non-empty, `actions[name]` is the newly created action and
`actions[key]` is defined: it is the new action if the key was not taken
before or the clip's registration name is the key itself, and otherwise the
previous holder, which like every older action object is unchanged. -/
theorem registerClip_lookups (key : JsString) (st : Engine) (clip : AnimationClip)
    (hkey : key ≠ []) :
    (registerClip key st clip).actions.get (registrationName key clip) =
        some (.action st.heap.length) ∧
      (registerClip key st clip).heap[st.heap.length]? =
        some { clip := safeClip key clip, clampWhenFinished := true } ∧
      ((registerClip key st clip).actions.get key).isSome = true ∧
      ((st.actions.get key = none ∨ registrationName key clip = key) →
        (registerClip key st clip).actions.get key = some (.action st.heap.length)) ∧
      (∀ holder, st.actions.get key = some holder → registrationName key clip ≠ key →
        (registerClip key st clip).actions.get key = some holder) ∧
      (∀ (i : Nat) (a : AnimationAction), st.heap[i]? = some a →
        (registerClip key st clip).heap[i]? = some a) := by
  have hk : key.isEmpty = false := by
    cases key with
    | nil => exact absurd rfl hkey
    | cons _ _ => rfl
  refine ⟨?_, ?_, ?_, ?_, ?_, registerClip_heap_prefix key st clip⟩
  · rw [registerClip_actions]; exact registryAfter_get_name key st clip
  · rw [registerClip_heap]; simp
  · rw [registerClip_actions]; exact registryAfter_get_key key st clip hkey
  · intro h
    rw [registerClip_actions]
    by_cases hname : registrationName key clip = key
    · have := registryAfter_get_name key st clip
      rwa [hname] at this
    · have hnone : st.actions.get key = none := h.resolve_right hname
      have hget : (st.actions.set (registrationName key clip) st.heap.length).get key = none := by
        rw [get_set_of_ne _ _ _ _ (Ne.symm hname)]; exact hnone
      simp only [registryAfter, hk, hget, Option.isNone_none, Bool.not_false, Bool.and_self,
        if_true]
      exact get_set_self _ _ _
  · intro holder hholder hname
    rw [registerClip_actions]
    have hget : (st.actions.set (registrationName key clip) st.heap.length).get key =
        some holder := by
      rw [get_set_of_ne _ _ _ _ (Ne.symm hname)]; exact hholder
    simp only [registryAfter, hget, Option.isNone_some, Bool.and_false, Bool.false_eq_true,
      if_false]

/-- C16 (instance): a clip named `Smile` from a file with key `talking` is
readable under both names. -/
theorem registerClip_lookups_witness :
    (registerClip "talking".toList baseEngine cleanClip).actions.get "smile".toList =
        some (.action 0) ∧
      (registerClip "talking".toList baseEngine cleanClip).actions.get "talking".toList =
        some (.action 0) :=
  ⟨(registerClip_lookups "talking".toList baseEngine cleanClip (by decide)).1,
    (registerClip_lookups "talking".toList baseEngine cleanClip (by decide)).2.2.2.1
      (Or.inl (by decide))⟩

/-- C16 (counterexample): in a file with two clips that both carry the
placeholder name `take_001`, each clip registers under the file key; the key
is already taken by the first action when the second clip is registered,
yet afterwards it refers to the second action, not to the previous holder. -/
theorem second_clip_takes_over_file_key :
    (registerClip "talking".toList baseEngine placeholderClip).actions.get "talking".toList =
        some (.action 0) ∧
      (registerClip "talking".toList
        (registerClip "talking".toList baseEngine placeholderClip)
        placeholderClip).actions.get "talking".toList = some (.action 1) ∧
      (loadAnimationFile twoClipLoader baseEngine "Talking.fbx".toList).actions.get
        "talking".toList = some (.action 1) := by
  decide

/-! ### The idle action (C17) -/

theorem lookup_isSome_iff (reg : Registry) (k : JsString) :
    (List.lookup k reg).isSome = true ↔ reg.IsRegistered k := by
  unfold Registry.IsRegistered
  induction reg with
  | nil => simp [List.lookup]
  | cons e rest ih =>
    obtain ⟨k', v⟩ := e
    by_cases hk : k = k'
    · subst hk; simp [List.lookup]
    · have hbeq : (k == k') = false := by simpa using hk
      simp only [List.lookup, hbeq, ih, List.map_cons, List.mem_cons, hk, false_or]

theorem get_isSome_iff (reg : Registry) (k : JsString)
    (hk : objectPrototypeKeys.contains k = false) :
    (reg.get k).isSome = true ↔ reg.IsRegistered k := by
  rw [← lookup_isSome_iff]
  unfold Registry.get
  cases List.lookup k reg with
  | none => simpa using hk
  | some id => simp

theorem firstRegisteredIdle_spec (reg : Registry) (cands : List JsString)
    (hnorm : ∀ c ∈ cands, normalizeKey c = c)
    (hproto : ∀ c ∈ cands, objectPrototypeKeys.contains c = false) :
    (∀ pre c post, cands = pre ++ c :: post → reg.IsRegistered c →
        (∀ p ∈ pre, ¬ reg.IsRegistered p) → firstRegisteredIdle reg cands = some c) ∧
      ((∀ c ∈ cands, ¬ reg.IsRegistered c) → firstRegisteredIdle reg cands = none) := by
  induction cands with
  | nil =>
    refine ⟨?_, fun _ => rfl⟩
    intro pre c post h
    simp at h
  | cons d ds ih =>
    have hd : normalizeKey d = d := hnorm d (List.mem_cons_self _ _)
    have hdp := hproto d (List.mem_cons_self _ _)
    obtain ⟨ih1, ih2⟩ := ih (fun c hc => hnorm c (List.mem_cons_of_mem _ hc))
      (fun c hc => hproto c (List.mem_cons_of_mem _ hc))
    constructor
    · intro pre c post hsplit hc hpre
      cases pre with
      | nil =>
        simp only [List.nil_append, List.cons.injEq] at hsplit
        obtain ⟨rfl, -⟩ := hsplit
        simp [firstRegisteredIdle, hd, (get_isSome_iff reg d hdp).2 hc]
      | cons p ps =>
        simp only [List.cons_append, List.cons.injEq] at hsplit
        obtain ⟨rfl, hds⟩ := hsplit
        have hnot : ¬ reg.IsRegistered d := hpre d (List.mem_cons_self _ _)
        have hget : (reg.get d).isSome = false := by
          simpa using fun h => hnot ((get_isSome_iff reg d hdp).1 h)
        simp only [firstRegisteredIdle, hd, hget, Bool.false_eq_true, if_false]
        exact ih1 ps c post hds hc (fun q hq => hpre q (List.mem_cons_of_mem _ hq))
    · intro hnone
      have hnot : ¬ reg.IsRegistered d := hnone d (List.mem_cons_self _ _)
      have hget : (reg.get d).isSome = false := by
        simpa using fun h => hnot ((get_isSome_iff reg d hdp).1 h)
      simp only [firstRegisteredIdle, hd, hget, Bool.false_eq_true, if_false]
      exact ih2 (fun c hc => hnone c (List.mem_cons_of_mem _ hc))

theorem registerClip_idleActionName (key : JsString) (st : Engine) (clip : AnimationClip) :
    (registerClip key st clip).idleActionName =
      if st.hasIdle then st.idleActionName
      else
        match firstRegisteredIdle (registryAfter key st clip) idleCandidates with
        | some c => some c
        | none => some (registrationName key clip) := by
  simp only [registerClip, registryAfter, Engine.hasIdle]
  split_ifs <;> (try split) <;> simp_all

/-- C17: when `loadAnimationFile` registers a clip while no idle action is
chosen, `idleActionName` becomes the first entry of the priority list `idle`,
`idle breathing`, `breathing`, `weight shift`, `talking` that is a registered
key once the clip is registered, and the clip's own registration name when
none of them is registered; when an idle action is already chosen it is left
unchanged. -/
theorem registerClip_chooses_idle (key : JsString) (st : Engine) (clip : AnimationClip) :
    (st.hasIdle = false →
      (∀ pre c post, idleCandidates = pre ++ c :: post →
        (registerClip key st clip).actions.IsRegistered c →
        (∀ p ∈ pre, ¬ (registerClip key st clip).actions.IsRegistered p) →
        (registerClip key st clip).idleActionName = some c) ∧
      ((∀ c ∈ idleCandidates, ¬ (registerClip key st clip).actions.IsRegistered c) →
        (registerClip key st clip).idleActionName = some (registrationName key clip))) ∧
    (st.hasIdle = true →
      (registerClip key st clip).idleActionName = st.idleActionName) := by
  obtain ⟨h1, h2⟩ := firstRegisteredIdle_spec (registryAfter key st clip) idleCandidates
    (by decide) (by decide)
  rw [registerClip_actions, registerClip_idleActionName]
  refine ⟨fun hidle => ⟨?_, ?_⟩, fun hidle => by simp [hidle]⟩
  · intro pre c post hsplit hc hpre
    simp [hidle, h1 pre c post hsplit hc hpre]
  · intro hnone
    simp [hidle, h2 hnone]

/-! ### play on a registered key (C18) -/

theorem get_of_lookup (reg : Registry) (k : JsString) (id : Nat)
    (h : List.lookup k reg = some id) : reg.get k = some (.action id) := by
  simp [Registry.get, h]

theorem play_eq_of_registered (st : Engine) (name : JsString) (opts : PlayOptions) (id : Nat)
    (hready : st.ready = true)
    (hreg : List.lookup (normalizeKey name) st.actions = some id) :
    play st name opts =
      { (match (st.updateAction id (fun a => a.started
            (loopModeOf (opts.loop.getD (.str "repeat".toList))) (opts.fade.getD (1 / 4)))).currentAction with
          | some cur =>
            if cur ≠ .action id then
              (st.updateAction id (fun a => a.started
                (loopModeOf (opts.loop.getD (.str "repeat".toList)))
                (opts.fade.getD (1 / 4)))).tryCall cur
                (fun a => a.fadeOut (opts.fade.getD (1 / 4)))
            else st.updateAction id (fun a => a.started
              (loopModeOf (opts.loop.getD (.str "repeat".toList))) (opts.fade.getD (1 / 4)))
          | none => st.updateAction id (fun a => a.started
              (loopModeOf (opts.loop.getD (.str "repeat".toList))) (opts.fade.getD (1 / 4))))
        with currentAction := some (.action id) } := by
  have hget := get_of_lookup _ _ _ hreg
  unfold play
  simp only [hready, hget, Bool.not_true, Bool.false_eq_true, if_false]
  rfl

/-- C18: on a ready engine, for a name whose normalized key is registered,
`play` leaves the target action reset (time 0, not paused), with the loop
mode of its `loop` option (`LoopOnce` for `once`, `LoopRepeat` for any other
string, the given constant for a number), fading in over `fade`, activated
and enabled; the previously current action is faded out over the same
duration when it is another action, and no other action changes (so nothing
is faded out when there is no current action or it is the target); the
registry is unchanged and `currentAction` is the target afterwards. -/
theorem play_crossfades_to_target (st : Engine) (name : JsString) (opts : PlayOptions)
    (id : Nat) (hready : st.ready = true)
    (hreg : List.lookup (normalizeKey name) st.actions = some id) :
    (play st name opts).currentAction = some (.action id) ∧
      (play st name opts).actions = st.actions ∧
      (∀ a : AnimationAction, st.heap[id]? = some a →
        (play st name opts).heap[id]? = some (a.started
          (loopModeOf (opts.loop.getD (.str "repeat".toList))) (opts.fade.getD (1 / 4)))) ∧
      (∀ (cur : Nat) (a : AnimationAction), st.currentAction = some (.action cur) → cur ≠ id →
        st.heap[cur]? = some a →
        (play st name opts).heap[cur]? = some (a.fadeOut (opts.fade.getD (1 / 4)))) ∧
      (∀ (i : Nat) (a : AnimationAction), i ≠ id → st.currentAction ≠ some (.action i) →
        st.heap[i]? = some a → (play st name opts).heap[i]? = some a) ∧
      (∀ (a : AnimationAction) (loopMode : Nat) (fade : ℚ),
        (a.started loopMode fade).time = 0 ∧ (a.started loopMode fade).paused = false ∧
        (a.started loopMode fade).loop = loopMode ∧
        (a.started loopMode fade).fade = some (fade, 0, 1) ∧
        (a.started loopMode fade).active = true ∧ (a.started loopMode fade).enabled = true ∧
        (a.started loopMode fade).clip = a.clip) ∧
      loopModeOf (.str "once".toList) = LoopOnce ∧
      (∀ s : JsString, s ≠ "once".toList → loopModeOf (.str s) = LoopRepeat) ∧
      (∀ n : Nat, loopModeOf (.num n) = n) := by
  rw [play_eq_of_registered st name opts id hready hreg]
  refine ⟨rfl, ?_, ?_, ?_, ?_, ?_, rfl, ?_, fun _ => rfl⟩
  · cases hcur : st.currentAction with
    | none => simp [Engine.updateAction, hcur]
    | some cur =>
      cases cur with
      | action c => simp only [Engine.updateAction, hcur, Engine.tryCall]; split_ifs <;> rfl
      | inherited k => simp [Engine.updateAction, hcur, Engine.tryCall]
  · intro a ha
    cases hcur : st.currentAction with
    | none => simp [Engine.updateAction, hcur, List.getElem?_modify, ha]
    | some cur =>
      cases cur with
      | action c =>
        by_cases hc : c = id
        · subst hc
          simp [Engine.updateAction, hcur, List.getElem?_modify, ha]
        · have hne : ObjRef.action c ≠ ObjRef.action id := fun h => hc (ObjRef.action.inj h)
          simp [Engine.updateAction, hcur, Engine.tryCall, hne, List.getElem?_modify, ha, hc]
      | inherited k => simp [Engine.updateAction, hcur, Engine.tryCall, List.getElem?_modify, ha]
  · intro cur a hcur hne ha
    have hne' : ObjRef.action cur ≠ ObjRef.action id := fun h => hne (ObjRef.action.inj h)
    simp [Engine.updateAction, hcur, Engine.tryCall, hne', List.getElem?_modify, ha,
      Ne.symm hne]
  · intro i a hi hcur ha
    cases hc : st.currentAction with
    | none => simp [Engine.updateAction, hc, List.getElem?_modify, ha, Ne.symm hi]
    | some cur =>
      cases cur with
      | action c =>
        have hci : c ≠ i := fun h => hcur (by rw [hc, h])
        by_cases hcid : c = id
        · subst hcid
          simp [Engine.updateAction, hc, List.getElem?_modify, ha, Ne.symm hi]
        · have hne : ObjRef.action c ≠ ObjRef.action id := fun h => hcid (ObjRef.action.inj h)
          simp [Engine.updateAction, hc, Engine.tryCall, hne, List.getElem?_modify, ha,
            Ne.symm hi, hci]
      | inherited k =>
        simp [Engine.updateAction, hc, Engine.tryCall, List.getElem?_modify, ha, Ne.symm hi]
  · intro a loopMode fade
    exact ⟨rfl, rfl, rfl, rfl, rfl, rfl, rfl⟩
  · intro s hs
    show (if s = "once".toList then LoopOnce else LoopRepeat) = LoopRepeat
    rw [if_neg hs]

/-! ### The orientation trial (C11) -/

theorem tieTolerance_pos : 0 < tieTolerance := by
  unfold tieTolerance; norm_num

theorem selectionInv_step (m : Rotation → BoxMeasure)
    (hsep : ∀ r r', (m r).size.2.1 = (m r').size.2.1 ∨
      tieTolerance ≤ |(m r).size.2.1 - (m r').size.2.1|)
    (tried : List Rotation) (best : BestRotation) (r : Rotation)
    (h : SelectionInv m tried best) :
    SelectionInv m (tried ++ [r]) (considerRotation (fun r => some (m r)) best r) := by
  have hε := tieTolerance_pos
  simp only [considerRotation]
  rcases h with ⟨rfl, hph⟩ | ⟨hmem, hs, hc, hmax, htie⟩
  · -- the initial record is still in place
    simp only []
    split_ifs with hupd
    · right
      refine ⟨by simp, rfl, rfl, ?_, ?_⟩
      · intro r' hr'
        rcases List.mem_append.1 hr' with hr' | hr'
        · obtain ⟨h0, -⟩ := hph r' hr'
          rcases hupd with hgt | ⟨habs, -⟩
          · simp only [gt_iff_lt] at hgt; linarith
          · rcases hsep r' r with heq | hfar
            · exact le_of_eq heq
            · rw [sub_zero] at habs
              have := abs_lt.1 habs
              by_contra hlt
              rw [not_le] at hlt
              rw [abs_of_pos (by linarith)] at hfar
              linarith
        · rw [List.mem_singleton.1 hr']
      · intro r' hr' heq
        rcases List.mem_append.1 hr' with hr' | hr'
        · obtain ⟨h0, hc0⟩ := hph r' hr'
          rcases hupd with hgt | ⟨habs, hcgt⟩
          · simp only [gt_iff_lt] at hgt; simp only [] at heq; linarith
          · rw [sub_zero] at habs
            simp only [] at heq
            rw [← heq] at habs
            have := hc0 habs
            simp only [gt_iff_lt] at hcgt
            linarith
        · rw [List.mem_singleton.1 hr']
    · left
      refine ⟨rfl, ?_⟩
      intro r' hr'
      rcases List.mem_append.1 hr' with hr' | hr'
      · exact hph r' hr'
      · rw [List.mem_singleton.1 hr']
        rw [not_or, not_and] at hupd
        obtain ⟨hle, hnt⟩ := hupd
        simp only [gt_iff_lt, not_lt, sub_zero] at hle hnt
        exact ⟨hle, hnt⟩
  · -- `best` records a candidate
    right
    split_ifs with hupd
    · refine ⟨by simp, rfl, rfl, ?_, ?_⟩
      · intro r' hr'
        rcases List.mem_append.1 hr' with hr' | hr'
        · have h1 := hmax r' hr'
          rcases hupd with hgt | ⟨habs, -⟩
          · simp only [gt_iff_lt] at hgt; simp only []; linarith
          · rcases hsep r best.rot with heq | hfar
            · simp only []; rw [heq, ← hs]; exact h1
            · rw [← hs] at hfar
              exact absurd habs (not_lt.2 hfar)
        · rw [List.mem_singleton.1 hr']
      · intro r' hr' heq
        rcases List.mem_append.1 hr' with hr' | hr'
        · have h1 := hmax r' hr'
          simp only [] at heq ⊢
          rcases hupd with hgt | ⟨habs, hcgt⟩
          · simp only [gt_iff_lt] at hgt; linarith
          · rcases hsep r best.rot with heq2 | hfar
            · have := htie r' hr' (by rw [heq, heq2, hs])
              simp only [gt_iff_lt] at hcgt
              linarith
            · rw [← hs] at hfar
              exact absurd habs (not_lt.2 hfar)
        · rw [List.mem_singleton.1 hr']
    · rw [not_or, not_and] at hupd
      obtain ⟨hle, hnt⟩ := hupd
      simp only [gt_iff_lt, not_lt] at hle hnt
      refine ⟨List.mem_append_left _ hmem, hs, hc, ?_, ?_⟩
      · intro r' hr'
        rcases List.mem_append.1 hr' with hr' | hr'
        · exact hmax r' hr'
        · rw [List.mem_singleton.1 hr']; exact hle
      · intro r' hr' heq
        rcases List.mem_append.1 hr' with hr' | hr'
        · exact htie r' hr' heq
        · rw [List.mem_singleton.1 hr'] at heq ⊢
          exact hnt (by rw [heq, sub_self, abs_zero]; exact hε)

theorem selectionInv_foldl (m : Rotation → BoxMeasure)
    (hsep : ∀ r r', (m r).size.2.1 = (m r').size.2.1 ∨
      tieTolerance ≤ |(m r).size.2.1 - (m r').size.2.1|)
    (todo tried : List Rotation) (best : BestRotation) (h : SelectionInv m tried best) :
    SelectionInv m (tried ++ todo)
      (todo.foldl (considerRotation (fun r => some (m r))) best) := by
  induction todo generalizing tried best with
  | nil => simpa using h
  | cons r rs ih =>
    have := ih (tried ++ [r]) _ (selectionInv_step m hsep tried best r h)
    simpa using this

theorem mem_rotationCandidates (r : Rotation) : r ∈ rotationCandidates := by
  cases r <;> simp [rotationCandidates]

/-- C11 (as amended): for every assignment of measured vertical sizes and
centre heights to the four candidate rotations in which the largest size is
positive and any two sizes are equal or differ by at least `1e-6` (the loop
treats sizes closer than that as tied), the rotation chosen has the maximal
vertical size, and its centre is the highest among the candidates of that
size; for a fixture whose size at one angle exceeds all others, exactly that
angle is selected.  The record `best` holds the measurements of the chosen
candidate. -/
theorem selectRotation_picks_tallest (m : Rotation → BoxMeasure)
    (hsep : ∀ r r', (m r).size.2.1 = (m r').size.2.1 ∨
      tieTolerance ≤ |(m r).size.2.1 - (m r').size.2.1|)
    (hpos : ∃ r, 0 < (m r).size.2.1) :
    (∀ r, (m r).size.2.1 ≤ (m (selectRotation (fun r => some (m r))).rot).size.2.1) ∧
      (∀ r, (m r).size.2.1 = (m (selectRotation (fun r => some (m r))).rot).size.2.1 →
        (m r).center.2.1 ≤ (m (selectRotation (fun r => some (m r))).rot).center.2.1) ∧
      (∀ r₀, (∀ r, r ≠ r₀ → (m r).size.2.1 < (m r₀).size.2.1) →
        (selectRotation (fun r => some (m r))).rot = r₀) ∧
      (selectRotation (fun r => some (m r))).sizeY =
        (m (selectRotation (fun r => some (m r))).rot).size.2.1 ∧
      (selectRotation (fun r => some (m r))).centerY =
        (m (selectRotation (fun r => some (m r))).rot).center.2.1 := by
  have hinv := selectionInv_foldl m hsep rotationCandidates []
    { rot := .zero, sizeY := 0, centerY := 0 } (Or.inl ⟨rfl, fun r hr => by simp at hr⟩)
  rw [List.nil_append] at hinv
  change SelectionInv m rotationCandidates (selectRotation (fun r => some (m r))) at hinv
  obtain ⟨r₁, hr₁⟩ := hpos
  rcases hinv with ⟨-, hph⟩ | ⟨-, hs, hc, hmax, htie⟩
  · have := (hph r₁ (mem_rotationCandidates r₁)).1
    linarith
  · refine ⟨?_, ?_, ?_, hs, hc⟩
    · intro r
      rw [← hs]
      exact hmax r (mem_rotationCandidates r)
    · intro r hr
      rw [← hc]
      exact htie r (mem_rotationCandidates r) (by rw [hr, hs])
    · intro r₀ hr₀
      by_contra hne
      have h1 := hr₀ _ hne
      have h2 := hmax r₀ (mem_rotationCandidates r₀)
      rw [hs] at h2
      linarith

/-- C11 (counterexample): the vertical size is strictly largest at rotation 0
(1 against 0.9999995 and 0.5), yet the loop selects `-Math.PI / 2`: its size
is within `1e-6` of the best so far and its centre is higher, so the
tie-break replaces the taller candidate.  The rotation chosen is not a
candidate of maximal vertical size. -/
theorem selectRotation_prefers_near_tie :
    (selectRotation (fun r => some (nearTieMeasure r))).rot = .negHalfPi ∧
      (nearTieMeasure .negHalfPi).size.2.1 < (nearTieMeasure .zero).size.2.1 ∧
      (∀ r, r ≠ Rotation.zero → (nearTieMeasure r).size.2.1 < (nearTieMeasure .zero).size.2.1) := by
  refine ⟨?_, ?_, ?_⟩
  · simp only [selectRotation, rotationCandidates, List.foldl, considerRotation, nearTieMeasure,
      tieTolerance]
    norm_num [abs_lt]
  · simp only [nearTieMeasure]; norm_num
  · intro r hr
    cases r <;> simp only [nearTieMeasure] <;> first | exact absurd rfl hr | norm_num

theorem tallAtHalfPi_separated : ∀ r r', (tallAtHalfPi r).size.2.1 = (tallAtHalfPi r').size.2.1 ∨
      tieTolerance ≤ |(tallAtHalfPi r).size.2.1 - (tallAtHalfPi r').size.2.1| := by
  intro r r'
  cases r <;> cases r' <;> simp only [tallAtHalfPi, tieTolerance] <;> norm_num

/-- C11 (instance): a fixture that is tallest at 90 degrees is rotated by
`Math.PI / 2`. -/
theorem selectRotation_picks_tallest_witness :
    (selectRotation (fun r => some (tallAtHalfPi r))).rot = .halfPi :=
  (selectRotation_picks_tallest tallAtHalfPi tallAtHalfPi_separated
    ⟨.halfPi, by simp only [tallAtHalfPi]; norm_num⟩).2.2.1 .halfPi
    (fun r hr => by
      cases r <;> simp only [tallAtHalfPi] <;> first | exact absurd rfl hr | norm_num)

/-! ### Overrides and rescaling (C12) -/

theorem autoScale_frame (box : BoxMeasure) (t : ModelTransform) :
    (autoScale box t).rotationX = t.rotationX ∧ (autoScale box t).position = t.position := by
  unfold autoScale
  split_ifs <;> exact ⟨rfl, rfl⟩

/-- With an override entry that has a numeric rotation, a numeric scale and
a 3-element translation, the x-rotation and the position of the model are
the override values, and so is the scale unless the rescaling window is
left: then the scale is the clamped `1 / maxDim`. -/
theorem normalizeModel_with_overrides (doc : Option ModelOverrides) (obj : LoadedObject)
    (box : BoxMeasure) (o : Overrides) (rot scale : JsNumber) (p : ℚ × ℚ × ℚ)
    (hbox : obj.measure (selectRotation obj.measure).rot = some box)
    (ho : activeOverrides doc = some o) (hrot : o.rotX = .number rot)
    (hscale : o.scale = .number scale) (htr : o.translate = some p) :
    (normalizeModel doc obj).rotationX = .number rot ∧
      (normalizeModel doc obj).position = (.fin p.1, .fin p.2.1, .fin p.2.2) ∧
      (normalizeModel doc obj).scale =
        if 0 < box.maxDim ∧ (box.maxDim < 1 / 5 ∨ 5 < box.maxDim) then
          (.fin (max (1 / 100) (min (1 / box.maxDim) 100)),
            .fin (max (1 / 100) (min (1 / box.maxDim) 100)),
            .fin (max (1 / 100) (min (1 / box.maxDim) 100)))
        else (scale, scale, scale) := by
  obtain ⟨x, y, z⟩ := p
  simp only [normalizeModel, hbox, ho, applyOverrides, hrot, hscale, htr]
  refine ⟨(autoScale_frame _ _).1, (autoScale_frame _ _).2, ?_⟩
  unfold autoScale
  split_ifs <;> rfl

/-- C12 (the code at the failing input): for a model ten units tall and an
override entry with rotation 0.5, scale 0.5 and translation (1, 2, 3), the
x-rotation and the position after `loadBaseModel` are the override values,
but the scale is 0.1, not 0.5: the rescaling block runs after the overrides
and replaces the override scale because the largest dimension exceeds 5. -/
theorem override_scale_is_overwritten :
    (normalizeModel (some fullOverrides) bigModel).rotationX = .number (.fin (1 / 2)) ∧
      (normalizeModel (some fullOverrides) bigModel).position = (.fin 1, .fin 2, .fin 3) ∧
      (normalizeModel (some fullOverrides) bigModel).scale =
        (.fin (1 / 10), .fin (1 / 10), .fin (1 / 10)) := by
  have hsel : (selectRotation bigModel.measure).rot = .zero := by
    simp only [selectRotation, rotationCandidates, List.foldl, considerRotation, bigModel,
      tieTolerance]
    norm_num
  have hbox : bigModel.measure (selectRotation bigModel.measure).rot =
      some { size := (2, 10, 2), center := (0, 5, 0) } := rfl
  have hmax : BoxMeasure.maxDim { size := (2, 10, 2), center := (0, 5, 0) } = 10 := by
    simp only [BoxMeasure.maxDim]; norm_num
  simp only [normalizeModel, hbox, autoScale, hmax, applyOverrides, activeOverrides,
    fullOverrides, ModelTransform.setScalar]
  norm_num

/-! ### Instances for C17 and C18 -/

/-- C17 (instance): registering the clip `Smile` of a file with key `talking`
on an engine without idle action makes `talking`, the only registered entry
of the priority list, the idle action. -/
theorem registerClip_chooses_idle_witness :
    (registerClip "talking".toList baseEngine cleanClip).idleActionName =
      some "talking".toList :=
  ((registerClip_chooses_idle "talking".toList baseEngine cleanClip).1 (by decide)).1
    (["idle", "idle breathing", "breathing", "weight shift"].map String.toList)
    "talking".toList [] (by decide) (by decide) (by decide)

/-- C18 (instance): playing `Wave` on an engine where `wave` is registered
makes it the current action. -/
theorem play_crossfades_to_target_witness :
    (play gestureEngine "Wave".toList).currentAction = some (.action 0) :=
  (play_crossfades_to_target gestureEngine "Wave".toList {} 0 (by decide) (by decide)).1

/-! ### The gesture scheduler (C13, C14, C19) -/

theorem schedulerInv_of_same (st st' : Engine) (h : SchedulerInv st)
    (hs : SameScheduler st st') : SchedulerInv st' := by
  obtain ⟨h1, h2, h3, h4⟩ := hs
  unfold SchedulerInv Engine.schedulerTimers at h ⊢
  rw [h1, h2, h3, h4]
  exact h

theorem tryCall_same (st : Engine) (ref : ObjRef) (f : AnimationAction → AnimationAction) :
    SameScheduler st (st.tryCall ref f) := by
  cases ref <;> exact ⟨rfl, rfl, rfl, rfl⟩

theorem sameScheduler_trans {a b c : Engine} (h1 : SameScheduler a b) (h2 : SameScheduler b c) :
    SameScheduler a c :=
  ⟨h2.1.trans h1.1, h2.2.1.trans h1.2.1, h2.2.2.1.trans h1.2.2.1, h2.2.2.2.trans h1.2.2.2⟩

theorem play_same (st : Engine) (name : JsString) (opts : PlayOptions) :
    SameScheduler st (play st name opts) := by
  unfold play
  simp only []
  split_ifs
  · exact ⟨rfl, rfl, rfl, rfl⟩
  · split
    · exact ⟨rfl, rfl, rfl, rfl⟩
    · rename_i action _
      have h1 := tryCall_same st action (fun a =>
        { (((a.reset).setLoop (loopModeOf (opts.loop.getD (.str "repeat".toList)))).fadeIn
            (opts.fade.getD (1 / 4))).play with enabled := true })
      split
      · split_ifs
        · exact sameScheduler_trans h1 (tryCall_same _ _ _)
        · exact h1
      · exact h1

theorem registerClip_same (key : JsString) (st : Engine) (clip : AnimationClip) :
    SameScheduler st (registerClip key st clip) := by
  simp only [registerClip]
  split_ifs <;> (try split) <;> exact ⟨rfl, rfl, rfl, rfl⟩

theorem foldl_registerClip_same (key : JsString) (clips : List AnimationClip) (st : Engine) :
    SameScheduler st (clips.foldl (registerClip key) st) := by
  induction clips generalizing st with
  | nil => exact ⟨rfl, rfl, rfl, rfl⟩
  | cons c cs ih => exact sameScheduler_trans (registerClip_same key st c) (ih _)

theorem loadAnimationFile_same (loader : JsString → LoadOutcome) (st : Engine)
    (filename : JsString) : SameScheduler st (loadAnimationFile loader st filename) := by
  unfold loadAnimationFile
  simp only []
  split_ifs
  · exact ⟨rfl, rfl, rfl, rfl⟩
  · exact ⟨rfl, rfl, rfl, rfl⟩
  · split
    · exact ⟨rfl, rfl, rfl, rfl⟩
    · split_ifs
      · exact sameScheduler_trans (b := { st with loads := st.loads ++ [filename] })
          ⟨rfl, rfl, rfl, rfl⟩ (foldl_registerClip_same _ _ _)
      · exact ⟨rfl, rfl, rfl, rfl⟩

/-- Arming a scheduler timer when none is pending and the loop is running
re-establishes the invariant. -/
theorem schedulerInv_armTimer (st : Engine) (cb : Callback) (d : ℚ)
    (hcb : cb.isScheduler = true) (hnext : 0 < st.nextTimerId)
    (hids : ∀ t ∈ st.timers, 0 < t.id) (hnone : st.schedulerTimers = [])
    (hrun : st.gestureLoopRunning = true) : SchedulerInv (st.armTimer cb d) := by
  have hsched : (st.armTimer cb d).schedulerTimers =
      [{ id := st.nextTimerId, delay := d, callback := cb }] := by
    unfold Engine.schedulerTimers at hnone ⊢
    simp [Engine.armTimer, List.filter_append, hnone, hcb]
  refine ⟨?_, ?_, ?_, ?_, ?_, ?_⟩
  · simp only [Engine.armTimer]; omega
  · intro t ht
    simp only [Engine.armTimer, List.mem_append, List.mem_singleton] at ht
    rcases ht with ht | rfl
    · exact hids t ht
    · exact hnext
  · rw [hsched]; simp
  · intro t ht
    rw [hsched, List.mem_singleton] at ht
    subst ht
    rfl
  · intro h
    simp only [Engine.armTimer] at h
    rw [hrun] at h
    exact absurd h (by simp)
  · intro id hid
    simp only [Engine.armTimer, Option.some.injEq] at hid
    rw [← hid]; exact hnext

theorem schedulerInv_start (st : Engine) (random minInterval maxInterval : ℚ)
    (h : SchedulerInv st) : SchedulerInv (startGestureLoop random st minInterval maxInterval) := by
  unfold startGestureLoop
  split_ifs with hrun
  · exact h
  · obtain ⟨h1, h2, -, -, h5, -⟩ := h
    simp only [Bool.not_eq_true] at hrun
    exact schedulerInv_armTimer { st with gestureLoopRunning := true } _ _ rfl h1 h2
      (h5 hrun) rfl

theorem stopGestureLoop_of_none (st : Engine) (h : st.gestureLoopTimer = none) :
    stopGestureLoop st = { st with gestureLoopRunning := false } := by
  simp [stopGestureLoop, h]

theorem stopGestureLoop_of_some (st : Engine) (id : Nat) (h : st.gestureLoopTimer = some id)
    (hid : id ≠ 0) :
    stopGestureLoop st =
      { ({ st with gestureLoopRunning := false } : Engine).clearTimeout id with
        gestureLoopTimer := none } := by
  simp [stopGestureLoop, h, hid]

/-- After `stopGestureLoop`, in a state that satisfies the invariant, no
scheduler timer is pending, the recorded timer is null and the loop is not
running. -/
theorem stopGestureLoop_halts (st : Engine) (h : SchedulerInv st) :
    (stopGestureLoop st).schedulerTimers = [] ∧ (stopGestureLoop st).gestureLoopTimer = none ∧
      (stopGestureLoop st).gestureLoopRunning = false ∧
      (stopGestureLoop st).nextTimerId = st.nextTimerId ∧
      ∀ t ∈ (stopGestureLoop st).timers, t ∈ st.timers := by
  obtain ⟨h1, h2, h3, h4, h5, h6⟩ := h
  cases hrec : st.gestureLoopTimer with
  | none =>
    rw [stopGestureLoop_of_none st hrec]
    refine ⟨?_, hrec, rfl, rfl, fun t ht => ht⟩
    unfold Engine.schedulerTimers at h4 ⊢
    rw [List.filter_eq_nil_iff]
    intro t ht hs
    have := h4 t (List.mem_filter.2 ⟨ht, hs⟩)
    rw [hrec] at this
    exact Option.noConfusion this
  | some id =>
    have hid : id ≠ 0 := Nat.pos_iff_ne_zero.1 (h6 id hrec)
    rw [stopGestureLoop_of_some st id hrec hid]
    refine ⟨?_, rfl, rfl, rfl, ?_⟩
    · unfold Engine.schedulerTimers at h4 ⊢
      simp only [Engine.clearTimeout]
      rw [List.filter_eq_nil_iff]
      intro t ht hs
      rw [List.mem_filter] at ht
      have := h4 t (List.mem_filter.2 ⟨ht.1, hs⟩)
      rw [hrec, Option.some.injEq] at this
      have hne := ht.2
      simp [this] at hne
    · intro t ht
      simp only [Engine.clearTimeout] at ht
      exact (List.mem_filter.1 ht).1

theorem schedulerInv_stop (st : Engine) (h : SchedulerInv st) :
    SchedulerInv (stopGestureLoop st) := by
  obtain ⟨hs, hrec, hrun, hnext, hsub⟩ := stopGestureLoop_halts st h
  obtain ⟨h1, h2, -⟩ := h
  refine ⟨by rw [hnext]; exact h1, fun t ht => h2 t (hsub t ht), by rw [hs]; simp, ?_,
    fun _ => hs, ?_⟩
  · intro t ht
    rw [hs] at ht
    simp at ht
  · intro id hid
    rw [hrec] at hid
    exact Option.noConfusion hid

/-- Once the fired scheduler timer has left the pending set, no scheduler
timer is pending. -/
theorem schedulerTimers_erase (st : Engine) (t : Timer) (h : SchedulerInv st)
    (ht : t ∈ st.timers) (hs : t.callback.isScheduler = true) :
    ({ st with timers := st.timers.erase t } : Engine).schedulerTimers = [] ∧
      st.gestureLoopRunning = true := by
  obtain ⟨-, -, h3, -, h5, -⟩ := h
  have hmem : t ∈ st.schedulerTimers := List.mem_filter.2 ⟨ht, hs⟩
  constructor
  · unfold Engine.schedulerTimers at h3 hmem ⊢
    simp only []
    have hlen : ((st.timers.erase t).filter (fun t => t.callback.isScheduler)).length = 0 := by
      have hperm := List.perm_cons_erase ht
      have := (hperm.filter (fun t => t.callback.isScheduler)).length_eq
      simp only [List.filter_cons, hs, if_true, List.length_cons] at this
      omega
    exact List.length_eq_zero.1 hlen
  · by_contra hrun
    simp only [Bool.not_eq_true] at hrun
    rw [h5 hrun] at hmem
    simp at hmem

theorem schedulerInv_loopOnce (env : LoopEnv) (minInterval maxInterval : ℚ) (st : Engine)
    (hnext : 0 < st.nextTimerId) (hids : ∀ t ∈ st.timers, 0 < t.id)
    (hnone : st.schedulerTimers = [])
    (hrec : ∀ id, st.gestureLoopTimer = some id → 0 < id) :
    SchedulerInv (loopOnce env minInterval maxInterval st) := by
  unfold loopOnce
  simp only []
  split_ifs with hrun hsp hempty
  · exact ⟨hnext, hids, by rw [hnone]; simp, fun t ht => by rw [hnone] at ht; simp at ht,
      fun _ => hnone, hrec⟩
  · replace hrun : st.gestureLoopRunning = true := by simpa using hrun
    exact schedulerInv_armTimer st _ _ rfl hnext hids hnone hrun
  · replace hrun : st.gestureLoopRunning = true := by simpa using hrun
    exact schedulerInv_armTimer st _ _ rfl hnext hids hnone hrun
  · replace hrun : st.gestureLoopRunning = true := by simpa using hrun
    split
    · exact schedulerInv_armTimer st _ _ rfl hnext hids hnone hrun
    · have hsame := play_same st ((pickGesture st env.random).getD "undefined".toList)
        { fade := some (3 / 25), loop := some (.str "once".toList) }
      obtain ⟨e1, e2, e3, e4⟩ := hsame
      refine schedulerInv_armTimer _ _ _ rfl (by rw [e2]; exact hnext)
        (by rw [e1]; exact hids) ?_ (by rw [e4]; exact hrun)
      unfold Engine.schedulerTimers at hnone ⊢
      rw [e1]; exact hnone

theorem schedulerInv_fire (world : World) (t : Timer) (st : Engine) (h : SchedulerInv st)
    (ht : t ∈ st.timers) (hs : t.callback.isScheduler = true) :
    SchedulerInv (fireTimer world t st) := by
  obtain ⟨hnone, hrun⟩ := schedulerTimers_erase st t h ht hs
  obtain ⟨h1, h2, -, -, -, h6⟩ := h
  have hids : ∀ u ∈ ({ st with timers := st.timers.erase t } : Engine).timers, 0 < u.id :=
    fun u hu => h2 u (List.mem_of_mem_erase hu)
  unfold fireTimer
  simp only []
  cases hcb : t.callback with
  | loopOnce a b => exact schedulerInv_loopOnce _ _ _ _ h1 hids hnone h6
  | rearm a b => exact schedulerInv_armTimer _ _ _ rfl h1 hids hnone hrun
  | prefetch => rw [hcb] at hs; exact absurd hs (by decide)
  | loadFile f => rw [hcb] at hs; exact absurd hs (by simp [Callback.isScheduler])

theorem schedulerInv_step (allowStart : Bool) (st st' : Engine) (h : SchedulerInv st)
    (hstep : SchedulerStep allowStart st st') : SchedulerInv st' := by
  cases hstep with
  | start random a b _ => exact schedulerInv_start st random a b h
  | stop => exact schedulerInv_stop st h
  | fire world t ht hs => exact schedulerInv_fire world t st h ht hs
  | play name opts => exact schedulerInv_of_same st _ h (play_same st name opts)
  | load loader f => exact schedulerInv_of_same st _ h (loadAnimationFile_same loader st f)

theorem schedulerInv_of_idle (st : Engine) (h : SchedulerIdle st) : SchedulerInv st := by
  obtain ⟨h1, h2, -, h4⟩ := h
  unfold SchedulerInv Engine.schedulerTimers
  rw [h1, h2]
  exact ⟨h4, by simp, by simp, by simp, fun _ => rfl, by simp⟩

theorem schedulerInv_of_reachable (st₀ st : Engine) (h₀ : SchedulerInv st₀)
    (h : SchedulerReachable st₀ st) : SchedulerInv st := by
  induction h with
  | refl => exact h₀
  | tail _ hstep ih => exact schedulerInv_step true _ _ ih hstep

/-- Without a call of `startGestureLoop`, a halted scheduler stays halted. -/
theorem halted_of_reachableWithoutStart (st₀ st : Engine) (h₀ : SchedulerInv st₀)
    (hrun : st₀.gestureLoopRunning = false) (h : ReachableWithoutStart st₀ st) :
    SchedulerInv st ∧ st.gestureLoopRunning = false := by
  induction h with
  | refl => exact ⟨h₀, hrun⟩
  | tail _ hstep ih =>
    obtain ⟨hinv, hr⟩ := ih
    refine ⟨schedulerInv_step false _ _ hinv hstep, ?_⟩
    cases hstep with
    | start random a b hallow => exact absurd hallow (by decide)
    | stop => exact (stopGestureLoop_halts _ hinv).2.2.1
    | fire world t ht hs =>
      have := hinv.2.2.2.2.1 hr
      have hmem : t ∈ Engine.schedulerTimers _ := List.mem_filter.2 ⟨ht, hs⟩
      rw [this] at hmem
      simp at hmem
    | play name opts => rw [(play_same _ name opts).2.2.2]; exact hr
    | load loader f => rw [(loadAnimationFile_same loader _ f).2.2.2]; exact hr

theorem loopOnce_of_not_running (env : LoopEnv) (minInterval maxInterval : ℚ) (st : Engine)
    (h : st.gestureLoopRunning = false) : loopOnce env minInterval maxInterval st = st := by
  simp [loopOnce, h]

/-- The initial engine has no timeout pending and its loop is not running. -/
theorem schedulerIdle_initialEngine : SchedulerIdle initialEngine :=
  ⟨rfl, rfl, rfl, by decide⟩

/-- C13: in every state reachable from an engine with no timeout pending
(such as the initial engine) by calls of `startGestureLoop` and
`stopGestureLoop`, firings of pending scheduler timers and interleaved calls
of `play` and `loadAnimationFile`, at most one scheduler timer is pending and
every pending scheduler timer is the one recorded in `_gestureLoopTimer`;
`startGestureLoop` called while the loop is running returns the state
unchanged. -/
theorem scheduler_has_at_most_one_timer (st₀ st : Engine) (h₀ : SchedulerIdle st₀)
    (h : SchedulerReachable st₀ st) :
    st.schedulerTimers.length ≤ 1 ∧
      (∀ t ∈ st.timers, t.callback.isScheduler = true → st.gestureLoopTimer = some t.id) ∧
      (∀ random minInterval maxInterval : ℚ, st.gestureLoopRunning = true →
        startGestureLoop random st minInterval maxInterval = st) := by
  obtain ⟨-, -, h3, h4, -⟩ := schedulerInv_of_reachable st₀ st (schedulerInv_of_idle st₀ h₀) h
  refine ⟨h3, fun t ht hs => h4 t (List.mem_filter.2 ⟨ht, hs⟩), ?_⟩
  intro random minInterval maxInterval hrun
  simp [startGestureLoop, hrun]

/-- C13 (instance): after a start and a stop at most one scheduler timer is
pending. -/
theorem scheduler_has_at_most_one_timer_witness :
    (stopGestureLoop (startGestureLoop (1 / 2) gestureEngineStopped)).schedulerTimers.length ≤ 1 :=
  (scheduler_has_at_most_one_timer gestureEngineStopped _ ⟨rfl, rfl, rfl, by decide⟩
    ((Relation.ReflTransGen.single
      (SchedulerStep.start gestureEngineStopped (1 / 2) 2500 6000 rfl)).tail
      (SchedulerStep.stop _))).1

/-- C14: when `loopOnce` runs while the loop is running, the speech toggle is
checked and speech synthesis is speaking, it changes no action and no
current-action pointer and arms exactly one timer, for `loopOnce` itself,
with the delay 1000 ms; and whenever a run of `loopOnce` does change an
action or the current-action pointer, that run saw the toggle off or speech
inactive. -/
theorem loopOnce_defers_while_speaking (env : LoopEnv) (minInterval maxInterval : ℚ)
    (st : Engine) (hrun : st.gestureLoopRunning = true)
    (htoggle : env.speakToggleChecked = true) (hspeaking : env.speaking = true) :
    loopOnce env minInterval maxInterval st =
        st.armTimer (.loopOnce minInterval maxInterval) 1000 ∧
      (loopOnce env minInterval maxInterval st).heap = st.heap ∧
      (loopOnce env minInterval maxInterval st).currentAction = st.currentAction ∧
      (loopOnce env minInterval maxInterval st).timers =
        st.timers ++ [⟨st.nextTimerId, 1000, .loopOnce minInterval maxInterval⟩] ∧
      (loopOnce env minInterval maxInterval st).gestureLoopTimer = some st.nextTimerId ∧
      (∀ (env' : LoopEnv) (st' : Engine),
        ((loopOnce env' minInterval maxInterval st').heap ≠ st'.heap ∨
          (loopOnce env' minInterval maxInterval st').currentAction ≠ st'.currentAction) →
        (env'.speakToggleChecked && env'.speaking) = false) := by
  have hloop : loopOnce env minInterval maxInterval st =
      st.armTimer (.loopOnce minInterval maxInterval) 1000 := by
    simp [loopOnce, hrun, htoggle, hspeaking]
  refine ⟨hloop, by rw [hloop]; rfl, by rw [hloop]; rfl, by rw [hloop]; rfl,
    by rw [hloop]; rfl, ?_⟩
  intro env' st' hchange
  by_contra hsp
  simp only [Bool.not_eq_false] at hsp
  have : (loopOnce env' minInterval maxInterval st').heap = st'.heap ∧
      (loopOnce env' minInterval maxInterval st').currentAction = st'.currentAction := by
    simp only [loopOnce, hsp]
    split_ifs <;> exact ⟨rfl, rfl⟩
  rcases hchange with hc | hc
  · exact hc this.1
  · exact hc this.2

/-- C14 (instance): with speech active, `loopOnce` on the fixture engine plays
nothing and arms the 1000 ms poll. -/
theorem loopOnce_defers_while_speaking_witness :
    (loopOnce ⟨true, true, 1 / 2⟩ 2500 6000 gestureEngine).currentAction = none ∧
      (loopOnce ⟨true, true, 1 / 2⟩ 2500 6000 gestureEngine).timers =
        [⟨1, 1000, .loopOnce 2500 6000⟩] :=
  ⟨(loopOnce_defers_while_speaking ⟨true, true, 1 / 2⟩ 2500 6000 gestureEngine rfl rfl rfl).2.2.1,
    (loopOnce_defers_while_speaking ⟨true, true, 1 / 2⟩ 2500 6000 gestureEngine
      rfl rfl rfl).2.2.2.1⟩

/-- C19: from every reachable scheduler state, `stopGestureLoop` leaves
`_gestureLoopRunning` false and `_gestureLoopTimer` null with no scheduler
timer pending, and touches no action; `loopOnce` would then return at once,
and as long as `startGestureLoop` is not called the loop stays halted with no
scheduler timer pending. -/
theorem stopGestureLoop_halts_scheduler (st₀ st : Engine) (h₀ : SchedulerIdle st₀)
    (h : SchedulerReachable st₀ st) :
    (stopGestureLoop st).gestureLoopRunning = false ∧
      (stopGestureLoop st).gestureLoopTimer = none ∧
      (stopGestureLoop st).schedulerTimers = [] ∧
      (stopGestureLoop st).heap = st.heap ∧
      (stopGestureLoop st).currentAction = st.currentAction ∧
      (∀ (env : LoopEnv) (minInterval maxInterval : ℚ),
        loopOnce env minInterval maxInterval (stopGestureLoop st) = stopGestureLoop st) ∧
      (∀ st', ReachableWithoutStart (stopGestureLoop st) st' →
        st'.gestureLoopRunning = false ∧ st'.schedulerTimers = []) := by
  have hinv := schedulerInv_of_reachable st₀ st (schedulerInv_of_idle st₀ h₀) h
  obtain ⟨hs, hrec, hrun, -, -⟩ := stopGestureLoop_halts st hinv
  refine ⟨hrun, hrec, hs, ?_, ?_, fun env a b => loopOnce_of_not_running env a b _ hrun, ?_⟩
  · unfold stopGestureLoop
    simp only []
    split
    · split_ifs <;> rfl
    · rfl
  · unfold stopGestureLoop
    simp only []
    split
    · split_ifs <;> rfl
    · rfl
  · intro st' hreach
    obtain ⟨hinv', hrun'⟩ := halted_of_reachableWithoutStart _ st' (schedulerInv_stop st hinv)
      hrun hreach
    exact ⟨hrun', hinv'.2.2.2.2.1 hrun'⟩

/-- C19 (instance): stopping a loop that was just started clears its timer. -/
theorem stopGestureLoop_halts_scheduler_witness :
    (stopGestureLoop (startGestureLoop (1 / 2) gestureEngineStopped)).gestureLoopTimer = none ∧
      (stopGestureLoop (startGestureLoop (1 / 2) gestureEngineStopped)).schedulerTimers = [] :=
  ⟨(stopGestureLoop_halts_scheduler gestureEngineStopped _ ⟨rfl, rfl, rfl, by decide⟩
      (Relation.ReflTransGen.single
        (SchedulerStep.start gestureEngineStopped (1 / 2) 2500 6000 rfl))).2.1,
    (stopGestureLoop_halts_scheduler gestureEngineStopped _ ⟨rfl, rfl, rfl, by decide⟩
      (Relation.ReflTransGen.single
        (SchedulerStep.start gestureEngineStopped (1 / 2) 2500 6000 rfl))).2.2.1⟩

/-! ### init (C20) -/

/-- C20: when the Three.js modules load and the load of the base model is
rejected with an error, `init` is rejected with that same error; the ready
flag, the asset loads issued, the actions, the registry, the pending timers
and the gesture-loop fields are as before the call, so on the initial engine
`ready` stays false, no animation file is loaded and no timer is armed. -/
theorem init_fails_with_base_model (env : InitEnv) (st : Engine) (err : JsError)
    (hthree : env.threeError = none) (hbase : env.baseModel = .failed err) :
    (init env st).2 = some err ∧
      (init env st).1.ready = st.ready ∧
      (init env st).1.loads = st.loads ∧
      (init env st).1.heap = st.heap ∧
      (init env st).1.actions = st.actions ∧
      (init env st).1.timers = st.timers ∧
      (init env st).1.gestureLoopRunning = st.gestureLoopRunning ∧
      (init env st).1.gestureLoopTimer = st.gestureLoopTimer ∧
      (init env initialEngine).1.ready = false ∧
      (init env initialEngine).1.timers = [] := by
  have h : ∀ s : Engine, init env s =
      ({ s with cameraPosition := some { x := .fin 0, y := .fin (8 / 5), z := .fin (13 / 5) } },
        some err) := by
    intro s
    simp [init, hthree, hbase, loadBaseModel]
  rw [h st, h initialEngine]
  exact ⟨rfl, rfl, rfl, rfl, rfl, rfl, rfl, rfl, rfl, rfl⟩

/-- C20 (instance): a network error on `model.fbx` is what `init` fails
with. -/
theorem init_fails_with_base_model_witness :
    (init failingInitEnv initialEngine).2 = some "NetworkError".toList ∧
      (init failingInitEnv initialEngine).1.ready = false ∧
      (init failingInitEnv initialEngine).1.timers = [] :=
  ⟨(init_fails_with_base_model failingInitEnv initialEngine "NetworkError".toList rfl rfl).1,
    (init_fails_with_base_model failingInitEnv initialEngine "NetworkError".toList
      rfl rfl).2.2.2.2.2.2.2.2.1,
    (init_fails_with_base_model failingInitEnv initialEngine "NetworkError".toList
      rfl rfl).2.2.2.2.2.2.2.2.2⟩

theorem startGestureLoop_running (random : ℚ) (st : Engine) (a b : ℚ) :
    (startGestureLoop random st a b).gestureLoopRunning = true ∧
      (startGestureLoop random st a b).ready = st.ready := by
  unfold startGestureLoop
  split_ifs with h
  · exact ⟨h, rfl⟩
  · exact ⟨rfl, rfl⟩

/-- When the base model loads, `init` ends with the engine ready and the
gesture loop running. -/
theorem init_success (env : InitEnv) (st : Engine) (obj : LoadedObject)
    (hthree : env.threeError = none) (hbase : env.baseModel = .loaded obj) :
    (init env st).2 = none ∧ (init env st).1.ready = true ∧
      (init env st).1.gestureLoopRunning = true := by
  have h : ∃ s : Engine, s.ready = true ∧ init env st = (startGestureLoop env.random s, none) := by
    unfold init
    simp only [hthree, hbase, loadBaseModel]
    exact ⟨_, rfl, rfl⟩
  obtain ⟨s, hs, hinit⟩ := h
  rw [hinit]
  exact ⟨rfl, by rw [(startGestureLoop_running _ _ _ _).2]; exact hs,
    (startGestureLoop_running _ _ _ _).1⟩

/-! ### The empty text (C21) -/

/-- C21: for every rule table (and whatever the patterns compile to),
`gestureForText` on an empty or missing text returns `Talking`; the table is
not consulted: the result is `Talking` even when the rule loop, had it run on
the empty text, would have returned the gesture of a matching rule. -/
theorem gestureForText_empty_text (regExp : RegExpCtor) (gestureMap : GestureMap) :
    gestureForText regExp gestureMap [] = "Talking".toList ∧
      gestureForTextArg regExp gestureMap (some []) = "Talking".toList ∧
      gestureForTextArg regExp gestureMap none = "Talking".toList ∧
      ((∃ rule ∈ gestureMap, ∃ test, regExp rule.1 = some test ∧ test [] = true) →
        ∃ gesture, firstMatchingRule regExp gestureMap [] = some gesture ∧
          gestureForText regExp gestureMap [] = "Talking".toList) := by
  refine ⟨rfl, rfl, rfl, fun h => ?_⟩
  obtain ⟨_, _, g, _, _, _, _, _, _, hres⟩ := firstMatchingRule_first regExp gestureMap [] h
  exact ⟨g, hres, rfl⟩

/-- C21 (instance): the empty pattern matches the empty text, and a non-empty
text gets that rule's gesture `wave`, yet the empty and the missing text get
`Talking`. -/
theorem gestureForText_empty_text_witness :
    (∃ gesture, firstMatchingRule literalRegExp emptyPatternMap [] = some gesture ∧
      gestureForText literalRegExp emptyPatternMap [] = "Talking".toList) ∧
      firstMatchingRule literalRegExp emptyPatternMap [] = some "wave".toList ∧
      gestureForText literalRegExp emptyPatternMap "hi".toList = "wave".toList ∧
      gestureForTextArg literalRegExp emptyPatternMap none = "Talking".toList :=
  ⟨(gestureForText_empty_text literalRegExp emptyPatternMap).2.2.2
      ⟨([], "wave".toList), by decide, _, rfl, by decide⟩,
    by decide, by decide,
    (gestureForText_empty_text literalRegExp emptyPatternMap).2.2.1⟩

/-! ### Registered keys are normalized (C22) -/

theorem lowerChar_of_lowerAlnum_or_space (c : Char) (h : isLowerAlnum c = true ∨ c = ' ') :
    lowerChar c = c := by
  unfold lowerChar
  rw [if_neg]
  rintro ⟨h1, h2⟩
  rcases h with h | rfl
  · simp only [isLowerAlnum, Bool.or_eq_true, Bool.and_eq_true, decide_eq_true_eq] at h
    omega
  · revert h1
    decide

theorem replaceRuns_eq_self (b : Bool) (l : JsString)
    (hchars : ∀ c ∈ l, isLowerAlnum c = true ∨ c = ' ') (hnd : NoDoubleSpace l)
    (hhead : b = true → l.head? ≠ some ' ') : replaceRuns b l = l := by
  induction l generalizing b with
  | nil => rfl
  | cons c cs ih =>
    have hcs : ∀ d ∈ cs, isLowerAlnum d = true ∨ d = ' ' :=
      fun d hd => hchars d (List.mem_cons_of_mem _ hd)
    unfold NoDoubleSpace at hnd
    rw [List.chain'_cons'] at hnd
    by_cases hc : isLowerAlnum c = true
    · simp only [replaceRuns, hc, if_true]
      rw [ih false hcs hnd.2 (fun h => absurd h (by decide))]
    · have hsp : c = ' ' := (hchars c (List.mem_cons_self _ _)).resolve_left hc
      have hb : b = false := by
        cases b with
        | false => rfl
        | true => exact absurd (by rw [hsp]; rfl) (hhead rfl)
      subst hb
      simp only [replaceRuns, hc, Bool.false_eq_true, if_false]
      rw [ih true hcs hnd.2 (fun _ hh => hnd.1 ' ' hh ⟨hsp, rfl⟩), hsp]

theorem normalizeKey_idem (s : JsString) : normalizeKey (normalizeKey s) = normalizeKey s := by
  have hinf : normalizeKey s <:+: replaceRuns false (toLowerCase s) := trim_isInfix_self _
  have hchars : ∀ c ∈ normalizeKey s, isLowerAlnum c = true ∨ c = ' ' :=
    fun c hc => mem_replaceRuns false _ c (hinf.subset hc)
  have hnd : NoDoubleSpace (normalizeKey s) :=
    List.Chain'.infix (noDoubleSpace_replaceRuns false _).1 hinf
  obtain ⟨pre, post, -, -, -, hhead, hlast⟩ := isTrimOf_trim (replaceRuns false (toLowerCase s))
  have hlow : toLowerCase (normalizeKey s) = normalizeKey s := by
    unfold toLowerCase
    conv_rhs => rw [← List.map_id (normalizeKey s)]
    exact List.map_congr_left (fun c hc => lowerChar_of_lowerAlnum_or_space c (hchars c hc))
  have hruns : replaceRuns false (normalizeKey s) = normalizeKey s :=
    replaceRuns_eq_self false _ hchars hnd (fun h => absurd h (by decide))
  have htrim : trim (normalizeKey s) = normalizeKey s :=
    (eq_trim_of_isTrimOf (normalizeKey s) (normalizeKey s)
      ⟨[], [], by simp, by simp, by simp, hhead, hlast⟩).symm
  calc normalizeKey (normalizeKey s)
      = trim (replaceRuns false (toLowerCase (normalizeKey s))) := rfl
    _ = normalizeKey s := by rw [hlow, hruns, htrim]

theorem registrationName_normalized (key : JsString) (clip : AnimationClip)
    (hkey : normalizeKey key = key) :
    normalizeKey (registrationName key clip) = registrationName key clip := by
  unfold registrationName
  simp only []
  split_ifs
  · exact normalizeKey_idem _
  · exact hkey
  · exact normalizeKey_idem _
  · exact hkey

theorem mem_registry_set (reg : Registry) (key : JsString) (id : Nat) (e : JsString × Nat)
    (h : e ∈ reg.set key id) : e ∈ reg ∨ e = (key, id) := by
  induction reg with
  | nil =>
    simp only [Registry.set, List.mem_singleton] at h
    exact Or.inr h
  | cons p rest ih =>
    obtain ⟨k, v⟩ := p
    simp only [Registry.set] at h
    split_ifs at h with hk
    · rcases List.mem_cons.1 h with h | h
      · right; rw [h, hk]
      · left; exact List.mem_cons_of_mem _ h
    · rcases List.mem_cons.1 h with h | h
      · left; rw [h]; exact List.mem_cons_self _ _
      · rcases ih h with h | h
        · left; exact List.mem_cons_of_mem _ h
        · right; exact h

theorem registerClip_mem (key : JsString) (hkey : normalizeKey key = key) (st : Engine)
    (clip : AnimationClip) (e : JsString × Nat) (he : e ∈ (registerClip key st clip).actions) :
    e ∈ st.actions ∨ (normalizeKey e.1 = e.1 ∧ e.2 = st.heap.length) := by
  rw [registerClip_actions] at he
  have hmem : e ∈ st.actions ∨ e = (registrationName key clip, st.heap.length) ∨
      e = (key, st.heap.length) := by
    unfold registryAfter at he
    simp only [] at he
    split_ifs at he
    · rcases mem_registry_set _ _ _ _ he with h1 | h1
      · rcases mem_registry_set _ _ _ _ h1 with h2 | h2
        · exact Or.inl h2
        · exact Or.inr (Or.inl h2)
      · exact Or.inr (Or.inr h1)
    · rcases mem_registry_set _ _ _ _ he with h2 | h2
      · exact Or.inl h2
      · exact Or.inr (Or.inl h2)
  rcases hmem with h1 | h1 | h1
  · exact Or.inl h1
  · subst h1; exact Or.inr ⟨registrationName_normalized key clip hkey, rfl⟩
  · subst h1; exact Or.inr ⟨hkey, rfl⟩

theorem registerClip_flags (key : JsString) (st : Engine) (clip : AnimationClip) :
    (registerClip key st clip).mixer = st.mixer ∧ (registerClip key st clip).ready = st.ready := by
  simp only [registerClip]
  split_ifs <;> (try split) <;> exact ⟨rfl, rfl⟩

theorem foldl_registerClip_grows (key : JsString) (hkey : normalizeKey key = key)
    (clips : List AnimationClip) (st : Engine) :
    RegistryGrows st (clips.foldl (registerClip key) st) ∧
      (clips.foldl (registerClip key) st).mixer = st.mixer ∧
      (clips.foldl (registerClip key) st).ready = st.ready := by
  induction clips generalizing st with
  | nil => exact ⟨⟨Nat.le_refl _, fun e he => Or.inl he⟩, rfl, rfl⟩
  | cons c cs ih =>
    rw [List.foldl_cons]
    obtain ⟨⟨hlen, hmem⟩, hm, hr⟩ := ih (registerClip key st c)
    have hlen1 : (registerClip key st c).heap.length = st.heap.length + 1 := by
      rw [registerClip_heap]; simp
    refine ⟨⟨by omega, fun e he => ?_⟩, by rw [hm, (registerClip_flags key st c).1],
      by rw [hr, (registerClip_flags key st c).2]⟩
    rcases hmem e he with h1 | h1
    · rcases registerClip_mem key hkey st c e h1 with h2 | ⟨h2, h3⟩
      · exact Or.inl h2
      · exact Or.inr ⟨h2, by omega⟩
    · exact Or.inr h1

theorem registryGrows_refl (st : Engine) : RegistryGrows st st :=
  ⟨Nat.le_refl _, fun _ he => Or.inl he⟩

theorem registryGrows_trans {a b c : Engine} (h1 : RegistryGrows a b) (h2 : RegistryGrows b c) :
    RegistryGrows a c := by
  refine ⟨Nat.le_trans h1.1 h2.1, fun e he => ?_⟩
  rcases h2.2 e he with h | h
  · rcases h1.2 e h with h' | ⟨h', h''⟩
    · exact Or.inl h'
    · exact Or.inr ⟨h', Nat.lt_of_lt_of_le h'' h2.1⟩
  · exact Or.inr h

theorem registryGrows_of_same {st st' : Engine} (h : SameRegistry st st') :
    RegistryGrows st st' :=
  ⟨Nat.le_of_eq h.2.1.symm, fun e he => Or.inl (by rw [← h.1]; exact he)⟩

theorem readyKept_of_same {st st' : Engine} (h : SameRegistry st st') : ReadyKept st st' :=
  Or.inr ⟨h.2.2.2, h.2.2.1, Or.inl h.1⟩

theorem sameRegistry_trans {a b c : Engine} (h1 : SameRegistry a b) (h2 : SameRegistry b c) :
    SameRegistry a c :=
  ⟨h2.1.trans h1.1, h2.2.1.trans h1.2.1, h2.2.2.1.trans h1.2.2.1, h2.2.2.2.trans h1.2.2.2⟩

theorem loadAnimationFile_grows (loader : JsString → LoadOutcome) (st : Engine)
    (filename : JsString) :
    RegistryGrows st (loadAnimationFile loader st filename) ∧
      ReadyKept st (loadAnimationFile loader st filename) := by
  unfold loadAnimationFile
  simp only []
  split_ifs with h1 h2
  · exact ⟨registryGrows_refl _, Or.inr ⟨rfl, rfl, Or.inl rfl⟩⟩
  · exact ⟨registryGrows_refl _, Or.inr ⟨rfl, rfl, Or.inl rfl⟩⟩
  · split
    · exact ⟨⟨Nat.le_refl _, fun _ he => Or.inl he⟩, Or.inr ⟨rfl, rfl, Or.inl rfl⟩⟩
    · split_ifs with h3
      · obtain ⟨hg, hm, hr⟩ := foldl_registerClip_grows (fileKey filename)
          (normalizeKey_idem _) _ ({ st with loads := st.loads ++ [filename] })
        simp only [Bool.and_eq_true] at h3
        exact ⟨hg, Or.inr ⟨hr, hm, Or.inr h3.2⟩⟩
      · exact ⟨⟨Nat.le_refl _, fun _ he => Or.inl he⟩, Or.inr ⟨rfl, rfl, Or.inl rfl⟩⟩

theorem tryCall_sameRegistry (st : Engine) (ref : ObjRef) (f : AnimationAction → AnimationAction) :
    SameRegistry st (st.tryCall ref f) := by
  cases ref with
  | action id => exact ⟨rfl, by simp [Engine.tryCall, Engine.updateAction], rfl, rfl⟩
  | inherited k => exact ⟨rfl, rfl, rfl, rfl⟩

theorem play_sameRegistry (st : Engine) (name : JsString) (opts : PlayOptions) :
    SameRegistry st (play st name opts) := by
  unfold play
  simp only []
  split_ifs
  · exact ⟨rfl, rfl, rfl, rfl⟩
  · split
    · exact ⟨rfl, rfl, rfl, rfl⟩
    · rename_i action _
      have h1 := tryCall_sameRegistry st action (fun a =>
        { (((a.reset).setLoop (loopModeOf (opts.loop.getD (.str "repeat".toList)))).fadeIn
            (opts.fade.getD (1 / 4))).play with enabled := true })
      split
      · split_ifs
        · exact sameRegistry_trans h1 (tryCall_sameRegistry _ _ _)
        · exact h1
      · exact h1

theorem startGestureLoop_sameRegistry (random : ℚ) (st : Engine) (a b : ℚ) :
    SameRegistry st (startGestureLoop random st a b) := by
  unfold startGestureLoop
  split_ifs <;> exact ⟨rfl, rfl, rfl, rfl⟩

theorem stopGestureLoop_sameRegistry (st : Engine) : SameRegistry st (stopGestureLoop st) := by
  unfold stopGestureLoop
  simp only []
  split
  · split_ifs <;> exact ⟨rfl, rfl, rfl, rfl⟩
  · exact ⟨rfl, rfl, rfl, rfl⟩

theorem prefetchAnimations_sameRegistry (animFiles : List JsString) (st : Engine) :
    SameRegistry st (prefetchAnimations animFiles st) := by
  unfold prefetchAnimations
  simp only []
  generalize animFiles.filter (fun f => (st.actions.get (fileKey f)).isNone) = remaining
  have key : ∀ (l : List JsString) (acc : Engine × ℚ),
      SameRegistry acc.1 (l.foldl (fun (acc : Engine × ℚ) f =>
        (acc.1.setTimeout (.loadFile f) acc.2, acc.2 + 250)) acc).1 := by
    intro l
    induction l with
    | nil => intro acc; exact ⟨rfl, rfl, rfl, rfl⟩
    | cons f fs ih =>
      intro acc
      rw [List.foldl_cons]
      exact sameRegistry_trans (b := acc.1.setTimeout (.loadFile f) acc.2) ⟨rfl, rfl, rfl, rfl⟩
        (ih _)
  exact key remaining (st, 0)

theorem loopOnce_sameRegistry (env : LoopEnv) (a b : ℚ) (st : Engine) :
    SameRegistry st (loopOnce env a b st) := by
  unfold loopOnce
  simp only []
  split_ifs
  · exact ⟨rfl, rfl, rfl, rfl⟩
  · exact ⟨rfl, rfl, rfl, rfl⟩
  · exact ⟨rfl, rfl, rfl, rfl⟩
  · split
    · exact ⟨rfl, rfl, rfl, rfl⟩
    · exact sameRegistry_trans (play_sameRegistry st _ _) ⟨rfl, rfl, rfl, rfl⟩

theorem fireTimer_grows (world : World) (t : Timer) (st : Engine) :
    RegistryGrows st (fireTimer world t st) ∧ ReadyKept st (fireTimer world t st) := by
  have h0 : SameRegistry st { st with timers := st.timers.erase t } := ⟨rfl, rfl, rfl, rfl⟩
  unfold fireTimer
  simp only []
  cases t.callback with
  | loopOnce a b =>
    have := sameRegistry_trans h0 (loopOnce_sameRegistry world.loop a b _)
    exact ⟨registryGrows_of_same this, readyKept_of_same this⟩
  | rearm a b =>
    have : SameRegistry st
        (({ st with timers := st.timers.erase t } : Engine).armTimer (.loopOnce a b) 80) :=
      ⟨rfl, rfl, rfl, rfl⟩
    exact ⟨registryGrows_of_same this, readyKept_of_same this⟩
  | prefetch =>
    have := sameRegistry_trans h0 (prefetchAnimations_sameRegistry world.animFiles _)
    exact ⟨registryGrows_of_same this, readyKept_of_same this⟩
  | loadFile f =>
    exact loadAnimationFile_grows world.loader { st with timers := st.timers.erase t } f

theorem init_grows (env : InitEnv) (st : Engine) :
    RegistryGrows st (init env st).1 ∧ ReadyKept st (init env st).1 := by
  cases h3 : env.threeError with
  | some err =>
    have h : (init env st).1 = st := by simp [init, h3]
    rw [h]
    exact ⟨registryGrows_refl _, Or.inr ⟨rfl, rfl, Or.inl rfl⟩⟩
  | none =>
    cases hb : env.baseModel with
    | failed err =>
      have h : (init env st).1 = { st with
          cameraPosition := some { x := .fin 0, y := .fin (8 / 5), z := .fin (13 / 5) } } := by
        simp [init, h3, hb, loadBaseModel]
      rw [h]
      exact ⟨⟨Nat.le_refl _, fun _ he => Or.inl he⟩, Or.inr ⟨rfl, rfl, Or.inl rfl⟩⟩
    | loaded obj =>
      have hready : ∀ Y : Engine, RegistryGrows Y { Y with ready := true } :=
        fun Y => ⟨Nat.le_refl _, fun _ he => Or.inl he⟩
      have htimer : ∀ (Y : Engine) (cb : Callback) (d : ℚ), RegistryGrows Y (Y.setTimeout cb d) :=
        fun Y _ _ => ⟨Nat.le_refl _, fun _ he => Or.inl he⟩
      unfold init
      simp only [h3, hb, loadBaseModel]
      refine ⟨?_, Or.inl ?_⟩
      · refine registryGrows_trans ?_
          (registryGrows_of_same (startGestureLoop_sameRegistry _ _ _ _))
        refine registryGrows_trans ?_ (hready _)
        refine registryGrows_trans ?_ (htimer _ _ _)
        have hite : ∀ (c : Prop) [Decidable c] (P Q : Engine),
            RegistryGrows st P → RegistryGrows st Q → RegistryGrows st (if c then P else Q) := by
          intro c _ P Q hP hQ
          split_ifs
          · exact hP
          · exact hQ
        refine hite _ _ _ ?_ ?_
        · refine registryGrows_trans ?_ (registryGrows_of_same (play_sameRegistry _ _ _))
          refine registryGrows_trans ?_ (loadAnimationFile_grows _ _ _).1
          split <;> exact ⟨Nat.le_refl _, fun _ he => Or.inl he⟩
        · refine registryGrows_trans ?_ (loadAnimationFile_grows _ _ _).1
          split <;> exact ⟨Nat.le_refl _, fun _ he => Or.inl he⟩
      · rw [(startGestureLoop_sameRegistry _ _ _ _).2.2.2]

theorem registryInv_of_grows {st st' : Engine} (h : RegistryInv st) (hg : RegistryGrows st st') :
    RegistryInv st' := by
  intro e he
  rcases hg.2 e he with h1 | h1
  · exact ⟨(h e h1).1, Nat.lt_of_lt_of_le (h e h1).2 hg.1⟩
  · exact h1

theorem readyInv_of_kept {st st' : Engine} (h : ReadyInv st) (hk : ReadyKept st st') :
    ReadyInv st' := by
  intro hx
  rcases hk with hr | ⟨hr, hm, ha⟩
  · exact hr
  · rw [hr]
    rcases hx with hx | hx
    · exact h (Or.inl (by rw [← hm]; exact hx))
    · rcases ha with ha | ha
      · exact h (Or.inr (by rw [← ha]; exact hx))
      · exact h (Or.inl ha)

theorem engineStep_grows {st st' : Engine} (hstep : EngineStep st st') :
    RegistryGrows st st' ∧ ReadyKept st st' := by
  cases hstep with
  | init env => exact init_grows env st
  | load loader f => exact loadAnimationFile_grows loader st f
  | play name opts =>
    exact ⟨registryGrows_of_same (play_sameRegistry st name opts),
      readyKept_of_same (play_sameRegistry st name opts)⟩
  | start random a b =>
    exact ⟨registryGrows_of_same (startGestureLoop_sameRegistry random st a b),
      readyKept_of_same (startGestureLoop_sameRegistry random st a b)⟩
  | stop =>
    exact ⟨registryGrows_of_same (stopGestureLoop_sameRegistry st),
      readyKept_of_same (stopGestureLoop_sameRegistry st)⟩
  | fire world t _ => exact fireTimer_grows world t st

theorem invariants_of_reachable (st₀ st : Engine) (h : EngineReachable st₀ st) :
    (RegistryInv st₀ → RegistryInv st) ∧ (ReadyInv st₀ → ReadyInv st) := by
  induction h with
  | refl => exact ⟨id, id⟩
  | tail _ hstep ih =>
    obtain ⟨hg, hk⟩ := engineStep_grows hstep
    exact ⟨fun h0 => registryInv_of_grows (ih.1 h0) hg, fun h0 => readyInv_of_kept (ih.2 h0) hk⟩

theorem registryInv_of_empty (st : Engine) (h : st.actions = []) : RegistryInv st := by
  intro e he
  rw [h] at he
  simp at he

theorem lookup_of_get_action (reg : Registry) (k : JsString) (id : Nat)
    (h : reg.get k = some (.action id)) : List.lookup k reg = some id := by
  unfold Registry.get at h
  cases hl : List.lookup k reg with
  | none =>
    rw [hl] at h
    simp only [] at h
    split_ifs at h
    · exact ObjRef.noConfusion (Option.some.inj h)
  | some v =>
    rw [hl] at h
    simp only [Option.some.injEq, ObjRef.action.injEq] at h
    rw [h]

/-- On a ready engine, `play` on a name whose normalized key is registered
makes the registered action current and leaves it started. -/
theorem play_target (st : Engine) (name : JsString) (opts : PlayOptions) (id : Nat)
    (a : AnimationAction) (hready : st.ready = true)
    (hreg : List.lookup (normalizeKey name) st.actions = some id) (ha : st.heap[id]? = some a) :
    (play st name opts).currentAction = some (.action id) ∧
      (play st name opts).heap[id]? = some (a.started
        (loopModeOf (opts.loop.getD (.str "repeat".toList))) (opts.fade.getD (1 / 4))) := by
  rw [play_eq_of_registered st name opts id hready hreg]
  refine ⟨rfl, ?_⟩
  cases hcur : st.currentAction with
  | none => simp [Engine.updateAction, hcur, List.getElem?_modify, ha]
  | some cur =>
    cases cur with
    | action c =>
      by_cases hc : c = id
      · subst hc
        simp [Engine.updateAction, hcur, List.getElem?_modify, ha]
      · have hne : ObjRef.action c ≠ ObjRef.action id := fun h => hc (ObjRef.action.inj h)
        simp [Engine.updateAction, hcur, Engine.tryCall, hne, List.getElem?_modify, ha, hc]
    | inherited k => simp [Engine.updateAction, hcur, Engine.tryCall, List.getElem?_modify, ha]

/-- A running loop that is not waiting for speech plays the key it picked
and waits for the clip to end. -/
theorem loopOnce_of_pick (env : LoopEnv) (minInterval maxInterval : ℚ) (st : Engine)
    (key : JsString) (action : ObjRef)
    (hrun : st.gestureLoopRunning = true)
    (hquiet : (env.speakToggleChecked && env.speaking) = false)
    (hne : gestureCandidates st ≠ []) (hpick : pickGesture st env.random = some key)
    (hget : st.actions.get key = some action) :
    loopOnce env minInterval maxInterval st =
      (play st key gestureOptions).armTimer (Callback.rearm minInterval maxInterval)
        (gestureDuration (play st key gestureOptions) action + 80) := by
  have hempty : (gestureCandidates st).isEmpty = false := by
    cases hc : gestureCandidates st with
    | nil => exact absurd hc hne
    | cons _ _ => rfl
  simp only [loopOnce, hrun, hquiet, hempty, hpick, hget, Option.getD_some, gestureOptions,
    Bool.not_true, Bool.false_eq_true, if_false]

theorem registered_entry (st : Engine) (h : RegistryInv st) (k : JsString)
    (hk : st.actions.IsRegistered k) :
    normalizeKey k = k ∧ ∃ id a, List.lookup k st.actions = some id ∧
      st.actions.get k = some (.action id) ∧ st.heap[id]? = some a := by
  obtain ⟨id, hmem, hget⟩ := get_of_mem_keys st.actions k ((mem_keys _ _).2 hk)
  obtain ⟨hnorm, hlt⟩ := h (k, id) hmem
  exact ⟨hnorm, id, st.heap[id], lookup_of_get_action _ _ _ hget, hget,
    List.getElem?_eq_getElem hlt⟩

/-- C22: `normalizeKey` is idempotent, and the two keys `loadAnimationFile`
writes for a clip (its registration name and the file key) are `normalizeKey`
outputs, so every key it adds to the registry is one.  Hence in every state
reachable from an engine with an empty registry (such as the initial engine)
by calls of `init`, `loadAnimationFile`, `play`, `startGestureLoop` and
`stopGestureLoop` and firings of pending timeouts, every registered key `k`
satisfies `normalizeKey(k) = k` and refers to an existing action, and on a
ready engine `play(k)` makes exactly `actions[k]` current and starts it; so
when a running gesture loop on a ready engine picks a key, the action
`loopOnce` read for that key is the one `play(key)` starts and makes current.
When the run started from an engine that was ready if it had a mixer (as the
initial engine is), every engine with a registered key is ready. -/
theorem registered_keys_round_trip (st₀ st : Engine) (h₀ : st₀.actions = [])
    (h : EngineReachable st₀ st) :
    (∀ s : JsString, normalizeKey (normalizeKey s) = normalizeKey s) ∧
      (∀ (filename : JsString) (clip : AnimationClip),
        normalizeKey (fileKey filename) = fileKey filename ∧
        normalizeKey (registrationName (fileKey filename) clip) =
          registrationName (fileKey filename) clip) ∧
      (∀ (loader : JsString → LoadOutcome) (s : Engine) (filename k : JsString),
        (loadAnimationFile loader s filename).actions.IsRegistered k →
        s.actions.IsRegistered k ∨ ∃ raw, k = normalizeKey raw) ∧
      (∀ k : JsString, st.actions.IsRegistered k →
        normalizeKey k = k ∧
        ∃ (id : Nat) (a : AnimationAction), st.actions.get k = some (.action id) ∧
          st.actions.get (normalizeKey k) = some (.action id) ∧
          st.heap[id]? = some a ∧
          (st.ready = true → ∀ opts : PlayOptions,
            (play st k opts).currentAction = some (.action id) ∧
            (play st k opts).heap[id]? = some (a.started
              (loopModeOf (opts.loop.getD (.str "repeat".toList))) (opts.fade.getD (1 / 4))))) ∧
      (∀ (env : LoopEnv) (minInterval maxInterval : ℚ),
        st.ready = true → st.gestureLoopRunning = true →
        (env.speakToggleChecked && env.speaking) = false →
        0 ≤ env.random → env.random < 1 → gestureCandidates st ≠ [] →
        ∃ (key : JsString) (id : Nat) (a : AnimationAction),
          pickGesture st env.random = some key ∧
          st.actions.get key = some (.action id) ∧ st.heap[id]? = some a ∧
          (loopOnce env minInterval maxInterval st).currentAction = some (.action id) ∧
          (loopOnce env minInterval maxInterval st).heap[id]? =
            some (a.started LoopOnce (3 / 25))) ∧
      ((st₀.mixer = true → st₀.ready = true) → st.actions ≠ [] → st.ready = true) := by
  have hinv : RegistryInv st :=
    (invariants_of_reachable st₀ st h).1 (registryInv_of_empty st₀ h₀)
  refine ⟨normalizeKey_idem, fun filename clip => ⟨normalizeKey_idem _,
    registrationName_normalized _ clip (normalizeKey_idem _)⟩, ?_, ?_, ?_, ?_⟩
  · intro loader s filename k hk
    obtain ⟨e, he, rfl⟩ := List.mem_map.1 hk
    rcases (loadAnimationFile_grows loader s filename).1.2 e he with h1 | h1
    · exact Or.inl (List.mem_map.2 ⟨e, h1, rfl⟩)
    · exact Or.inr ⟨e.1, h1.1.symm⟩
  · intro k hk
    obtain ⟨hnorm, id, a, hlookup, hget, ha⟩ := registered_entry st hinv k hk
    refine ⟨hnorm, id, a, hget, by rw [hnorm]; exact hget, ha, fun hready opts => ?_⟩
    exact play_target st k opts id a hready (by rw [hnorm]; exact hlookup) ha
  · intro env minInterval maxInterval hready hrun hquiet h0 h1 hne
    have hlen : 0 < (gestureCandidates st).length := List.length_pos.2 hne
    have hidx := randomIndex_lt env.random _ h0 h1 hlen
    have hpick : pickGesture st env.random =
        some ((gestureCandidates st)[randomIndex env.random (gestureCandidates st).length]) := by
      unfold pickGesture
      exact List.getElem?_eq_getElem hidx
    have hmem : (gestureCandidates st)[randomIndex env.random (gestureCandidates st).length] ∈
        gestureCandidates st := List.getElem_mem _
    generalize (gestureCandidates st)[randomIndex env.random (gestureCandidates st).length] = key
      at hpick hmem
    have hkeys : key ∈ st.actions.keys := by
      unfold gestureCandidates at hmem
      exact (List.mem_filter.1 hmem).1
    obtain ⟨hnorm, id, a, hlookup, hget, ha⟩ :=
      registered_entry st hinv key ((mem_keys _ _).1 hkeys)
    have hplay := play_target st key gestureOptions id a hready
      (by rw [hnorm]; exact hlookup) ha
    refine ⟨key, id, a, hpick, hget, ha, ?_, ?_⟩
    · rw [loopOnce_of_pick env minInterval maxInterval st key _ hrun hquiet hne hpick hget]
      exact hplay.1
    · rw [loopOnce_of_pick env minInterval maxInterval st key _ hrun hquiet hne hpick hget]
      exact hplay.2
  · intro hm hne
    exact (invariants_of_reachable st₀ st h).2
      (fun hx => hx.elim hm (fun hx => absurd h₀ hx)) (Or.inr hne)

/-- C22 (instance): after `init` on the initial engine, with a loader that
delivers a placeholder clip, the key `talking` is registered; it is its own
normal form and `play` resolves it to the registered action.  After a later
load of `Wave.fbx` the gesture loop picks a key and `play` starts the action
read for it. -/
theorem registered_keys_round_trip_witness :
    (init workingInitEnv initialEngine).1.actions.IsRegistered "talking".toList ∧
      normalizeKey "talking".toList = "talking".toList ∧
      (init workingInitEnv initialEngine).1.ready = true ∧
      (∃ (id : Nat) (a : AnimationAction),
        (init workingInitEnv initialEngine).1.actions.get "talking".toList = some (.action id) ∧
        (init workingInitEnv initialEngine).1.actions.get (normalizeKey "talking".toList) =
          some (.action id) ∧
        (init workingInitEnv initialEngine).1.heap[id]? = some a ∧
        ((init workingInitEnv initialEngine).1.ready = true → ∀ opts : PlayOptions,
          (play (init workingInitEnv initialEngine).1 "talking".toList opts).currentAction =
            some (.action id) ∧
          (play (init workingInitEnv initialEngine).1 "talking".toList opts).heap[id]? =
            some (a.started (loopModeOf (opts.loop.getD (.str "repeat".toList)))
              (opts.fade.getD (1 / 4))))) ∧
      ∃ (key : JsString) (id : Nat) (a : AnimationAction),
        pickGesture waveAfterInit (1 / 2) = some key ∧
        waveAfterInit.actions.get key = some (.action id) ∧ waveAfterInit.heap[id]? = some a ∧
        (loopOnce ⟨false, false, 1 / 2⟩ 2500 6000 waveAfterInit).currentAction =
          some (.action id) ∧
        (loopOnce ⟨false, false, 1 / 2⟩ 2500 6000 waveAfterInit).heap[id]? =
          some (a.started LoopOnce (3 / 25)) :=
  have hreg : (init workingInitEnv initialEngine).1.actions.IsRegistered "talking".toList := by
    decide
  ⟨hreg,
    ((registered_keys_round_trip initialEngine (init workingInitEnv initialEngine).1 rfl
      (Relation.ReflTransGen.single (EngineStep.init initialEngine workingInitEnv))).2.2.2.1
      "talking".toList hreg).1,
    ((registered_keys_round_trip initialEngine (init workingInitEnv initialEngine).1 rfl
      (Relation.ReflTransGen.single (EngineStep.init initialEngine workingInitEnv))).2.2.2.2.2
      (fun h => absurd h (by decide)) (fun h => by
        have := hreg
        rw [h] at this
        simp at this)),
    ((registered_keys_round_trip initialEngine (init workingInitEnv initialEngine).1 rfl
      (Relation.ReflTransGen.single (EngineStep.init initialEngine workingInitEnv))).2.2.2.1
      "talking".toList hreg).2,
    (registered_keys_round_trip initialEngine waveAfterInit rfl
      ((Relation.ReflTransGen.single (EngineStep.init initialEngine workingInitEnv)).tail
        (EngineStep.load _ fixtureLoader "Wave.fbx".toList))).2.2.2.2.1
      ⟨false, false, 1 / 2⟩ 2500 6000 (by decide) (by decide) rfl
      (show (0 : ℚ) ≤ 1 / 2 by norm_num) (show (1 / 2 : ℚ) < 1 by norm_num) (by decide)⟩

end Avatar3d
